import Mathlib

/-!
# fsa.c : an ext2 image analyzer

A shallow embedding of `src/fsa.c` (one C function, `main`) and theorems about it.

Conventions of the embedding.

* The image file is a list of bytes; the file descriptor is that list plus a read
  position.  `read` delivers the bytes available (never `-1`: the descriptor is a regular
  file opened read-only), `lseek` to a non-negative offset succeeds, also past the end of
  the file, and `lseek` to a negative offset fails with `-1`.
* `int` and `unsigned int` are 32 bits wide, `size_t` and `off_t` 64 bits (LP64), the host
  is little-endian.  Unsigned values are naturals below `2^32`; `int` values are integers
  wrapped into `[-2^31, 2^31)` by `toInt32`.
* The record layouts come from `<ext2fs/ext2_fs.h>` of e2fsprogs, which the program
  includes: the field offsets used by the decoders below are those of that header.
* Memory returned by `malloc` and automatic variables without initialiser hold
  indeterminate bytes: they are inputs of the model (`Env`).  Whether a call of `malloc`
  returns `NULL` is an input too (`Env.mallocNull`), by the number of the call and its size.
* Standard output is a string; every `lseek` and `read` is recorded in a log.
-/

namespace Fsa

/-! ## Machine integers and `printf` -/

abbrev Byte := Fin 256

/-- Value of an integer expression stored in an `int`. -/
def toInt32 (n : Int) : Int := (n + 2147483648) % 4294967296 - 2147483648

/-- Value of an integer expression converted to `unsigned int`. -/
def toUInt32 (n : Int) : Nat := (n % 4294967296).toNat

/-- The conversion `%d` of `printf`. -/
def printfD (x : Int) : String := toString x

/-- The constant of `#define BOOT_OFFSET 1024`. -/
def BOOT_OFFSET : Nat := 1024

/-- The constant of `#define BLOCK_SIZE 4096`. -/
def BLOCK_SIZE : Nat := 4096

/-! ## The file descriptor, standard output and the I/O log -/

inductive IOEvent where
  | seek (off : Int)
  | read (pos : Nat) (count : Nat)
  deriving DecidableEq, Repr

structure Proc where
  data : List Byte
  pos : Nat
  out : String
  log : List IOEvent
  deriving DecidableEq

/-- The `count` bytes of the file from position `pos` on, fewer at the end of the file. -/
def availAt (data : List Byte) (pos count : Nat) : List Byte := (data.drop pos).take count

namespace Proc

/-- Appending to standard output (`printf`). -/
def print (p : Proc) (s : String) : Proc := { p with out := p.out ++ s }

/-- Result of `lseek(fd, off, SEEK_SET)`: the new state and the value returned. -/
def lseek (p : Proc) (off : Int) : Proc × Int :=
  if off < 0 then ({ p with log := p.log ++ [IOEvent.seek off] }, -1)
  else ({ p with pos := off.toNat, log := p.log ++ [IOEvent.seek off] }, off)

/-- The bytes that `read(fd, buf, count)` transfers at the current position. -/
def avail (p : Proc) (count : Nat) : List Byte := availAt p.data p.pos count

/-- Result of `read(fd, buf, count)`: the new state, the buffer (its first `rv` bytes
overwritten, the rest as before) and the value returned. -/
def read (p : Proc) (buf : List Byte) (count : Nat) : Proc × List Byte × Nat :=
  let got := p.avail count
  ({ p with pos := p.pos + got.length, log := p.log ++ [IOEvent.read p.pos count] },
   got ++ buf.drop got.length, got.length)

end Proc

/-! ## The two bitmap scans of the group loop (lines 140-184 and 195-238) -/

structure ScanState where
  proc : Proc
  byte : Byte
  iBit : Nat
  tripped : Bool
  iLastRead : Int
  iLastLastRead : Int
  deriving DecidableEq

/-- Reading one byte into `byte` (`rv = read(fd, &byte, 1)`): at end of file nothing is
transferred and `byte` keeps its value. -/
def ScanState.readByte (s : ScanState) : ScanState :=
  let r := s.proc.read [s.byte] 1
  { s with proc := r.1, byte := r.2.1.headD s.byte }

/-- Body of the `k` loop of the block bitmap scan (lines 157-178). -/
def blockBit (j : Nat) (s : ScanState) (k : Nat) : ScanState :=
  let iBit := (s.byte.val >>> k) &&& 1
  let s1 : ScanState :=
    if iBit = 0 ∧ s.iLastRead = -1 then
      { s with tripped := true, proc := s.proc.print (printfD ((j : Int) * 8 + k)) }
    else if iBit = 0 ∧ s.iLastRead = 0 ∧ s.iLastLastRead = -1 then
      { s with proc := s.proc.print "-" }
    else if iBit = 1 ∧ s.iLastRead = 0 ∧ s.iLastLastRead = 0 then
      { s with proc := s.proc.print ("-" ++ printfD (((j : Int) * 8 - 1) + k)) }
    else if iBit = 0 ∧ s.iLastRead = 1 then
      { s with tripped := true,
               proc := (if s.tripped then s.proc.print ", " else s.proc).print
                         (printfD ((j : Int) * 8 + k)) }
    else if iBit = 1 ∧ s.iLastRead = 0 ∧ s.iLastLastRead = 0 then
      { s with proc := s.proc.print ("-" ++ printfD (((j : Int) * 8 - 1) + k)) }
    else s
  { s1 with iBit := iBit, iLastLastRead := s1.iLastRead, iLastRead := iBit }

/-- Body of the `j` loop of the block bitmap scan (lines 148-179). -/
def blockByte (s : ScanState) (j : Nat) : ScanState :=
  (List.range 8).foldl (blockBit j) s.readByte

/-- Lines 140-184: the scan of the block bitmap, from the position reached by the seek.
`byte0` is the indeterminate initial value of `byte`; `iBit` is assigned before it is
read. -/
def blockScan (iBlockRangeH : Int) (p : Proc) (byte0 : Byte) : ScanState :=
  let s0 : ScanState :=
    { proc := p, byte := byte0, iBit := 0, tripped := false,
      iLastRead := -1, iLastLastRead := -1 }
  let s := (List.range 4095).foldl blockByte s0
  if s.iBit = 0 ∧ s.iLastRead = 0 ∧ s.iLastLastRead = 0 then
    { s with proc := s.proc.print ("-" ++ printfD iBlockRangeH) }
  else s

/-- Body of the `k` loop of the inode bitmap scan (lines 211-232). -/
def inodeBit (j : Nat) (s : ScanState) (k : Nat) : ScanState :=
  let iBit := (s.byte.val >>> k) &&& 1
  let s1 : ScanState :=
    if iBit = 0 ∧ s.iLastRead = -1 then
      { s with proc := s.proc.print (printfD ((j : Int) * 8 + (k + 1))), tripped := true }
    else if iBit = 0 ∧ s.iLastRead = 0 ∧ s.iLastLastRead = -1 then
      { s with proc := s.proc.print "-" }
    else if iBit = 1 ∧ s.iLastRead = 0 ∧ s.iLastLastRead = 0 then
      { s with proc := s.proc.print ("-" ++ printfD (((j : Int) * 8 - 1) + (k + 1))) }
    else if iBit = 0 ∧ s.iLastRead = 1 then
      { s with proc := (if s.tripped then s.proc.print ", " else s.proc).print
                         (printfD ((j : Int) * 8 + (k + 1))),
               tripped := true }
    else if iBit = 1 ∧ s.iLastRead = 0 ∧ s.iLastLastRead = 0 then
      { s with proc := s.proc.print ("-" ++ printfD (((j : Int) * 8 - 1) + (k + 1))) }
    else s
  { s1 with iBit := iBit, iLastLastRead := s1.iLastRead, iLastRead := iBit }

/-- Body of the `j` loop of the inode bitmap scan (lines 202-233). -/
def inodeByte (s : ScanState) (j : Nat) : ScanState :=
  (List.range 8).foldl (inodeBit j) s.readByte

/-- Lines 195-238: the scan of the inode bitmap.  The variables of the block scan are
reused: `tripped` and the two look-back variables are reset, `byte` and `iBit` keep the
values the block scan left. -/
def inodeScan (iBlockRangeH : Int) (p : Proc) (byte : Byte) (iBit : Nat) : ScanState :=
  let s0 : ScanState :=
    { proc := p, byte := byte, iBit := iBit, tripped := false,
      iLastRead := -1, iLastLastRead := -1 }
  let s := (List.range 4095).foldl inodeByte s0
  if s.iBit = 0 ∧ s.iLastRead = 0 ∧ s.iLastLastRead = 0 then
    { s with proc := s.proc.print ("-" ++ printfD (toInt32 (iBlockRangeH + 1))) }
  else s

/-! ## Decoding the records of `<ext2fs/ext2_fs.h>` -/

/-- Byte `i` of a buffer. -/
def byteAt (buf : List Byte) (i : Nat) : Nat := (buf.getD i 0).val

/-- An `__u16` field at byte offset `off`. -/
def le16 (buf : List Byte) (off : Nat) : Nat := byteAt buf off + 256 * byteAt buf (off + 1)

/-- An `__u32` field at byte offset `off`. -/
def le32 (buf : List Byte) (off : Nat) : Nat :=
  byteAt buf off + 256 * byteAt buf (off + 1) + 65536 * byteAt buf (off + 2)
    + 16777216 * byteAt buf (off + 3)

/-- The size `sizeof(struct ext2_super_block)`. -/
def SIZEOF_SUPER_BLOCK : Nat := 1024

/-- The size `sizeof(struct ext2_group_desc)`. -/
def SIZEOF_GROUP_DESC : Nat := 32

/-- The size `sizeof(struct ext2_inode)`. -/
def SIZEOF_INODE : Nat := 128

/-- The size `sizeof(struct ext2_dir_entry_2)`: an 8-byte header, `name[255]` and one byte
of padding. -/
def SIZEOF_DIR_ENTRY : Nat := 264

/-- The fields of `struct ext2_super_block` that the program uses. -/
structure SuperBlock where
  s_inodes_count : Nat
  s_blocks_count : Nat
  s_first_data_block : Nat
  s_log_block_size : Nat
  s_blocks_per_group : Nat
  s_inodes_per_group : Nat
  s_inode_size : Nat
  deriving DecidableEq, Repr

def decodeSuperBlock (buf : List Byte) : SuperBlock :=
  { s_inodes_count := le32 buf 0
    s_blocks_count := le32 buf 4
    s_first_data_block := le32 buf 20
    s_log_block_size := le32 buf 24
    s_blocks_per_group := le32 buf 32
    s_inodes_per_group := le32 buf 40
    s_inode_size := le16 buf 88 }

/-- The fields of `struct ext2_group_desc` that the program uses. -/
structure GroupDesc where
  bg_block_bitmap : Nat
  bg_inode_bitmap : Nat
  bg_inode_table : Nat
  bg_free_blocks_count : Nat
  bg_free_inodes_count : Nat
  bg_used_dirs_count : Nat
  deriving DecidableEq, Repr

/-- The element `gd2[i]` of the descriptor array held in `buf`. -/
def decodeGroupDesc (buf : List Byte) (i : Nat) : GroupDesc :=
  { bg_block_bitmap := le32 buf (SIZEOF_GROUP_DESC * i)
    bg_inode_bitmap := le32 buf (SIZEOF_GROUP_DESC * i + 4)
    bg_inode_table := le32 buf (SIZEOF_GROUP_DESC * i + 8)
    bg_free_blocks_count := le16 buf (SIZEOF_GROUP_DESC * i + 12)
    bg_free_inodes_count := le16 buf (SIZEOF_GROUP_DESC * i + 14)
    bg_used_dirs_count := le16 buf (SIZEOF_GROUP_DESC * i + 16) }

/-- The fields of `struct ext2_inode` that the program uses. -/
structure Inode where
  i_size : Nat
  i_block0 : Nat
  deriving DecidableEq, Repr

def decodeInode (buf : List Byte) : Inode :=
  { i_size := le32 buf 4, i_block0 := le32 buf 40 }

/-- The fixed fields of `struct ext2_dir_entry_2`. -/
structure DirEntry where
  inode : Nat
  rec_len : Nat
  name_len : Nat
  file_type : Nat
  deriving DecidableEq, Repr

def decodeDirEntry (buf : List Byte) : DirEntry :=
  { inode := le32 buf 0, rec_len := le16 buf 4, name_len := byteAt buf 6,
    file_type := byteAt buf 7 }

/-- The conversion `%s` of `printf` applied to memory holding `mem`: the bytes before the
first zero byte. -/
def printfS (mem : List Byte) : String :=
  String.mk ((mem.takeWhile (fun b => b.val != 0)).map (fun b => Char.ofNat b.val))

/-! ## Derived quantities of the superblock -/

/-- The expression `1024 << sb2->s_log_block_size`, of type `int`.  The shift count is
taken modulo 32 and the result wrapped, as the x86 shift instruction does where C leaves
the result undefined. -/
def shl1024 (s : Nat) : Int := toInt32 ((1024 : Int) * 2 ^ (s % 32))

/-- The expression `sb2->s_inodes_count / sb2->s_inodes_per_group` (lines 81, 89, 103,
108 and 116), for a divisor that is not zero. -/
def groupCount (sb : SuperBlock) : Nat := sb.s_inodes_count / sb.s_inodes_per_group

/-! ## The program -/

/-- How a run ends.  `fpe` is an integer division by zero (the process is killed by
SIGFPE); `running` is a run still inside the directory loop when the fuel of the model is
used up. -/
inductive Outcome where
  | exited (status : Nat)
  | fpe
  | running
  deriving DecidableEq, Repr

/-- The inputs of a run: the number of arguments, the content of the image file (`none`
when `open` fails), whether the `malloc` call number `k` (0 for `sb2`, 1 for `gd2`, 2 for
`ino2`, 3 for `de2`) of a given size returns `NULL`, and the indeterminate memory the
program reads before writing it. -/
structure Env where
  argc : Nat
  image : Option (List Byte)
  mallocNull : Nat → Nat → Bool
  sbMem : List Byte
  gdMem : List Byte
  inoMem : List Byte
  deMem : List Byte
  deTail : List Byte
  byte0 : Nat → Byte

structure Run where
  proc : Proc
  outcome : Outcome

/-- Lines 73-81: the general information section, printed when the superblock read was
complete.  The boolean tells whether a division by zero stopped the run. -/
def generalInfo (sb : SuperBlock) (p : Proc) : Proc × Bool :=
  let p := p.print "--General File System Information--\n"
  let p := p.print ("Block Size in Bytes : " ++ printfD (shl1024 sb.s_log_block_size) ++ "\n")
  let p := p.print ("Total Number of Blocks : " ++ printfD (toInt32 sb.s_blocks_count) ++ "\n")
  let p := p.print ("Disk Size in Bytes : "
    ++ printfD (toInt32 (sb.s_blocks_count * toUInt32 (shl1024 sb.s_log_block_size))) ++ "\n")
  let p := p.print ("Maximum Number of Blocks Per Group : "
    ++ printfD (toInt32 sb.s_blocks_per_group) ++ "\n")
  let p := p.print ("Inode Size in Bytes : " ++ printfD sb.s_inode_size ++ "\n")
  let p := p.print ("Number of Inodes Per Group : "
    ++ printfD (toInt32 sb.s_inodes_per_group) ++ "\n")
  if sb.s_inode_size = 0 then (p, true)
  else
    let perBlock := toUInt32 (Int.tdiv (shl1024 sb.s_log_block_size) sb.s_inode_size)
    if perBlock = 0 then (p, true)
    else
      let p := p.print ("Number of Inode Blocks Per Group : "
        ++ printfD (toInt32 (sb.s_inodes_per_group / perBlock : Nat)) ++ "\n")
      if sb.s_inodes_per_group = 0 then (p, true)
      else
        (p.print ("Number of Groups : " ++ printfD (toInt32 (groupCount sb)) ++ "\n\n"), false)

/-- The variables of the group loop that live across iterations. -/
structure GroupVars where
  proc : Proc
  iTotalNoBlocks : Int
  iBlockRangeL : Int
  iBlockRangeH : Int

/-- Offset of the seek before a bitmap scan: `id * BLOCK_SIZE` in `unsigned int`. -/
def bitmapOffset (id : Nat) : Int := ((id * BLOCK_SIZE % 4294967296 : Nat) : Int)

/-- Lines 117-239: one iteration of the group loop, for group `i` with descriptor `gd`. -/
def groupBody (sb : SuperBlock) (gdBuf : List Byte) (byte0 : Nat → Byte)
    (v : GroupVars) (i : Nat) : GroupVars :=
  let gd := decodeGroupDesc gdBuf i
  let p := v.proc.print ("-Group " ++ printfD (toInt32 i) ++ " -\n")
  let iBlockRangeL := toInt32 (v.iBlockRangeH + 1)
  let small := toUInt32 v.iTotalNoBlocks < sb.s_blocks_per_group
  let iBlockRangeH :=
    if small then toInt32 (v.iBlockRangeH + v.iTotalNoBlocks)
    else toInt32 (v.iBlockRangeH + sb.s_blocks_per_group)
  let iTotalNoBlocks :=
    if small then v.iTotalNoBlocks else toInt32 (v.iTotalNoBlocks - sb.s_blocks_per_group)
  let p := p.print ("Block IDs : " ++ printfD iBlockRangeL ++ "-" ++ printfD iBlockRangeH ++ "\n")
  let p := p.print ("Block Bitmap Block ID : " ++ printfD (toInt32 gd.bg_block_bitmap) ++ "\n")
  let p := p.print ("Inode Bitmap Block ID : " ++ printfD (toInt32 gd.bg_inode_bitmap) ++ "\n")
  let p := p.print ("Inode Table Block ID : " ++ printfD (toInt32 gd.bg_inode_table) ++ "\n")
  let p := p.print ("Number of Free Blocks : " ++ printfD gd.bg_free_blocks_count ++ "\n")
  let p := p.print ("Number of Free Inodes : " ++ printfD gd.bg_free_inodes_count ++ "\n")
  let p := p.print ("Number of Directories : " ++ printfD gd.bg_used_dirs_count ++ "\n")
  let p := p.print "Free Block IDs : "
  let p := (p.lseek (bitmapOffset gd.bg_block_bitmap)).1
  let s := blockScan iBlockRangeH p (byte0 i)
  let p := s.proc.print "\n"
  let p := p.print "Free Inode IDs : "
  let p := (p.lseek (bitmapOffset gd.bg_inode_bitmap)).1
  let s := inodeScan iBlockRangeH p s.byte s.iBit
  let p := s.proc.print "\n\n"
  { proc := p, iTotalNoBlocks := iTotalNoBlocks, iBlockRangeL := iBlockRangeL,
    iBlockRangeH := iBlockRangeH }

/-- Lines 109-240: the group section, executed when the descriptor table was read in
full. -/
def groupSection (sb : SuperBlock) (gdBuf : List Byte) (byte0 : Nat → Byte) (p : Proc) :
    GroupVars :=
  let p := p.print "--Individual Group Information--\n"
  let v0 : GroupVars :=
    { proc := p, iTotalNoBlocks := toInt32 sb.s_blocks_count,
      iBlockRangeL := toInt32 sb.s_first_data_block,
      iBlockRangeH := toInt32 ((sb.s_first_data_block : Int) - 1) }
  (List.range (groupCount sb)).foldl (groupBody sb gdBuf byte0) v0

/-- Offset of the seek before the root inode is read (line 255): the product is formed in
`unsigned int`, the sum in `size_t`. -/
def rootInodeOffset (gd0 : GroupDesc) : Int :=
  ((gd0.bg_inode_table * BLOCK_SIZE % 4294967296 + (2 - 1) * SIZEOF_INODE : Nat) : Int)

/-- The expression `ino2->i_block[0] * BLOCK_SIZE`, in `unsigned int`. -/
def dirStart (ino : Inode) : Nat := ino.i_block0 * BLOCK_SIZE % 4294967296

/-- The five `printf` calls of the directory loop (lines 292-296), for given values of
the arguments. -/
def entryLines (inode rec_len name_len file_type : Nat) (name : String) : String :=
  "Inode: " ++ printfD (toInt32 inode) ++ "\n"
    ++ ("Entry Length : " ++ printfD rec_len ++ "\n")
    ++ ("Name Length : " ++ printfD name_len ++ "\n")
    ++ ("File Type : " ++ printfD file_type ++ "\n")
    ++ ("Name : " ++ name ++ "\n\n")

/-- The text printed for the entry held in the buffer `de2`; `deTail` is the memory that
follows the buffer, which `%s` reads when the buffer holds no zero byte from `name` on. -/
def entryText (deBuf deTail : List Byte) : String :=
  entryLines (decodeDirEntry deBuf).inode (decodeDirEntry deBuf).rec_len
    (decodeDirEntry deBuf).name_len (decodeDirEntry deBuf).file_type
    (printfS (deBuf.drop 8 ++ deTail))

/-- The variables of the directory loop. -/
structure WalkState where
  proc : Proc
  deBuf : List Byte
  iNextDir : Int

/-- How the directory loop ends: its condition became false, the seek failed (`exit(1)`),
or it is still running when the fuel is used up. -/
inductive WalkEnd where
  | finished
  | seekFailed
  | running
  deriving DecidableEq, Repr

/-- The condition of the directory loop (line 291), evaluated in `unsigned int`. -/
def walkCond (ino : Inode) (iNextDir : Int) : Prop :=
  toUInt32 iNextDir < (ino.i_block0 * BLOCK_SIZE + ino.i_size) % 4294967296

instance (ino : Inode) (iNextDir : Int) : Decidable (walkCond ino iNextDir) := by
  unfold walkCond; exact inferInstance

/-- Lines 291-312: the directory loop, run for at most `fuel` iterations. -/
def walkLoop (ino : Inode) (deTail : List Byte) : Nat → WalkState → WalkState × WalkEnd
  | 0, w => if walkCond ino w.iNextDir then (w, WalkEnd.running) else (w, WalkEnd.finished)
  | fuel + 1, w =>
    if walkCond ino w.iNextDir then
      let p := w.proc.print (entryText w.deBuf deTail)
      let iNextDir := toInt32 (w.iNextDir + (decodeDirEntry w.deBuf).rec_len)
      let r := p.lseek iNextDir
      if r.2 ≠ iNextDir then ({ w with proc := r.1, iNextDir := iNextDir }, WalkEnd.seekFailed)
      else
        let rd := r.1.read w.deBuf SIZEOF_DIR_ENTRY
        walkLoop ino deTail fuel { proc := rd.1, deBuf := rd.2.1, iNextDir := iNextDir }
    else (w, WalkEnd.finished)

/-- Lines 275-312: the seek to the directory block, the first entry read, the heading and
the directory loop. -/
def dirWalk (ino : Inode) (deMem deTail : List Byte) (fuel : Nat) (p : Proc) :
    WalkState × WalkEnd :=
  let p := (p.lseek (dirStart ino)).1
  let rd := p.read deMem SIZEOF_DIR_ENTRY
  let p := rd.1.print "--Root Directory Entries--\n"
  walkLoop ino deTail fuel { proc := p, deBuf := rd.2.1, iNextDir := toInt32 (dirStart ino) }

/-- Lines 246-332: the root inode is read, then the root directory is walked.  A `malloc`
that returns `NULL` ends the run with `exit(1)`. -/
def partThree (env : Env) (gd0 : GroupDesc) (fuel : Nat) (p : Proc) : Run :=
  if env.mallocNull 2 SIZEOF_INODE then { proc := p, outcome := Outcome.exited 1 }
  else
    let p := (p.lseek (rootInodeOffset gd0)).1
    let ri := p.read env.inoMem SIZEOF_INODE
    if env.mallocNull 3 SIZEOF_DIR_ENTRY then { proc := ri.1, outcome := Outcome.exited 1 }
    else
      let w := dirWalk (decodeInode ri.2.1) env.deMem env.deTail fuel ri.1
      match w.2 with
      | WalkEnd.finished => { proc := w.1.proc, outcome := Outcome.exited 0 }
      | WalkEnd.seekFailed => { proc := w.1.proc, outcome := Outcome.exited 1 }
      | WalkEnd.running => { proc := w.1.proc, outcome := Outcome.running }

/-- Lines 87-241: the descriptor table is read and, when the read was complete, the group
section is printed.  The result is the state and the descriptor buffer. -/
def partTwo (env : Env) (sb : SuperBlock) (p : Proc) : Proc × List Byte :=
  let p := (p.lseek ((1 * BLOCK_SIZE : Nat) : Int)).1
  let r := p.read env.gdMem (SIZEOF_GROUP_DESC * groupCount sb)
  if r.2.2 = SIZEOF_GROUP_DESC * groupCount sb then
    ((groupSection sb r.2.1 env.byte0 r.1).proc, r.2.1)
  else (r.1, r.2.1)

/-- Lines 87-332, from the allocation of the descriptor array on: `gd2` is allocated
for `s_inodes_count / s_inodes_per_group` descriptors (`exit(1)` when `malloc` returns
`NULL`), then parts two and three are executed. -/
def afterSuperBlock (env : Env) (sb : SuperBlock) (fuel : Nat) (p : Proc) : Run :=
  if env.mallocNull 1 (SIZEOF_GROUP_DESC * groupCount sb) then
    { proc := p, outcome := Outcome.exited 1 }
  else
    let t := partTwo env sb p
    partThree env (decodeGroupDesc t.2 0) fuel t.1

/-- The function `main`, with `fuel` bounding the iterations of the directory loop. -/
def main (env : Env) (fuel : Nat) : Run :=
  let p0 : Proc := { data := [], pos := 0, out := "", log := [] }
  if env.argc < 2 ∨ env.argc > 2 then
    { proc := p0.print "Sorry, but something's not quite right about your invocation.\n",
      outcome := Outcome.exited 1 }
  else
    match env.image with
    | none => { proc := p0, outcome := Outcome.exited 1 }
    | some data =>
      if env.mallocNull 0 SIZEOF_SUPER_BLOCK then
        { proc := { p0 with data := data }, outcome := Outcome.exited 1 }
      else
        let p := ({ p0 with data := data }.lseek BOOT_OFFSET).1
        let r := p.read env.sbMem SIZEOF_SUPER_BLOCK
        let sb := decodeSuperBlock r.2.1
        let g := if r.2.2 = SIZEOF_SUPER_BLOCK then generalInfo sb r.1 else (r.1, false)
        if g.2 then { proc := g.1, outcome := Outcome.fpe }
        else if sb.s_inodes_per_group = 0 then { proc := g.1, outcome := Outcome.fpe }
        else afterSuperBlock env sb fuel g.1

/-! ## The scans as an automaton over bit indices

Both scans run the same five-way branch on `(iBit, iLastRead, iLastLastRead)`; they differ
in the numbers printed.  `autoStep first` is that branch with the bit index `i = 8 j + k`
and the offset `first` made explicit; the lemmas below show that the two loops of the
source compute it with `first = 0` and `first = 1`. -/

/-- The scan variables apart from the file and `byte`, with standard output. -/
structure Auto where
  out : String
  iBit : Nat
  tripped : Bool
  last : Int
  lastlast : Int
  deriving DecidableEq

def ScanState.auto (s : ScanState) : Auto :=
  { out := s.proc.out, iBit := s.iBit, tripped := s.tripped, last := s.iLastRead,
    lastlast := s.iLastLastRead }

def autoStep (first : Int) (a : Auto) (i : Nat) (bit : Nat) : Auto :=
  let a1 : Auto :=
    if bit = 0 ∧ a.last = -1 then
      { a with tripped := true, out := a.out ++ printfD ((i : Int) + first) }
    else if bit = 0 ∧ a.last = 0 ∧ a.lastlast = -1 then
      { a with out := a.out ++ "-" }
    else if bit = 1 ∧ a.last = 0 ∧ a.lastlast = 0 then
      { a with out := a.out ++ ("-" ++ printfD ((i : Int) - 1 + first)) }
    else if bit = 0 ∧ a.last = 1 then
      { a with tripped := true,
               out := (if a.tripped then a.out ++ ", " else a.out) ++ printfD ((i : Int) + first) }
    else a
  { a1 with iBit := bit, lastlast := a1.last, last := bit }

/-- Running the automaton over the bits `bit i, ..., bit (i + n - 1)`. -/
def autoRun (first : Int) (bit : Nat → Nat) : Nat → Nat → Auto → Auto
  | _, 0, a => a
  | i, n + 1, a => autoRun first bit (i + 1) n (autoStep first a i (bit i))

/-- Bit `i` of the bytes stored from position `pos` on, least significant bit first. -/
def fileBit (data : List Byte) (pos : Nat) (i : Nat) : Nat :=
  ((data.getD (pos + i / 8) 0).val >>> (i % 8)) &&& 1

/-! ## Definitions used in the statements and proofs below -/

/-- A loop body that computes `autoStep first` and leaves the file and `byte` alone. -/
structure BitBody (first : Int) (f : Nat → ScanState → Nat → ScanState) : Prop where
  auto : ∀ j k s, (f j s k).auto = autoStep first s.auto (8 * j + k) ((s.byte.val >>> k) &&& 1)
  byte : ∀ j k s, (f j s k).byte = s.byte
  data : ∀ j k s, (f j s k).proc.data = s.proc.data
  pos : ∀ j k s, (f j s k).proc.pos = s.proc.pos
  log : ∀ j k s, (f j s k).proc.log = s.proc.log

/-- The body of a `j` loop whose `k` loop runs `f`. -/
def byteLoop (f : Nat → ScanState → Nat → ScanState) (s : ScanState) (j : Nat) : ScanState :=
  (List.range 8).foldl (f j) s.readByte

/-- What is on standard output after the test that follows the loops (lines 181-184 and
235-238), `h` being the number printed there. -/
def closeOut (h : String) (a : Auto) : String :=
  if a.iBit = 0 ∧ a.last = 0 ∧ a.lastlast = 0 then a.out ++ ("-" ++ h) else a.out

/-- Whether bit position `i` lies in one of the inclusive ranges. -/
def freeAt (ranges : List (Nat × Nat)) (i : Nat) : Bool :=
  ranges.any (fun r => decide (r.1 ≤ i) && decide (i ≤ r.2))

/-- The bit at position `i` of the bitmap in which exactly the positions of the ranges
are 0. -/
def bitOf (ranges : List (Nat × Nat)) (i : Nat) : Nat := if freeAt ranges i then 0 else 1

/-- Byte `j` of that bitmap: bit `k` of the byte is bit `8 j + k` of the bitmap. -/
def mkByte (ranges : List (Nat × Nat)) (j : Nat) : Byte :=
  Fin.ofNat (bitOf ranges (8 * j) + 2 * bitOf ranges (8 * j + 1) + 4 * bitOf ranges (8 * j + 2)
    + 8 * bitOf ranges (8 * j + 3) + 16 * bitOf ranges (8 * j + 4)
    + 32 * bitOf ranges (8 * j + 5) + 64 * bitOf ranges (8 * j + 6)
    + 128 * bitOf ranges (8 * j + 7))

/-- The bitmap of `n` bytes in which exactly the positions of the ranges are 0. -/
def mkBitmap (n : Nat) (ranges : List (Nat × Nat)) : List Byte :=
  (List.range n).map (mkByte ranges)

/-- A run as the specification writes it: a single id, or `start-end`. -/
def fmtRange (first : Int) (r : Nat × Nat) : String :=
  if r.1 = r.2 then printfD ((r.1 : Int) + first)
  else printfD ((r.1 : Int) + first) ++ ("-" ++ printfD ((r.2 : Int) + first))

/-- The runs in the order given, each run after the first preceded by `", "`; `tripped`
tells whether a run came before. -/
def runsText (first : Int) : Bool → List (Nat × Nat) → String
  | _, [] => ""
  | tripped, r :: rs =>
    ((if tripped then ", " else "") ++ fmtRange first r) ++ runsText first true rs

/-- Ranges that are non-empty, ascending from `lo` on, end before `hi`, and leave at least
one position between a range and the next. -/
def Runs (lo hi : Nat) : List (Nat × Nat) → Prop
  | [] => True
  | r :: rs => lo ≤ r.1 ∧ r.1 ≤ r.2 ∧ r.2 < hi ∧ Runs (r.2 + 2) hi rs

instance Runs.decide : ∀ (lo hi : Nat) (rs : List (Nat × Nat)), Decidable (Runs lo hi rs)
  | _, _, [] => isTrue trivial
  | lo, hi, r :: rs =>
    have := Runs.decide (r.2 + 2) hi rs
    by unfold Runs; exact inferInstance

/-- The quotient rounded up, `ceil(a / b)`, as the specification writes the group
count. -/
def ceilDiv (a b : Nat) : Nat := (a + b - 1) / b

/-- A superblock with 10 inodes, 4 inodes per group, 1024-byte blocks and 128-byte inode
records. -/
def sbTenFour : SuperBlock :=
  { s_inodes_count := 10, s_blocks_count := 64, s_first_data_block := 1,
    s_log_block_size := 0, s_blocks_per_group := 8192, s_inodes_per_group := 4,
    s_inode_size := 128 }

/-- The string `s` written `n` times. -/
def repeatText (s : String) : Nat → String
  | 0 => ""
  | n + 1 => s ++ repeatText s n

/-- The buffer `de2` after the entry at offset `z` has been read into it. -/
def nextBuf (data deBuf : List Byte) (z : Int) : List Byte :=
  availAt data z.toNat SIZEOF_DIR_ENTRY
    ++ deBuf.drop (availAt data z.toNat SIZEOF_DIR_ENTRY).length

/-- The offset of the entry after the one held in `deBuf`, read at offset `z`. -/
def nextOff (deBuf : List Byte) (z : Int) : Int :=
  toInt32 (z + ((decodeDirEntry deBuf).rec_len : Int))

/-- The bytes of a directory block that begins with an entry A (`rec_len = 12`,
`name_len = 1`, name `.`, its four-byte name field padded with a zero byte and two more
bytes) followed by an entry B (`name_len = 2`, name `..` and a zero byte after it). -/
structure TwoEntries where
  a0 : Byte
  a1 : Byte
  a2 : Byte
  a3 : Byte
  aType : Byte
  pad0 : Byte
  pad1 : Byte
  b0 : Byte
  b1 : Byte
  b2 : Byte
  b3 : Byte
  lo : Byte
  hi : Byte
  bType : Byte

namespace TwoEntries

def bytes (d : TwoEntries) : List Byte :=
  [d.a0, d.a1, d.a2, d.a3, 12, 0, 1, d.aType, 46, 0, d.pad0, d.pad1,
   d.b0, d.b1, d.b2, d.b3, d.lo, d.hi, 2, d.bType, 46, 46, 0]

def inodeA (d : TwoEntries) : Nat :=
  d.a0.val + 256 * d.a1.val + 65536 * d.a2.val + 16777216 * d.a3.val

def inodeB (d : TwoEntries) : Nat :=
  d.b0.val + 256 * d.b1.val + 65536 * d.b2.val + 16777216 * d.b3.val

def recLenB (d : TwoEntries) : Nat := d.lo.val + 256 * d.hi.val

end TwoEntries

/-- The two entries of a fresh root directory in a 4096-byte block: `.` and `..`, both for
inode 2 and of file type 2, the second with `rec_len = 4084 = 4096 - 12`. -/
def rootDirEntries : TwoEntries :=
  { a0 := 2, a1 := 0, a2 := 0, a3 := 0, aType := 2, pad0 := 0, pad1 := 0,
    b0 := 2, b1 := 0, b2 := 0, b3 := 0, lo := 244, hi := 15, bType := 2 }

/-- The block size of the superblock, `1024 << s_log_block_size`, as a natural number. -/
def sbBlockSize (sb : SuperBlock) : Nat := 1024 <<< sb.s_log_block_size

/-- The offset of the root inode as the specification computes it:
`inode_table_block × block_size + (inode_index − 1) × inode_record_size` for inode 2. -/
def claimedRootInodeOffset (sb : SuperBlock) (gd0 : GroupDesc) : Nat :=
  gd0.bg_inode_table * sbBlockSize sb + (2 - 1) * sb.s_inode_size

/-- A run on the image `data` with two arguments, every `malloc` succeeding and all
indeterminate memory being zero. -/
def envOf (data : List Byte) : Env :=
  { argc := 2, image := some data, mallocNull := fun _ _ => false, sbMem := [], gdMem := [],
    inoMem := [], deMem := [], deTail := [], byte0 := fun _ => 0 }

/-- A group descriptor whose inode table starts at block 5. -/
def gdFive : GroupDesc :=
  { bg_block_bitmap := 3, bg_inode_bitmap := 4, bg_inode_table := 5,
    bg_free_blocks_count := 0, bg_free_inodes_count := 0, bg_used_dirs_count := 0 }

/-- The offsets of the seeks recorded in a log, in order. -/
def seeks : List IOEvent → List Int
  | [] => []
  | IOEvent.seek z :: l => z :: seeks l
  | IOEvent.read _ _ :: l => seeks l

/-- Several `printf` calls in a row. -/
def printAll (ts : List String) (p : Proc) : Proc := ts.foldl Proc.print p

/-- The lines a group iteration prints before it seeks to the block bitmap. -/
def groupPrints (gd : GroupDesc) (i : Nat) (iBlockRangeL iBlockRangeH : Int) (p : Proc) : Proc :=
  printAll
    ["-Group " ++ printfD (toInt32 i) ++ " -\n",
     "Block IDs : " ++ printfD iBlockRangeL ++ "-" ++ printfD iBlockRangeH ++ "\n",
     "Block Bitmap Block ID : " ++ printfD (toInt32 gd.bg_block_bitmap) ++ "\n",
     "Inode Bitmap Block ID : " ++ printfD (toInt32 gd.bg_inode_bitmap) ++ "\n",
     "Inode Table Block ID : " ++ printfD (toInt32 gd.bg_inode_table) ++ "\n",
     "Number of Free Blocks : " ++ printfD gd.bg_free_blocks_count ++ "\n",
     "Number of Free Inodes : " ++ printfD gd.bg_free_inodes_count ++ "\n",
     "Number of Directories : " ++ printfD gd.bg_used_dirs_count ++ "\n",
     "Free Block IDs : "] p

/-- The value of `iBlockRangeH` after the iteration that starts with the variables `v`. -/
def nextRangeH (sb : SuperBlock) (v : GroupVars) : Int :=
  if toUInt32 v.iTotalNoBlocks < sb.s_blocks_per_group then
    toInt32 (v.iBlockRangeH + v.iTotalNoBlocks)
  else toInt32 (v.iBlockRangeH + sb.s_blocks_per_group)

/-- The value of `iTotalNoBlocks` after the iteration that starts with the variables `v`. -/
def nextTotal (sb : SuperBlock) (v : GroupVars) : Int :=
  if toUInt32 v.iTotalNoBlocks < sb.s_blocks_per_group then v.iTotalNoBlocks
  else toInt32 (v.iTotalNoBlocks - sb.s_blocks_per_group)

/-- The body of the group loop with the two scans as parameters. -/
def groupBodyWith (bScan : Int → Proc → Byte → ScanState)
    (iScan : Int → Proc → Byte → Nat → ScanState) (sb : SuperBlock) (gdBuf : List Byte)
    (byte0 : Nat → Byte) (v : GroupVars) (i : Nat) : GroupVars :=
  { proc :=
      (iScan (nextRangeH sb v)
        (((((bScan (nextRangeH sb v)
          ((groupPrints (decodeGroupDesc gdBuf i) i (toInt32 (v.iBlockRangeH + 1))
              (nextRangeH sb v) v.proc).lseek
            (bitmapOffset (decodeGroupDesc gdBuf i).bg_block_bitmap)).1
          (byte0 i)).proc.print "\n").print "Free Inode IDs : ").lseek
            (bitmapOffset (decodeGroupDesc gdBuf i).bg_inode_bitmap)).1)
        (bScan (nextRangeH sb v)
          ((groupPrints (decodeGroupDesc gdBuf i) i (toInt32 (v.iBlockRangeH + 1))
              (nextRangeH sb v) v.proc).lseek
            (bitmapOffset (decodeGroupDesc gdBuf i).bg_block_bitmap)).1
          (byte0 i)).byte
        (bScan (nextRangeH sb v)
          ((groupPrints (decodeGroupDesc gdBuf i) i (toInt32 (v.iBlockRangeH + 1))
              (nextRangeH sb v) v.proc).lseek
            (bitmapOffset (decodeGroupDesc gdBuf i).bg_block_bitmap)).1
          (byte0 i)).iBit).proc.print "\n\n",
    iTotalNoBlocks := nextTotal sb v,
    iBlockRangeL := toInt32 (v.iBlockRangeH + 1),
    iBlockRangeH := nextRangeH sb v }

/-- The seeks of the group loop over the groups `l`: two per group, in order. -/
def groupSeeks (gdBuf : List Byte) : List Nat → List Int
  | [] => []
  | i :: l => bitmapOffset (decodeGroupDesc gdBuf i).bg_block_bitmap
      :: bitmapOffset (decodeGroupDesc gdBuf i).bg_inode_bitmap :: groupSeeks gdBuf l

/-- The buffer `sb2` after the read of the superblock: the bytes the file delivered,
then what the buffer held before. -/
def sbBuf (env : Env) (data : List Byte) : List Byte :=
  availAt data 1024 1024 ++ env.sbMem.drop (availAt data 1024 1024).length

/-- The process state after the read of the superblock, when nothing was printed. -/
def procAfterSb (data : List Byte) : Proc :=
  { data := data, pos := 1024 + (availAt data 1024 1024).length, out := "",
    log := [IOEvent.seek 1024, IOEvent.read 1024 1024] }

/-- The part of `main` that follows a successful `open` and a successful allocation of
`sb2`. -/
def afterOpen (env : Env) (data : List Byte) (fuel : Nat) : Run :=
  let p := (({ data := data, pos := 0, out := "", log := [] } : Proc).lseek BOOT_OFFSET).1
  let r := p.read env.sbMem SIZEOF_SUPER_BLOCK
  let sb := decodeSuperBlock r.2.1
  let g := if r.2.2 = SIZEOF_SUPER_BLOCK then generalInfo sb r.1 else (r.1, false)
  if g.2 then { proc := g.1, outcome := Outcome.fpe }
  else if sb.s_inodes_per_group = 0 then { proc := g.1, outcome := Outcome.fpe }
  else afterSuperBlock env sb fuel g.1

/-- Part three when both of its allocations succeed. -/
def partThreeOk (env : Env) (gd0 : GroupDesc) (fuel : Nat) (p : Proc) : Run :=
  let p := (p.lseek (rootInodeOffset gd0)).1
  let ri := p.read env.inoMem SIZEOF_INODE
  let w := dirWalk (decodeInode ri.2.1) env.deMem env.deTail fuel ri.1
  match w.2 with
  | WalkEnd.finished => { proc := w.1.proc, outcome := Outcome.exited 0 }
  | WalkEnd.seekFailed => { proc := w.1.proc, outcome := Outcome.exited 1 }
  | WalkEnd.running => { proc := w.1.proc, outcome := Outcome.running }

/-- An image of 1065 bytes: it ends inside the superblock record, of which it holds the
first 41 bytes, all zero but the low byte of `s_inodes_per_group`, which is 1. -/
def truncatedImage : List Byte := List.replicate 1064 0 ++ [1]

/-- The superblock of a file system of 2 GiB: 524288 blocks of 4096 bytes in 16 groups. -/
def sbTwoGiB : SuperBlock :=
  { s_inodes_count := 131072, s_blocks_count := 524288, s_first_data_block := 0,
    s_log_block_size := 2, s_blocks_per_group := 32768, s_inodes_per_group := 8192,
    s_inode_size := 128 }

/-- What one conversion or literal of the `printf` calls of a scan writes: a number
(`%d`), a dash, or a comma with a blank. -/
inductive Tok where
  | num (n : Int)
  | dash
  | comma
  deriving DecidableEq, Repr

/-- The characters a token stands for. -/
def Tok.render : Tok → String
  | Tok.num n => printfD n
  | Tok.dash => "-"
  | Tok.comma => ", "

/-- The text of a sequence of tokens. -/
def renderAll : List Tok → String
  | [] => ""
  | t :: ts => t.render ++ renderAll ts

/-- A token with its number, if it is one, increased by 1. -/
def Tok.bump : Tok → Tok
  | Tok.num n => Tok.num (n + 1)
  | Tok.dash => Tok.dash
  | Tok.comma => Tok.comma

/-- The tokens that one step of the five-way branch prints. -/
def stepToks (first : Int) (a : Auto) (i : Nat) (bit : Nat) : List Tok :=
  if bit = 0 ∧ a.last = -1 then [Tok.num ((i : Int) + first)]
  else if bit = 0 ∧ a.last = 0 ∧ a.lastlast = -1 then [Tok.dash]
  else if bit = 1 ∧ a.last = 0 ∧ a.lastlast = 0 then [Tok.dash, Tok.num ((i : Int) - 1 + first)]
  else if bit = 0 ∧ a.last = 1 then
    (if a.tripped then [Tok.comma] else []) ++ [Tok.num ((i : Int) + first)]
  else []

/-- The tokens printed over the bits `bit i, ..., bit (i + n - 1)`. -/
def runToks (first : Int) (bit : Nat → Nat) : Nat → Nat → Auto → List Tok
  | _, 0, _ => []
  | i, n + 1, a =>
    stepToks first a i (bit i) ++ runToks first bit (i + 1) n (autoStep first a i (bit i))

/-- The tokens printed by the test that follows the loops, `h` being the number printed
there. -/
def closeToks (h : Int) (a : Auto) : List Tok :=
  if a.iBit = 0 ∧ a.last = 0 ∧ a.lastlast = 0 then [Tok.dash, Tok.num h] else []

/-- The state of the scan variables before the loops. -/
def autoInit (out : String) (iBit : Nat) : Auto :=
  { out := out, iBit := iBit, tripped := false, last := -1, lastlast := -1 }

/-- The tokens of a whole scan of 4095 bytes whose numbering starts at `first` and whose
closing number is `h`. -/
def scanToks (first : Int) (bit : Nat → Nat) (h : Int) : List Tok :=
  runToks first bit 0 32760 (autoInit "" 0)
    ++ closeToks h (autoRun first bit 0 32760 (autoInit "" 0))

/-- Two states of the scan variables that agree apart from the output and `iBit`. -/
def Auto.same (a b : Auto) : Prop :=
  a.tripped = b.tripped ∧ a.last = b.last ∧ a.lastlast = b.lastlast

/-- The maximal runs of consecutive 0 bits among the bits `i, ..., i + n - 1`, in
ascending order, each as the pair of its first and its last position; `cur` is the start
of the run that is open at bit `i`, when the bit before is 0. -/
def zeroRuns (bit : Nat → Nat) : Nat → Nat → Option Nat → List (Nat × Nat)
  | _, 0, none => []
  | i, 0, some s => [(s, i - 1)]
  | i, n + 1, none =>
    if bit i = 0 then zeroRuns bit (i + 1) n (some i) else zeroRuns bit (i + 1) n none
  | i, n + 1, some s =>
    if bit i = 0 then zeroRuns bit (i + 1) n (some s)
    else (s, i - 1) :: zeroRuns bit (i + 1) n none

/-- The text still to come for a run whose start is already printed: nothing for a run
of one bit, the dash and the last position otherwise. -/
def runEnd (s e : Nat) : String := if s = e then "" else "-" ++ printfD ((e : Int) + 0)

/-- The variables of the group loop before its first iteration (lines 111-113). -/
def groupVarsInit (sb : SuperBlock) (p : Proc) : GroupVars :=
  { proc := p, iTotalNoBlocks := toInt32 sb.s_blocks_count,
    iBlockRangeL := toInt32 sb.s_first_data_block,
    iBlockRangeH := toInt32 ((sb.s_first_data_block : Int) - 1) }

/-- The variables of the group loop after its first `k` iterations. -/
def groupVarsAfter (sb : SuperBlock) (gdBuf : List Byte) (byte0 : Nat → Byte) (p : Proc)
    (k : Nat) : GroupVars :=
  (List.range k).foldl (groupBody sb gdBuf byte0) (groupVarsInit sb p)

/-- The values of `iTotalNoBlocks` and of `iBlockRangeH + 1` after `k` iterations of the
group loop, in exact arithmetic. -/
def rangeVars (sb : SuperBlock) : Nat → Nat × Nat
  | 0 => (sb.s_blocks_count, sb.s_first_data_block)
  | k + 1 =>
    if (rangeVars sb k).1 < sb.s_blocks_per_group then
      ((rangeVars sb k).1, (rangeVars sb k).2 + (rangeVars sb k).1)
    else
      ((rangeVars sb k).1 - sb.s_blocks_per_group, (rangeVars sb k).2 + sb.s_blocks_per_group)

/-- A file system of 10000 blocks of 1024 bytes whose first data block is block 1, in two
groups of at most 8192 blocks. -/
def sbFirstBlockOne : SuperBlock :=
  { s_inodes_count := 2512, s_blocks_count := 10000, s_first_data_block := 1,
    s_log_block_size := 0, s_blocks_per_group := 8192, s_inodes_per_group := 1256,
    s_inode_size := 128 }

/-- The first bytes of a directory block: an entry for inode 12 with `rec_len = 12`,
`name_len = 4` and name `abcd`, which fills its name field, then an entry for inode 65
with `rec_len = 12`, `name_len = 1` and name `x`. -/
def dirBytes : List Byte :=
  [12, 0, 0, 0, 12, 0, 4, 1, 97, 98, 99, 100,
   65, 0, 0, 0, 12, 0, 1, 1, 120, 0, 0, 0]

/-- An image whose block 1 begins with the two entries of `dirBytes`. -/
def dirImage : List Byte := List.replicate 4096 0 ++ (dirBytes ++ List.replicate 300 0)

/-- A superblock with 4096-byte blocks and 256-byte inode records. -/
def sbLargeInodes : SuperBlock :=
  { s_inodes_count := 131072, s_blocks_count := 524288, s_first_data_block := 0,
    s_log_block_size := 2, s_blocks_per_group := 32768, s_inodes_per_group := 8192,
    s_inode_size := 256 }

/-- A superblock whose first data block is the largest 32-bit number. -/
def sbWrapFirst : SuperBlock :=
  { s_inodes_count := 4, s_blocks_count := 64, s_first_data_block := 4294967295,
    s_log_block_size := 0, s_blocks_per_group := 8192, s_inodes_per_group := 4,
    s_inode_size := 128 }

/-- The inode number of the directory entry located at offset `o` of the image: the
little-endian 32-bit number in its bytes 0 to 3. -/
def inodeAt (data : List Byte) (o : Nat) : Nat :=
  byteAt data o + 256 * byteAt data (o + 1) + 65536 * byteAt data (o + 2)
    + 16777216 * byteAt data (o + 3)

/-- The `rec_len` of the directory entry located at offset `o` of the image: the
little-endian 16-bit number in its bytes 4 and 5. -/
def recLenAt (data : List Byte) (o : Nat) : Nat := byteAt data (o + 4) + 256 * byteAt data (o + 5)

/-- The `name_len` of the directory entry located at offset `o` of the image: its
byte 6. -/
def nameLenAt (data : List Byte) (o : Nat) : Nat := byteAt data (o + 6)

/-- The name of the directory entry located at offset `o` of the image: the first
`name_len` bytes of its name field, which starts at byte 8. -/
def nameAt (data : List Byte) (o : Nat) : String :=
  String.mk ((List.range (nameLenAt data o)).map (fun i => Char.ofNat (byteAt data (o + 8 + i))))

/-- The report of the directory entry located at offset `o` of the image, as the
specification lists it and read off the image, not off the program's buffer: its inode
number, entry length, name length, file type (byte 7) and name, one per line under the
labels of the program's output, and an empty line. -/
def expectedEntry (data : List Byte) (o : Nat) : String :=
  "Inode: " ++ toString (inodeAt data o) ++ "\n"
    ++ ("Entry Length : " ++ toString (recLenAt data o) ++ "\n")
    ++ ("Name Length : " ++ toString (nameLenAt data o) ++ "\n")
    ++ ("File Type : " ++ toString (byteAt data (o + 7)) ++ "\n")
    ++ ("Name : " ++ nameAt data o ++ "\n\n")

/-- The reports of the entries located at the offsets `os`, in order. -/
def expectedReport (data : List Byte) : List Nat → String
  | [] => ""
  | o :: os => expectedEntry data o ++ expectedReport data os

/-- The chain of entry offsets as the specification states it, read off the image and
not off the program's buffer: `o_0 = o`, `o_(n+1) = o_n + rec_len(entry at o_n)`, as long
as `o_n - start < size`; at most `fuel` of them. -/
def entryOffsets (data : List Byte) (start size : Nat) : Nat → Nat → List Nat
  | 0, _ => []
  | fuel + 1, o =>
    if o - start < size then o :: entryOffsets data start size fuel (o + recLenAt data o)
    else []

/-- A directory entry at offset `o` that the walk can report as it stands in the image:
its `rec_len` is above 0, its inode number is below `2^31`, and its name is `name_len`
bytes other than zero followed by a zero byte, all inside the image. -/
def EntryOk (data : List Byte) (o : Nat) : Prop :=
  0 < recLenAt data o ∧ inodeAt data o < 2147483648
    ∧ o + 8 + nameLenAt data o < data.length
    ∧ (∀ i : Nat, i < nameLenAt data o → byteAt data (o + 8 + i) ≠ 0)
    ∧ byteAt data (o + 8 + nameLenAt data o) = 0

/-- An image of 2 GiB and one block: `2^31` zero bytes, then the root directory of a fresh
file system (the entries `.` and `..` of `rootDirEntries`) in the block that starts at
byte offset `2^31 = 524288 * 4096`. -/
def farDirImage : List Byte :=
  List.replicate 2147483648 0 ++ (rootDirEntries.bytes ++ List.replicate 4073 0)

/-! ## The automaton and the loops of the source -/

theorem autoRun_add (first : Int) (bit : Nat → Nat) (n m : Nat) :
    ∀ (i : Nat) (a : Auto),
      autoRun first bit i (n + m) a = autoRun first bit (i + n) m (autoRun first bit i n a) := by
  induction n with
  | zero => intro i a; simp [autoRun]
  | succ n ih =>
    intro i a
    have h : n + 1 + m = (n + m) + 1 := by omega
    rw [h]
    simp only [autoRun]
    rw [ih]
    congr 1
    omega

theorem autoRun_congr (first : Int) (bit bit2 : Nat → Nat) (n : Nat) :
    ∀ (i : Nat) (a : Auto), (∀ x, i ≤ x → x < i + n → bit x = bit2 x) →
      autoRun first bit i n a = autoRun first bit2 i n a := by
  induction n with
  | zero => intro i a _; simp [autoRun]
  | succ n ih =>
    intro i a h
    simp only [autoRun]
    rw [h i (le_refl i) (by omega)]
    exact ih (i + 1) _ (fun x h1 h2 => h x (by omega) (by omega))

theorem blockBit_auto (j k : Nat) (s : ScanState) :
    (blockBit j s k).auto = autoStep 0 s.auto (8 * j + k) ((s.byte.val >>> k) &&& 1) := by
  have e1 : (j : Int) * 8 + k = ((8 * j + k : Nat) : Int) + 0 := by push_cast; ring
  have e2 : (j : Int) * 8 - 1 + k = ((8 * j + k : Nat) : Int) - 1 + 0 := by push_cast; ring
  simp only [blockBit, autoStep, ScanState.auto, e1, e2]
  split_ifs <;> simp_all [Proc.print]

theorem inodeBit_auto (j k : Nat) (s : ScanState) :
    (inodeBit j s k).auto = autoStep 1 s.auto (8 * j + k) ((s.byte.val >>> k) &&& 1) := by
  have e1 : (j : Int) * 8 + (k + 1) = ((8 * j + k : Nat) : Int) + 1 := by push_cast; ring
  have e2 : (j : Int) * 8 - 1 + (k + 1) = ((8 * j + k : Nat) : Int) - 1 + 1 := by
    push_cast; ring
  simp only [inodeBit, autoStep, ScanState.auto, e1, e2]
  split_ifs <;> simp_all [Proc.print]

theorem blockBit_body : BitBody 0 blockBit where
  auto := blockBit_auto
  byte := by intro j k s; simp only [blockBit]; split_ifs <;> rfl
  data := by intro j k s; simp only [blockBit]; split_ifs <;> simp [Proc.print]
  pos := by intro j k s; simp only [blockBit]; split_ifs <;> simp [Proc.print]
  log := by intro j k s; simp only [blockBit]; split_ifs <;> simp [Proc.print]

theorem inodeBit_body : BitBody 1 inodeBit where
  auto := inodeBit_auto
  byte := by intro j k s; simp only [inodeBit]; split_ifs <;> rfl
  data := by intro j k s; simp only [inodeBit]; split_ifs <;> simp [Proc.print]
  pos := by intro j k s; simp only [inodeBit]; split_ifs <;> simp [Proc.print]
  log := by intro j k s; simp only [inodeBit]; split_ifs <;> simp [Proc.print]

theorem readByte_auto (s : ScanState) : s.readByte.auto = s.auto := by
  simp [ScanState.readByte, ScanState.auto, Proc.read]

theorem readByte_data (s : ScanState) : s.readByte.proc.data = s.proc.data := by
  simp [ScanState.readByte, Proc.read]

theorem readByte_pos (s : ScanState) (h : s.proc.pos < s.proc.data.length) :
    s.readByte.proc.pos = s.proc.pos + 1 := by
  simp only [ScanState.readByte, Proc.read, Proc.avail, availAt]
  simp only [List.length_take, List.length_drop]
  omega

theorem avail_one (p : Proc) (h : p.pos < p.data.length) :
    p.avail 1 = [p.data.getD p.pos 0] := by
  simp only [Proc.avail, availAt]
  rw [List.drop_eq_getElem_cons h, List.getD_eq_getElem _ _ h]
  rfl

theorem readByte_byte (s : ScanState) (h : s.proc.pos < s.proc.data.length) :
    s.readByte.byte = s.proc.data.getD s.proc.pos 0 := by
  simp only [ScanState.readByte, Proc.read]
  rw [avail_one _ h]
  rfl

/-- The eight iterations of the `k` loop on a byte. -/
theorem kLoop_spec {first : Int} {f : Nat → ScanState → Nat → ScanState} (hf : BitBody first f)
    (bit : Nat → Nat) (j : Nat) (s : ScanState)
    (hbit : ∀ k, k < 8 → bit (8 * j + k) = (s.byte.val >>> k) &&& 1) :
    let s1 := (List.range 8).foldl (f j) s
    s1.auto = autoRun first bit (8 * j) 8 s.auto ∧ s1.byte = s.byte
      ∧ s1.proc.data = s.proc.data ∧ s1.proc.pos = s.proc.pos := by
  have hr : List.range 8 = [0, 1, 2, 3, 4, 5, 6, 7] := by decide
  simp only [hr, List.foldl, autoRun, hf.auto, hf.byte, hf.data, hf.pos]
  have h0 := hbit 0 (by omega)
  have h1 := hbit 1 (by omega)
  have h2 := hbit 2 (by omega)
  have h3 := hbit 3 (by omega)
  have h4 := hbit 4 (by omega)
  have h5 := hbit 5 (by omega)
  have h6 := hbit 6 (by omega)
  have h7 := hbit 7 (by omega)
  simp only [Nat.add_zero] at h0
  simp only [Nat.add_assoc, Nat.reduceAdd, Nat.add_zero]
  rw [h0, h1, h2, h3, h4, h5, h6, h7]
  simp

/-- The first `n` iterations of the `j` loop, when the file holds `n` bytes from the
current position on: the automaton has run over the `8 n` bits of those bytes. -/
theorem jLoop_spec {first : Int} {f : Nat → ScanState → Nat → ScanState} (hf : BitBody first f)
    (s : ScanState) (n : Nat) (hlen : s.proc.pos + n ≤ s.proc.data.length) :
    let s1 := (List.range n).foldl (byteLoop f) s
    s1.auto = autoRun first (fileBit s.proc.data s.proc.pos) 0 (8 * n) s.auto
      ∧ s1.proc.data = s.proc.data ∧ s1.proc.pos = s.proc.pos + n := by
  induction n with
  | zero => simp [autoRun]
  | succ n ih =>
    have ih1 := ih (by omega)
    rw [List.range_succ, List.foldl_append]
    simp only [List.foldl_cons, List.foldl_nil]
    simp only at ih1
    generalize (List.range n).foldl (byteLoop f) s = t at ih1 ⊢
    obtain ⟨ha, hd, hp⟩ := ih1
    have hlt : t.proc.pos < t.proc.data.length := by rw [hd, hp]; omega
    have hk := kLoop_spec hf (fileBit s.proc.data s.proc.pos) n t.readByte (by
      intro k hk
      rw [readByte_byte t hlt, hd, hp]
      simp only [fileBit]
      have e1 : (8 * n + k) / 8 = n := by omega
      have e2 : (8 * n + k) % 8 = k := by omega
      rw [e1, e2])
    simp only at hk
    obtain ⟨ka, _, kd, kp⟩ := hk
    refine ⟨?_, ?_, ?_⟩
    · have e : 8 * (n + 1) = 8 * n + 8 := by ring
      rw [e, autoRun_add]
      simp only [byteLoop]
      rw [ka, readByte_auto, ha]
      simp
    · simp only [byteLoop]
      rw [kd, readByte_data, hd]
    · simp only [byteLoop]
      rw [kp, readByte_pos t hlt, hp]
      omega

theorem blockByte_eq : blockByte = byteLoop blockBit := rfl

theorem inodeByte_eq : inodeByte = byteLoop inodeBit := rfl

theorem closeOut_auto (t : ScanState) (h : String) :
    (if t.iBit = 0 ∧ t.iLastRead = 0 ∧ t.iLastLastRead = 0 then
      { t with proc := t.proc.print ("-" ++ h) } else t).proc.out = closeOut h t.auto := by
  simp only [closeOut, ScanState.auto]
  split_ifs <;> simp [Proc.print]

/-- The block scan of a file that holds 4095 bytes from the current position on. -/
theorem blockScan_out (H : Int) (p : Proc) (byte0 : Byte)
    (hlen : p.pos + 4095 ≤ p.data.length) :
    (blockScan H p byte0).proc.out =
      closeOut (printfD H) (autoRun 0 (fileBit p.data p.pos) 0 32760
        { out := p.out, iBit := 0, tripped := false, last := -1, lastlast := -1 }) := by
  have h := jLoop_spec blockBit_body
    { proc := p, byte := byte0, iBit := 0, tripped := false, iLastRead := -1,
      iLastLastRead := -1 } 4095 hlen
  simp only at h
  obtain ⟨ha, _, _⟩ := h
  have e : 8 * 4095 = 32760 := by norm_num
  rw [e] at ha
  simp only [blockScan, blockByte_eq]
  rw [closeOut_auto, ha]
  rfl

/-- The inode scan of a file that holds 4095 bytes from the current position on. -/
theorem inodeScan_out (H : Int) (p : Proc) (byte : Byte) (iBit : Nat)
    (hlen : p.pos + 4095 ≤ p.data.length) :
    (inodeScan H p byte iBit).proc.out =
      closeOut (printfD (toInt32 (H + 1))) (autoRun 1 (fileBit p.data p.pos) 0 32760
        { out := p.out, iBit := iBit, tripped := false, last := -1, lastlast := -1 }) := by
  have h := jLoop_spec inodeBit_body
    { proc := p, byte := byte, iBit := iBit, tripped := false, iLastRead := -1,
      iLastLastRead := -1 } 4095 hlen
  simp only at h
  obtain ⟨ha, _, _⟩ := h
  have e : 8 * 4095 = 32760 := by norm_num
  rw [e] at ha
  simp only [inodeScan, inodeByte_eq]
  rw [closeOut_auto, ha]
  rfl

theorem getD_mid (pre mid post : List Byte) (j : Nat) (h : j < mid.length) :
    (pre ++ mid ++ post).getD (pre.length + j) 0 = mid.getD j 0 := by
  induction pre with
  | nil =>
    simp only [List.nil_append, List.length_nil, Nat.zero_add]
    rw [List.getD_eq_getElem _ _ (by simp; omega), List.getD_eq_getElem _ _ h]
    exact List.getElem_append_left h
  | cons x pre ih =>
    have e : (x :: pre).length + j = (pre.length + j) + 1 := by simp; omega
    rw [e]
    simpa using ih

/-- The bits of a block `mid` stored in the file at position `pre.length`. -/
theorem fileBit_mid (pre mid post : List Byte) (i : Nat) (h : i / 8 < mid.length) :
    fileBit (pre ++ mid ++ post) pre.length i = fileBit mid 0 i := by
  simp only [fileBit, Nat.zero_add]
  rw [getD_mid pre mid post _ h]

/-- Used bits while no run is open leave the output alone. -/
theorem autoRun_ones (first : Int) (bit : Nat → Nat) (n : Nat) :
    ∀ (i : Nat) (a : Auto), a.last ≠ 0 → (∀ x, i ≤ x → x < i + n → bit x = 1) →
      (autoRun first bit i n a).out = a.out ∧ (autoRun first bit i n a).tripped = a.tripped
        ∧ (autoRun first bit i n a).last ≠ 0 ∧ (0 < n → (autoRun first bit i n a).last = 1) := by
  induction n with
  | zero => intro i a h _; simp [autoRun, h]
  | succ n ih =>
    intro i a h hb
    simp only [autoRun]
    have hi := hb i (le_refl i) (by omega)
    have hs : autoStep first a i (bit i)
        = { a with iBit := 1, lastlast := a.last, last := 1 } := by
      simp [autoStep, hi, h]
    have := ih (i + 1) (autoStep first a i (bit i)) (by rw [hs]; simp)
      (fun x h1 h2 => hb x (by omega) (by omega))
    obtain ⟨h1, h2, h3, h4⟩ := this
    refine ⟨by rw [h1, hs], by rw [h2, hs], h3, fun _ => ?_⟩
    rcases Nat.eq_zero_or_pos n with hn | hn
    · subst hn; simp [autoRun, hs]
    · exact h4 hn

/-- Free bits inside a run that is at least two bits long print nothing. -/
theorem autoRun_zeros (first : Int) (bit : Nat → Nat) (n : Nat) :
    ∀ (i : Nat) (a : Auto), a.iBit = 0 → a.last = 0 → a.lastlast = 0 →
      (∀ x, i ≤ x → x < i + n → bit x = 0) → autoRun first bit i n a = a := by
  induction n with
  | zero => intro i a _ _ _ _; simp [autoRun]
  | succ n ih =>
    intro i a h0 h1 h2 hb
    simp only [autoRun]
    have hi := hb i (le_refl i) (by omega)
    have hs : autoStep first a i (bit i) = a := by
      cases a
      simp_all [autoStep]
    rw [hs]
    exact ih (i + 1) a h0 h1 h2 (fun x h1 h2 => hb x (by omega) (by omega))

theorem bitOf_le_one (ranges : List (Nat × Nat)) (i : Nat) : bitOf ranges i ≤ 1 := by
  unfold bitOf; split_ifs <;> omega

theorem byte_bit (b0 b1 b2 b3 b4 b5 b6 b7 : Nat) (h0 : b0 ≤ 1) (h1 : b1 ≤ 1) (h2 : b2 ≤ 1)
    (h3 : b3 ≤ 1) (h4 : b4 ≤ 1) (h5 : b5 ≤ 1) (h6 : b6 ≤ 1) (h7 : b7 ≤ 1) (k : Nat)
    (hk : k < 8) :
    (((Fin.ofNat (b0 + 2 * b1 + 4 * b2 + 8 * b3 + 16 * b4 + 32 * b5 + 64 * b6 + 128 * b7)
        : Byte).val >>> k) &&& 1)
      = [b0, b1, b2, b3, b4, b5, b6, b7].getD k 0 := by
  rw [Nat.shiftRight_eq_div_pow, Nat.and_one_is_mod]
  simp only [Fin.ofNat, Fin.val_mk]
  interval_cases k <;> simp <;> omega

theorem fileBit_mkBitmap (n : Nat) (ranges : List (Nat × Nat)) (i : Nat) (h : i < 8 * n) :
    fileBit (mkBitmap n ranges) 0 i = bitOf ranges i := by
  have hj : i / 8 < n := by omega
  simp only [fileBit, mkBitmap, Nat.zero_add]
  rw [List.getD_eq_getElem _ _ (by simpa using hj)]
  simp only [List.getElem_map, List.getElem_range, mkByte]
  rw [byte_bit _ _ _ _ _ _ _ _ (bitOf_le_one _ _) (bitOf_le_one _ _) (bitOf_le_one _ _)
    (bitOf_le_one _ _) (bitOf_le_one _ _) (bitOf_le_one _ _) (bitOf_le_one _ _)
    (bitOf_le_one _ _) (i % 8) (Nat.mod_lt _ (by norm_num))]
  have hi : i = 8 * (i / 8) + i % 8 := by omega
  have hk : i % 8 < 8 := Nat.mod_lt _ (by norm_num)
  generalize i / 8 = q at hi ⊢
  generalize i % 8 = k at hi hk ⊢
  subst hi
  interval_cases k <;> simp

theorem fileBit_replicate (n : Nat) (v : Byte) (i : Nat) (h : i < 8 * n) :
    fileBit (List.replicate n v) 0 i = (v.val >>> (i % 8)) &&& 1 := by
  have hj : i / 8 < n := by omega
  simp only [fileBit, Nat.zero_add]
  rw [List.getD_eq_getElem _ _ (by simpa using hj)]
  simp

/-- The block scan of a file in which the bytes `mid`, at least 4095 of them, stand at
the current position. -/
theorem blockScan_mid (H : Int) (pre mid post : List Byte) (byte0 : Byte)
    (hmid : 4095 ≤ mid.length) :
    (blockScan H { data := pre ++ mid ++ post, pos := pre.length, out := "", log := [] }
        byte0).proc.out =
      closeOut (printfD H) (autoRun 0 (fileBit mid 0) 0 32760
        { out := "", iBit := 0, tripped := false, last := -1, lastlast := -1 }) := by
  have hl : pre.length + 4095 ≤ (pre ++ mid ++ post).length := by
    simp only [List.length_append]; omega
  have h1 := blockScan_out H
    { data := pre ++ mid ++ post, pos := pre.length, out := "", log := [] } byte0 hl
  have h2 := autoRun_congr 0 (fileBit (pre ++ mid ++ post) pre.length) (fileBit mid 0) 32760 0
    { out := "", iBit := 0, tripped := false, last := -1, lastlast := -1 }
    (fun x _ hx => fileBit_mid pre mid post x (by omega))
  exact h1.trans (congrArg (closeOut (printfD H)) h2)

/-- The inode scan of a file in which the bytes `mid`, at least 4095 of them, stand at
the current position. -/
theorem inodeScan_mid (H : Int) (pre mid post : List Byte) (byte : Byte) (iBit : Nat)
    (hmid : 4095 ≤ mid.length) :
    (inodeScan H { data := pre ++ mid ++ post, pos := pre.length, out := "", log := [] }
        byte iBit).proc.out =
      closeOut (printfD (toInt32 (H + 1))) (autoRun 1 (fileBit mid 0) 0 32760
        { out := "", iBit := iBit, tripped := false, last := -1, lastlast := -1 }) := by
  have hl : pre.length + 4095 ≤ (pre ++ mid ++ post).length := by
    simp only [List.length_append]; omega
  have h1 := inodeScan_out H
    { data := pre ++ mid ++ post, pos := pre.length, out := "", log := [] } byte iBit hl
  have h2 := autoRun_congr 1 (fileBit (pre ++ mid ++ post) pre.length) (fileBit mid 0) 32760 0
    { out := "", iBit := iBit, tripped := false, last := -1, lastlast := -1 }
    (fun x _ hx => fileBit_mid pre mid post x (by omega))
  exact h1.trans (congrArg (closeOut (printfD (toInt32 (H + 1)))) h2)

/-- A scan over used bits only prints nothing. -/
theorem closeOut_ones (first : Int) (h : String) (bit : Nat → Nat) (ib : Nat)
    (hb : ∀ x, x < 32760 → bit x = 1) :
    closeOut h (autoRun first bit 0 32760
      { out := "", iBit := ib, tripped := false, last := -1, lastlast := -1 }) = "" := by
  obtain ⟨h1, _, h3, _⟩ := autoRun_ones first bit 32760 0
    { out := "", iBit := ib, tripped := false, last := -1, lastlast := -1 } (by simp)
    (fun x _ hx => hb x (by omega))
  unfold closeOut
  rw [if_neg (fun hc => h3 hc.2.1), h1]

/-- A scan over free bits only prints the first number, two dashes and the closing
number. -/
theorem closeOut_zeros (first : Int) (h : String) (bit : Nat → Nat) (ib : Nat)
    (hb : ∀ x, x < 32760 → bit x = 0) :
    closeOut h (autoRun first bit 0 32760
      { out := "", iBit := ib, tripped := false, last := -1, lastlast := -1 })
      = printfD first ++ "--" ++ h := by
  have e : 32760 = 2 + 32758 := by norm_num
  rw [e, autoRun_add]
  have h0 := hb 0 (by norm_num)
  have h1 := hb 1 (by norm_num)
  have two : autoRun first bit 0 2
      { out := "", iBit := ib, tripped := false, last := -1, lastlast := -1 }
      = { out := printfD first ++ "-", iBit := 0, tripped := true, last := 0, lastlast := 0 } := by
    simp [autoRun, autoStep, h0, h1]
  rw [two, autoRun_zeros first bit 32758 (0 + 2) _ rfl rfl rfl (fun x _ hx => hb x (by omega))]
  simp [closeOut, String.append_assoc]
  rfl

theorem ones_bit (k : Nat) (h : k < 8) : ((255 : Byte).val >>> k) &&& 1 = 1 := by
  interval_cases k <;> decide

theorem zeros_bit (k : Nat) : ((0 : Byte).val >>> k) &&& 1 = 0 := by
  simp

/-- C4. A bitmap block (`BLOCK_SIZE` bytes, standing in the file at the position of the
scan) whose bits are all 1: whatever the upper bound `H`, the bytes around the block and
the values left in `byte` and `iBit`, the block bitmap scan prints the empty string, and
so does the inode bitmap scan. -/
theorem all_used_bitmap_prints_nothing (H : Int) (pre post : List Byte) (byte0 : Byte)
    (iBit : Nat) :
    (blockScan H { data := pre ++ List.replicate BLOCK_SIZE 255 ++ post, pos := pre.length,
                   out := "", log := [] } byte0).proc.out = ""
    ∧ (inodeScan H { data := pre ++ List.replicate BLOCK_SIZE 255 ++ post, pos := pre.length,
                     out := "", log := [] } byte0 iBit).proc.out = "" := by
  have hlen : 4095 ≤ (List.replicate BLOCK_SIZE (255 : Byte)).length := by
    rw [List.length_replicate]; unfold BLOCK_SIZE; omega
  have hb : ∀ x, x < 32760 → fileBit (List.replicate BLOCK_SIZE (255 : Byte)) 0 x = 1 := by
    intro x hx
    rw [fileBit_replicate _ _ _ (by simp only [BLOCK_SIZE]; omega)]
    exact ones_bit _ (Nat.mod_lt _ (by norm_num))
  constructor
  · rw [blockScan_mid H pre _ post byte0 hlen]
    exact closeOut_ones 0 _ _ _ hb
  · rw [inodeScan_mid H pre _ post byte0 iBit hlen]
    exact closeOut_ones 1 _ _ _ hb

/-- The scans of a bitmap block whose bits are all 0: the first number is followed by two
dashes. -/
theorem all_free_bitmap_text (H : Int) (data pre post : List Byte) (pos : Nat) (byte0 : Byte)
    (iBit : Nat) (hdata : data = pre ++ List.replicate BLOCK_SIZE 0 ++ post)
    (hpos : pos = pre.length) :
    (blockScan H { data := data, pos := pos, out := "", log := [] } byte0).proc.out
        = "0--" ++ printfD H
    ∧ (inodeScan H { data := data, pos := pos, out := "", log := [] } byte0 iBit).proc.out
        = "1--" ++ printfD (toInt32 (H + 1)) := by
  subst hdata hpos
  have hlen : 4095 ≤ (List.replicate BLOCK_SIZE (0 : Byte)).length := by
    rw [List.length_replicate]; unfold BLOCK_SIZE; omega
  have hb : ∀ x, x < 32760 → fileBit (List.replicate BLOCK_SIZE (0 : Byte)) 0 x = 0 := by
    intro x hx
    rw [fileBit_replicate _ _ _ (by simp only [BLOCK_SIZE]; omega)]
    exact zeros_bit _
  constructor
  · rw [blockScan_mid H pre _ post byte0 hlen, closeOut_zeros 0 _ _ _ hb]
    rfl
  · rw [inodeScan_mid H pre _ post byte0 iBit hlen, closeOut_zeros 1 _ _ _ hb]
    rfl

/-- C2, at the failing input. The block bitmap is one block of zero bytes (every block
free) and the upper bound of the group is 32767: the block scan prints `0--32767` and the
inode scan `1--32768`, each with two dashes between the numbers, where the claim has the
single run `0-32767` (`1-32768`). -/
theorem all_free_bitmap_prints_two_dashes :
    (blockScan 32767 { data := List.replicate BLOCK_SIZE 0, pos := 0, out := "", log := [] }
        0).proc.out = "0--32767"
    ∧ (inodeScan 32767 { data := List.replicate BLOCK_SIZE 0, pos := 0, out := "", log := [] }
        0 0).proc.out = "1--32768" := by
  have h := all_free_bitmap_text 32767 (List.replicate BLOCK_SIZE 0) [] [] 0 0 0
    (List.append_nil _).symm rfl
  have e1 : "0--" ++ printfD 32767 = "0--32767" := by decide
  have e2 : "1--" ++ printfD (toInt32 (32767 + 1)) = "1--32768" := by decide
  rw [e1, e2] at h
  exact h

/-- One run of `m + 1` free bits from bit `i` on, entered with no run open, and the used
bit that ends it. -/
theorem autoRun_run (first : Int) (bit : Nat → Nat) (m i : Nat) (a : Auto) (ha : a.last = 1)
    (hz : ∀ x, i ≤ x → x < i + (m + 1) → bit x = 0) (ho : bit (i + m + 1) = 1) :
    (autoRun first bit i (m + 2) a).out
        = a.out ++ ((if a.tripped then ", " else "") ++ fmtRange first (i, i + m))
      ∧ (autoRun first bit i (m + 2) a).tripped = true
      ∧ (autoRun first bit i (m + 2) a).last = 1 := by
  have h0 := hz i (le_refl i) (by omega)
  cases m with
  | zero =>
    simp only [Nat.add_zero] at ho
    simp only [autoRun, h0, ho, Nat.add_zero]
    cases a with
    | mk o ib t l ll =>
      simp only at ha
      subst ha
      cases t <;> simp [autoStep, fmtRange, String.append_assoc]
  | succ m =>
    have e : m + 1 + 2 = 2 + (m + 1) := by omega
    have h1 := hz (i + 1) (by omega) (by omega)
    have two : autoRun first bit i 2 a
        = { out := (if a.tripped then a.out ++ ", " else a.out) ++ printfD ((i : Int) + first),
            iBit := 0, tripped := true, last := 0, lastlast := 0 } := by
      cases a with
      | mk o ib t l ll =>
        simp only at ha
        subst ha
        simp [autoRun, autoStep, h0, h1]
    rw [e, autoRun_add, two, autoRun_add,
      autoRun_zeros first bit m (i + 2) _ rfl rfl rfl (fun x h1 h2 => hz x (by omega) (by omega))]
    have e2 : i + 2 + m = i + (m + 1) + 1 := by omega
    have e3 : ((i + (m + 1) + 1 : Nat) : Int) - 1 + first = ((i + (m + 1) : Nat) : Int) + first := by
      push_cast; ring
    have e4 : i ≠ i + (m + 1) := by omega
    rw [e2]
    simp only [autoRun, ho]
    cases ht : a.tripped <;>
      simp [autoStep, fmtRange, String.append_assoc, e3, e4]

theorem bitOf_nil (x : Nat) : bitOf [] x = 1 := by
  simp [bitOf, freeAt]

theorem bitOf_head (r : Nat × Nat) (rs : List (Nat × Nat)) (x : Nat) (h1 : r.1 ≤ x)
    (h2 : x ≤ r.2) : bitOf (r :: rs) x = 0 := by
  simp [bitOf, freeAt, h1, h2]

theorem bitOf_tail (r : Nat × Nat) (rs : List (Nat × Nat)) (x : Nat)
    (h : x < r.1 ∨ r.2 < x) : bitOf (r :: rs) x = bitOf rs x := by
  have : (decide (r.1 ≤ x) && decide (x ≤ r.2)) = false := by
    rw [Bool.and_eq_false_iff, decide_eq_false_iff_not, decide_eq_false_iff_not]
    omega
  simp only [bitOf, freeAt, List.any_cons, this, Bool.false_or]

theorem bitOf_before (hi : Nat) : ∀ (rs : List (Nat × Nat)) (lo x : Nat), Runs lo hi rs → x < lo →
    bitOf rs x = 1
  | [], _, x, _, _ => bitOf_nil x
  | r :: rs, lo, x, h, hx => by
    obtain ⟨h1, h2, _, h4⟩ := h
    rw [bitOf_tail r rs x (by omega)]
    exact bitOf_before hi rs (r.2 + 2) x h4 (by omega)

/-- Used bits while no run is open: the automaton stays outside a run. -/
theorem autoRun_ones_outside (first : Int) (bit : Nat → Nat) (n i : Nat) (a : Auto)
    (ha : a.last = 1) (hb : ∀ x, i ≤ x → x < i + n → bit x = 1) :
    (autoRun first bit i n a).out = a.out ∧ (autoRun first bit i n a).tripped = a.tripped
      ∧ (autoRun first bit i n a).last = 1 := by
  obtain ⟨h1, h2, _, h4⟩ := autoRun_ones first bit n i a (by rw [ha]; decide) hb
  refine ⟨h1, h2, ?_⟩
  rcases Nat.eq_zero_or_pos n with hn | hn
  · subst hn; simpa [autoRun] using ha
  · exact h4 hn

/-- From a state outside a run, the bits of separated ranges up to `E`: the automaton
appends the text of the ranges and ends outside a run. -/
theorem autoRun_runs (first : Int) (hi E : Nat) (hE : hi < E) :
    ∀ (rs : List (Nat × Nat)) (bit : Nat → Nat) (i : Nat) (a : Auto), a.last = 1 → i ≤ E →
      Runs i hi rs → (∀ x, i ≤ x → x < E → bit x = bitOf rs x) →
      (autoRun first bit i (E - i) a).out = a.out ++ runsText first a.tripped rs
        ∧ (autoRun first bit i (E - i) a).last = 1
  | [], bit, i, a, ha, hi', _, hb => by
    obtain ⟨h1, _, h3⟩ := autoRun_ones_outside first bit (E - i) i a ha
      (fun x h1 h2 => by rw [hb x h1 (by omega)]; exact bitOf_nil x)
    exact ⟨by rw [h1]; simp [runsText], h3⟩
  | r :: rs, bit, i, a, ha, hi', hr, hb => by
    obtain ⟨r1, r2, r3, r4⟩ := hr
    have e : E - i = (r.1 - i) + ((r.2 - r.1 + 2) + (E - (r.2 + 2))) := by omega
    obtain ⟨p1, p2, p3⟩ := autoRun_ones_outside first bit (r.1 - i) i a ha
      (fun x h1 h2 => by
        rw [hb x h1 (by omega), bitOf_tail r rs x (by omega)]
        exact bitOf_before hi rs (r.2 + 2) x r4 (by omega))
    have ei : i + (r.1 - i) = r.1 := by omega
    obtain ⟨q1, q2, q3⟩ := autoRun_run first bit (r.2 - r.1) r.1
      (autoRun first bit i (r.1 - i) a) p3
      (fun x h1 h2 => by rw [hb x (by omega) (by omega)]; exact bitOf_head r rs x h1 (by omega))
      (by
        rw [hb _ (by omega) (by omega), bitOf_tail r rs _ (by omega)]
        exact bitOf_before hi rs (r.2 + 2) _ r4 (by omega))
    have ej : r.1 + (r.2 - r.1 + 2) = r.2 + 2 := by omega
    obtain ⟨s1, s2⟩ := autoRun_runs first hi E hE rs bit (r.2 + 2)
      (autoRun first bit r.1 (r.2 - r.1 + 2) (autoRun first bit i (r.1 - i) a)) q3 (by omega) r4
      (fun x h1 h2 => by rw [hb x (by omega) h2, bitOf_tail r rs x (by omega)])
    have er : r.1 + (r.2 - r.1) = r.2 := by omega
    rw [e, autoRun_add, autoRun_add, ei, ej]
    refine ⟨?_, s2⟩
    rw [s1, q1, q2, p1, p2, er]
    simp [runsText, String.append_assoc]

/-- A whole scan over the bits of separated ranges that end before bit 32759 and of which
none is a range of two or more bits starting at bit 0. -/
theorem closeOut_runs (first : Int) (h : String) (bit : Nat → Nat) (ib : Nat)
    (rs : List (Nat × Nat)) (hrs : Runs 0 32759 rs) (hhead : ∀ r ∈ rs, r.1 = 0 → r.2 = 0)
    (hb : ∀ x, x < 32760 → bit x = bitOf rs x) :
    closeOut h (autoRun first bit 0 32760
      { out := "", iBit := ib, tripped := false, last := -1, lastlast := -1 })
      = runsText first false rs := by
  cases rs with
  | nil =>
    rw [closeOut_ones first h bit ib (fun x hx => by rw [hb x hx]; exact bitOf_nil x)]
    rfl
  | cons r rs =>
    obtain ⟨r1, r2, r3, r4⟩ := hrs
    by_cases h0 : r.1 = 0
    · have h00 : r.2 = 0 := hhead r (List.mem_cons_self _ _) h0
      have b0 : bit 0 = 0 := by
        rw [hb 0 (by norm_num)]; exact bitOf_head r rs 0 (by omega) (by omega)
      have b1 : bit 1 = 1 := by
        rw [hb 1 (by norm_num), bitOf_tail r rs 1 (by omega)]
        exact bitOf_before 32759 rs (r.2 + 2) 1 r4 (by omega)
      have e : 32760 = 2 + (32760 - 2) := by norm_num
      have two : autoRun first bit 0 2
          { out := "", iBit := ib, tripped := false, last := -1, lastlast := -1 }
          = { out := printfD first, iBit := 1, tripped := true, last := 1, lastlast := 0 } := by
        simp [autoRun, autoStep, b0, b1]
      rw [h00] at r4
      obtain ⟨s1, s2⟩ := autoRun_runs first 32759 32760 (by norm_num) rs bit 2
        { out := printfD first, iBit := 1, tripped := true, last := 1, lastlast := 0 } rfl
        (by norm_num) r4 (fun x h1 h2 => by rw [hb x h2, bitOf_tail r rs x (by omega)])
      rw [e, autoRun_add, two]
      unfold closeOut
      rw [if_neg (fun hc => by rw [s2] at hc; exact absurd hc.2.1 (by decide)), s1]
      simp [runsText, fmtRange, h0, h00]
    · have b0 : bit 0 = 1 := by
        rw [hb 0 (by norm_num), bitOf_tail r rs 0 (by omega)]
        exact bitOf_before 32759 rs (r.2 + 2) 0 r4 (by omega)
      have e : 32760 = 1 + (32760 - 1) := by norm_num
      have one : autoRun first bit 0 1
          { out := "", iBit := ib, tripped := false, last := -1, lastlast := -1 }
          = { out := "", iBit := 1, tripped := false, last := 1, lastlast := -1 } := by
        simp [autoRun, autoStep, b0]
      obtain ⟨s1, s2⟩ := autoRun_runs first 32759 32760 (by norm_num) (r :: rs) bit 1
        { out := "", iBit := 1, tripped := false, last := 1, lastlast := -1 } rfl
        (by norm_num) ⟨by omega, r2, r3, r4⟩ (fun x _ h2 => hb x h2)
      rw [e, autoRun_add, one]
      unfold closeOut
      rw [if_neg (fun hc => by rw [s2] at hc; exact absurd hc.2.1 (by decide)), s1]
      simp

/-- The block scan of a file in which a block `mid` stands at the current position, when
the first 32760 bits of the block are those of separated ranges. -/
theorem blockScan_runs (H : Int) (pre mid post : List Byte) (byte0 : Byte)
    (rs : List (Nat × Nat)) (hmid : 4095 ≤ mid.length)
    (hbits : ∀ x, x < 32760 → fileBit mid 0 x = bitOf rs x)
    (hrs : Runs 0 32759 rs) (hhead : ∀ r ∈ rs, r.1 = 0 → r.2 = 0) :
    (blockScan H { data := pre ++ mid ++ post, pos := pre.length, out := "", log := [] }
        byte0).proc.out = runsText 0 false rs := by
  rw [blockScan_mid H pre mid post byte0 hmid]
  exact closeOut_runs 0 _ _ 0 rs hrs hhead hbits

theorem mkBitmap_length (n : Nat) (rs : List (Nat × Nat)) : (mkBitmap n rs).length = n := by
  simp [mkBitmap]

/-- The lemma `blockScan_runs` for a file given as a whole. -/
theorem blockScan_runs_at (H : Int) (data pre mid post : List Byte) (pos : Nat) (byte0 : Byte)
    (rs : List (Nat × Nat)) (hdata : data = pre ++ mid ++ post) (hpos : pos = pre.length)
    (hmid : 4095 ≤ mid.length) (hbits : ∀ x, x < 32760 → fileBit mid 0 x = bitOf rs x)
    (hrs : Runs 0 32759 rs) (hhead : ∀ r ∈ rs, r.1 = 0 → r.2 = 0) :
    (blockScan H { data := data, pos := pos, out := "", log := [] } byte0).proc.out
      = runsText 0 false rs := by
  subst hdata hpos
  exact blockScan_runs H pre mid post byte0 rs hmid hbits hrs hhead

/-- C1, as amended. Ranges over the bit positions of a bitmap block (`BLOCK_SIZE` bytes)
that are non-empty, ascending, separated by at least one position, end at or before
position 32758, and of which none is a range of two or more positions starting at
position 0: on the bitmap in which exactly those positions are 0, the block bitmap scan
prints exactly those ranges in ascending order, a range of one position as its number, a
longer one as `start-end`, separated by `", "`. -/
theorem round_trip_of_separated_ranges (H : Int) (pre post : List Byte) (byte0 : Byte)
    (rs : List (Nat × Nat)) (hrs : Runs 0 32759 rs) (hhead : ∀ r ∈ rs, r.1 = 0 → r.2 = 0) :
    (blockScan H { data := pre ++ mkBitmap BLOCK_SIZE rs ++ post, pos := pre.length,
                   out := "", log := [] } byte0).proc.out = runsText 0 false rs :=
  blockScan_runs H pre (mkBitmap BLOCK_SIZE rs) post byte0 rs
    (by rw [mkBitmap_length]; unfold BLOCK_SIZE; omega)
    (fun x hx => fileBit_mkBitmap BLOCK_SIZE rs x (by unfold BLOCK_SIZE; omega)) hrs hhead

/-- C1, witness: the ranges 0, 3-5 and 9 in a bitmap block that stands between two other
bytes of the file. -/
theorem round_trip_of_separated_ranges_witness :
    Runs 0 32759 [(0, 0), (3, 5), (9, 9)]
    ∧ (∀ r ∈ [((0 : Nat), (0 : Nat)), (3, 5), (9, 9)], r.1 = 0 → r.2 = 0)
    ∧ (blockScan 32767 { data := [7] ++ mkBitmap BLOCK_SIZE [(0, 0), (3, 5), (9, 9)] ++ [9],
                         pos := ([7] : List Byte).length, out := "", log := [] }
        0).proc.out = "0, 3-5, 9" :=
  by
  have hr : Runs 0 32759 [(0, 0), (3, 5), (9, 9)] := by decide
  have hh : ∀ r ∈ [((0 : Nat), (0 : Nat)), (3, 5), (9, 9)], r.1 = 0 → r.2 = 0 := by decide
  have ht : runsText 0 false [(0, 0), (3, 5), (9, 9)] = "0, 3-5, 9" := by decide
  have h := round_trip_of_separated_ranges 32767 [7] [9] 0 [(0, 0), (3, 5), (9, 9)] hr hh
  rw [ht] at h
  exact ⟨hr, hh, h⟩

/-- C1, counterexample. The disjoint ranges 1-1 and 2-2 touch: on the bitmap block in
which exactly the positions 1 and 2 are 0 the block scan prints the one run `1-2`, not the
two ranges `1, 2`. -/
theorem round_trip_fails_on_adjacent_ranges :
    (blockScan 32767 { data := mkBitmap BLOCK_SIZE [(1, 1), (2, 2)], pos := 0, out := "",
                       log := [] } 0).proc.out = "1-2"
    ∧ runsText 0 false [(1, 1), (2, 2)] = "1, 2"
    ∧ (blockScan 32767 { data := mkBitmap BLOCK_SIZE [(1, 1), (2, 2)], pos := 0, out := "",
                         log := [] } 0).proc.out ≠ runsText 0 false [(1, 1), (2, 2)] := by
  have h := blockScan_runs_at 32767 (mkBitmap BLOCK_SIZE [(1, 1), (2, 2)]) []
    (mkBitmap BLOCK_SIZE [(1, 1), (2, 2)]) [] 0 0 [(1, 2)]
    (by rw [List.nil_append, List.append_nil]) rfl
    (by rw [mkBitmap_length]; unfold BLOCK_SIZE; omega)
    (fun x hx => by
      rw [fileBit_mkBitmap BLOCK_SIZE _ x (by unfold BLOCK_SIZE; omega)]
      by_cases h1 : x = 1
      · subst h1; decide
      · by_cases h2 : x = 2
        · subst h2; decide
        · rw [bitOf_tail _ _ x (by simp only; omega), bitOf_tail _ _ x (by simp only; omega),
            bitOf_tail _ _ x (by simp only; omega)])
    (by decide) (by decide)
  have e1 : runsText 0 false [(1, 2)] = "1-2" := by decide
  have e2 : runsText 0 false [(1, 1), (2, 2)] = "1, 2" := by decide
  rw [e1] at h
  refine ⟨h, e2, ?_⟩
  rw [h, e2]
  decide

/-- C3, at the failing input. The bitmap block has exactly one 0 bit, at position 32767
(bit 7 of its last byte), and every other bit 1: the block scan and the inode scan print
nothing, where the claim has `32767` and `32768`.  The `j` loops stop after 4095 bytes, so
the bits 32760 to 32767 of the block are never examined. -/
theorem single_free_bit_in_last_byte_not_reported (H : Int) (pre post : List Byte)
    (byte0 : Byte) (iBit : Nat) :
    (blockScan H { data := pre ++ mkBitmap BLOCK_SIZE [(32767, 32767)] ++ post,
                   pos := pre.length, out := "", log := [] } byte0).proc.out = ""
    ∧ (inodeScan H { data := pre ++ mkBitmap BLOCK_SIZE [(32767, 32767)] ++ post,
                     pos := pre.length, out := "", log := [] } byte0 iBit).proc.out = "" := by
  have hlen : 4095 ≤ (mkBitmap BLOCK_SIZE [(32767, 32767)]).length := by
    rw [mkBitmap_length]; unfold BLOCK_SIZE; omega
  have hb : ∀ x, x < 32760 → fileBit (mkBitmap BLOCK_SIZE [(32767, 32767)]) 0 x = 1 := by
    intro x hx
    rw [fileBit_mkBitmap BLOCK_SIZE _ x (by unfold BLOCK_SIZE; omega),
      bitOf_tail _ _ x (by simp only; omega)]
    exact bitOf_nil x
  constructor
  · rw [blockScan_mid H pre _ post byte0 hlen]
    exact closeOut_ones 0 _ _ _ hb
  · rw [inodeScan_mid H pre _ post byte0 iBit hlen]
    exact closeOut_ones 1 _ _ _ hb

/-! ## The group count -/

set_option maxRecDepth 100000 in
/-- C5, counterexample. With 10 inodes and 4 inodes per group the program counts 2
groups, not `ceil(10 / 4) = 3`: it prints `Number of Groups : 2`, asks for the descriptors
of 2 groups in the read of the table, and the group loop runs over the groups 0 and 1. -/
theorem group_count_of_ten_by_four_is_two :
    groupCount sbTenFour = 2 ∧ ceilDiv 10 4 = 3
    ∧ (generalInfo sbTenFour { data := [], pos := 0, out := "", log := [] }).1.out
        = "--General File System Information--\nBlock Size in Bytes : 1024\n"
          ++ "Total Number of Blocks : 64\nDisk Size in Bytes : 65536\n"
          ++ "Maximum Number of Blocks Per Group : 8192\nInode Size in Bytes : 128\n"
          ++ "Number of Inodes Per Group : 4\nNumber of Inode Blocks Per Group : 0\n"
          ++ "Number of Groups : 2\n\n"
    ∧ (∀ (env : Env) (p : Proc), (p.lseek ((1 * BLOCK_SIZE : Nat) : Int)).1.read env.gdMem
          (SIZEOF_GROUP_DESC * groupCount sbTenFour)
        = (p.lseek 4096).1.read env.gdMem 64)
    ∧ List.range (groupCount sbTenFour) = [0, 1] := by
  refine ⟨by decide, by decide, by decide, fun env p => rfl, by decide⟩

/-- The quotient of C integer division is the quotient rounded down; it is the quotient
rounded up exactly when the divisor divides the dividend. -/
theorem quotient_is_floor (sb : SuperBlock) (h : 0 < sb.s_inodes_per_group) :
    groupCount sb * sb.s_inodes_per_group ≤ sb.s_inodes_count
    ∧ sb.s_inodes_count < (groupCount sb + 1) * sb.s_inodes_per_group
    ∧ (groupCount sb = ceilDiv sb.s_inodes_count sb.s_inodes_per_group
        ↔ sb.s_inodes_per_group ∣ sb.s_inodes_count) := by
  unfold groupCount ceilDiv
  refine ⟨Nat.div_mul_le_self _ _, ?_, ?_⟩
  · rw [Nat.add_mul, Nat.one_mul]
    have := Nat.div_add_mod sb.s_inodes_count sb.s_inodes_per_group
    have := Nat.mod_lt sb.s_inodes_count h
    nlinarith [Nat.mul_comm (sb.s_inodes_count / sb.s_inodes_per_group) sb.s_inodes_per_group]
  · generalize sb.s_inodes_count = a at *
    generalize sb.s_inodes_per_group = b at *
    have hda := Nat.div_add_mod a b
    have hlt : a % b < b := Nat.mod_lt a h
    have hmul : (a / b + 1) * b = b * (a / b) + b := by ring
    constructor
    · intro he
      by_contra hnd
      have hm : 0 < a % b := Nat.pos_of_ne_zero (fun h0 => hnd (Nat.dvd_of_mod_eq_zero h0))
      generalize a / b = q at *
      generalize a % b = r at *
      have h2 : a + b - 1 = (r - 1) + (q + 1) * b := by
        generalize b * q = x at *
        omega
      rw [h2, Nat.add_mul_div_right _ _ h, Nat.div_eq_of_lt (by omega)] at he
      omega
    · rintro ⟨c, rfl⟩
      rw [Nat.mul_div_cancel_left c h]
      have h2 : b * c + b - 1 = (b - 1) + c * b := by
        have : c * b = b * c := by ring
        generalize b * c = x at *
        omega
      rw [h2, Nat.add_mul_div_right _ _ h, Nat.div_eq_of_lt (by omega)]
      omega

/-! ## The directory walk -/

theorem toInt32_of_range (x : Int) (h0 : -2147483648 ≤ x) (h1 : x < 2147483648) :
    toInt32 x = x := by
  unfold toInt32
  omega

theorem lseek_of_nonneg (p : Proc) (off : Int) (h : 0 ≤ off) :
    p.lseek off = ({ p with pos := off.toNat, log := p.log ++ [IOEvent.seek off] }, off) := by
  unfold Proc.lseek
  rw [if_neg (by omega)]

theorem read_eq (p : Proc) (buf : List Byte) (count : Nat) :
    p.read buf count =
      ({ p with pos := p.pos + (availAt p.data p.pos count).length,
                log := p.log ++ [IOEvent.read p.pos count] },
       availAt p.data p.pos count ++ buf.drop (availAt p.data p.pos count).length,
       (availAt p.data p.pos count).length) := rfl

/-- The state after the seek to `z` and the read of the next entry. -/
theorem walk_state_eq (ino : Inode) (deTail : List Byte) (fuel : Nat) (w : WalkState)
    (t : String) (z : Int) :
    walkLoop ino deTail fuel
        { proc := (({ data := (w.proc.print t).data, pos := z.toNat,
                      out := (w.proc.print t).out,
                      log := (w.proc.print t).log ++ [IOEvent.seek z] } : Proc).read w.deBuf
                    SIZEOF_DIR_ENTRY).1,
          deBuf := (({ data := (w.proc.print t).data, pos := z.toNat,
                       out := (w.proc.print t).out,
                       log := (w.proc.print t).log ++ [IOEvent.seek z] } : Proc).read w.deBuf
                     SIZEOF_DIR_ENTRY).2.1,
          iNextDir := z }
      = walkLoop ino deTail fuel
        { proc :=
            { data := w.proc.data,
              pos := z.toNat + (availAt w.proc.data z.toNat SIZEOF_DIR_ENTRY).length,
              out := w.proc.out ++ t,
              log := w.proc.log ++ [IOEvent.seek z] ++ [IOEvent.read z.toNat SIZEOF_DIR_ENTRY] },
          deBuf := availAt w.proc.data z.toNat SIZEOF_DIR_ENTRY
            ++ w.deBuf.drop (availAt w.proc.data z.toNat SIZEOF_DIR_ENTRY).length,
          iNextDir := z } := rfl

/-- One iteration of the directory loop whose seek succeeds. -/
theorem walkLoop_succ (ino : Inode) (deTail : List Byte) (fuel : Nat) (w : WalkState)
    (hc : walkCond ino w.iNextDir)
    (h0 : 0 ≤ toInt32 (w.iNextDir + ((decodeDirEntry w.deBuf).rec_len : Int))) :
    walkLoop ino deTail (fuel + 1) w =
      walkLoop ino deTail fuel
        { proc :=
            { data := w.proc.data,
              pos := (toInt32 (w.iNextDir + ((decodeDirEntry w.deBuf).rec_len : Int))).toNat
                + (availAt w.proc.data
                    (toInt32 (w.iNextDir + ((decodeDirEntry w.deBuf).rec_len : Int))).toNat
                    SIZEOF_DIR_ENTRY).length,
              out := w.proc.out ++ entryText w.deBuf deTail,
              log := w.proc.log
                ++ [IOEvent.seek (toInt32 (w.iNextDir + ((decodeDirEntry w.deBuf).rec_len : Int)))]
                ++ [IOEvent.read
                    (toInt32 (w.iNextDir + ((decodeDirEntry w.deBuf).rec_len : Int))).toNat
                    SIZEOF_DIR_ENTRY] },
          deBuf := availAt w.proc.data
              (toInt32 (w.iNextDir + ((decodeDirEntry w.deBuf).rec_len : Int))).toNat
              SIZEOF_DIR_ENTRY
            ++ w.deBuf.drop (availAt w.proc.data
              (toInt32 (w.iNextDir + ((decodeDirEntry w.deBuf).rec_len : Int))).toNat
              SIZEOF_DIR_ENTRY).length,
          iNextDir := toInt32 (w.iNextDir + ((decodeDirEntry w.deBuf).rec_len : Int)) } := by
  rw [walkLoop, if_pos hc]
  generalize entryText w.deBuf deTail = t
  simp only [lseek_of_nonneg _ _ h0]
  rw [if_neg (by simp)]
  exact walk_state_eq ino deTail fuel w t _

/-- The directory loop when its condition is false. -/
theorem walkLoop_done (ino : Inode) (deTail : List Byte) (fuel : Nat) (w : WalkState)
    (hc : ¬ walkCond ino w.iNextDir) :
    walkLoop ino deTail fuel w = (w, WalkEnd.finished) := by
  cases fuel <;> simp [walkLoop, hc]

/-- An entry whose `rec_len` is 0, met while the loop condition holds: every iteration
prints that entry, seeks to the offset it is already at and reads the same bytes, so the
loop is still running after any number of iterations. -/
theorem walkLoop_rec_len_zero (ino : Inode) (deTail : List Byte) :
    ∀ (fuel : Nat) (w : WalkState), walkCond ino w.iNextDir →
      (decodeDirEntry w.deBuf).rec_len = 0 → 0 ≤ w.iNextDir → w.iNextDir < 2147483648 →
      availAt w.proc.data w.iNextDir.toNat SIZEOF_DIR_ENTRY
          ++ w.deBuf.drop (availAt w.proc.data w.iNextDir.toNat SIZEOF_DIR_ENTRY).length
        = w.deBuf →
      (walkLoop ino deTail fuel w).2 = WalkEnd.running
        ∧ (walkLoop ino deTail fuel w).1.proc.out
            = w.proc.out ++ repeatText (entryText w.deBuf deTail) fuel
  | 0, w, hc, _, _, _, _ => by
    simp [walkLoop, hc, repeatText]
  | fuel + 1, w, hc, hz, h0, h1, hb => by
    have hi : toInt32 (w.iNextDir + ((decodeDirEntry w.deBuf).rec_len : Int)) = w.iNextDir := by
      rw [hz]
      simp only [Nat.cast_zero, add_zero]
      exact toInt32_of_range _ (by omega) h1
    rw [walkLoop_succ ino deTail fuel w hc (by rw [hi]; exact h0), hi, hb]
    obtain ⟨r1, r2⟩ := walkLoop_rec_len_zero ino deTail fuel
      { proc :=
          { data := w.proc.data,
            pos := w.iNextDir.toNat
              + (availAt w.proc.data w.iNextDir.toNat SIZEOF_DIR_ENTRY).length,
            out := w.proc.out ++ entryText w.deBuf deTail,
            log := w.proc.log ++ [IOEvent.seek w.iNextDir]
              ++ [IOEvent.read w.iNextDir.toNat SIZEOF_DIR_ENTRY] },
        deBuf := w.deBuf, iNextDir := w.iNextDir } hc hz h0 h1 hb
    refine ⟨r1, ?_⟩
    rw [r2]
    simp [repeatText, String.append_assoc]

/-- The directory walk as a run of the directory loop from the state reached by the first
seek and the first entry read. -/
theorem dirWalk_eq (ino : Inode) (deMem deTail : List Byte) (fuel : Nat) (p : Proc) :
    dirWalk ino deMem deTail fuel p =
      walkLoop ino deTail fuel
        { proc :=
            { data := p.data,
              pos := dirStart ino + (availAt p.data (dirStart ino) SIZEOF_DIR_ENTRY).length,
              out := p.out ++ "--Root Directory Entries--\n",
              log := p.log ++ [IOEvent.seek (dirStart ino)]
                ++ [IOEvent.read (dirStart ino) SIZEOF_DIR_ENTRY] },
          deBuf := availAt p.data (dirStart ino) SIZEOF_DIR_ENTRY
            ++ deMem.drop (availAt p.data (dirStart ino) SIZEOF_DIR_ENTRY).length,
          iNextDir := toInt32 (dirStart ino) } := by
  unfold dirWalk
  generalize "--Root Directory Entries--\n" = t
  simp only [lseek_of_nonneg _ _ (Int.natCast_nonneg (dirStart ino))]
  rfl

theorem availAt_replicate (n pos count : Nat) (v : Byte) (h : pos + count ≤ n) :
    availAt (List.replicate n v) pos count = List.replicate count v := by
  simp only [availAt, List.drop_replicate, List.take_replicate]
  congr 1
  omega

theorem byteAt_append_replicate (count i : Nat) (v : Byte) (rest : List Byte) (h : i < count) :
    byteAt (List.replicate count v ++ rest) i = v.val := by
  unfold byteAt
  rw [List.getD_eq_getElem _ _ (by rw [List.length_append, List.length_replicate]; omega),
    List.getElem_append_left (by rw [List.length_replicate]; exact h)]
  simp

/-- C6, at the failing input. The root inode has `i_size = 4096` and `i_block[0] = 1`, and
the directory block (bytes 4096 to 8191 of the image) is all zero, so its first entry has
`rec_len = 0`: whatever the number of iterations allowed, the directory loop is still
running after them, having printed that first entry once per iteration.  The walk never
terminates and reports no failure. -/
theorem zero_rec_len_walk_never_ends (deMem deTail : List Byte) (fuel : Nat) :
    (dirWalk { i_size := 4096, i_block0 := 1 } deMem deTail fuel
        { data := List.replicate 8192 0, pos := 0, out := "", log := [] }).2 = WalkEnd.running
    ∧ (dirWalk { i_size := 4096, i_block0 := 1 } deMem deTail fuel
        { data := List.replicate 8192 0, pos := 0, out := "", log := [] }).1.proc.out
      = "" ++ "--Root Directory Entries--\n"
        ++ repeatText (entryText (List.replicate SIZEOF_DIR_ENTRY 0
            ++ deMem.drop SIZEOF_DIR_ENTRY) deTail) fuel := by
  have hd : dirStart { i_size := 4096, i_block0 := 1 } = 4096 := by decide
  have hi : toInt32 ((4096 : Nat) : Int) = 4096 := by decide
  have ha : availAt (List.replicate 8192 (0 : Byte)) 4096 SIZEOF_DIR_ENTRY
      = List.replicate SIZEOF_DIR_ENTRY 0 :=
    availAt_replicate 8192 4096 SIZEOF_DIR_ENTRY 0 (by decide)
  have h4 : 4 < SIZEOF_DIR_ENTRY := by decide
  have h5 : 5 < SIZEOF_DIR_ENTRY := by decide
  rw [dirWalk_eq, hd, hi, ha, List.length_replicate]
  exact walkLoop_rec_len_zero { i_size := 4096, i_block0 := 1 } deTail fuel
    { proc :=
        { data := List.replicate 8192 0, pos := 4096 + SIZEOF_DIR_ENTRY,
          out := "" ++ "--Root Directory Entries--\n",
          log := [] ++ [IOEvent.seek ((4096 : Nat) : Int)]
            ++ [IOEvent.read 4096 SIZEOF_DIR_ENTRY] },
      deBuf := List.replicate SIZEOF_DIR_ENTRY 0 ++ deMem.drop SIZEOF_DIR_ENTRY,
      iNextDir := 4096 }
    (show walkCond { i_size := 4096, i_block0 := 1 } 4096 by decide)
    (by
      simp only [decodeDirEntry, le16]
      rw [byteAt_append_replicate _ _ _ _ h4, byteAt_append_replicate _ _ _ _ h5]
      rfl)
    (show (0 : Int) ≤ 4096 by decide) (show (4096 : Int) < 2147483648 by decide)
    (by
      have e : (4096 : Int).toNat = 4096 := by decide
      simp only [e, ha, List.length_replicate]
      rw [List.drop_append_of_le_length (by rw [List.length_replicate])]
      simp)

theorem toUInt32_of_range (x : Int) (h0 : 0 ≤ x) (h1 : x < 4294967296) :
    toUInt32 x = x.toNat := by
  unfold toUInt32
  rw [Int.emod_eq_of_lt h0 h1]

theorem availAt_length (data : List Byte) (pos count : Nat) :
    (availAt data pos count).length = min count (data.length - pos) := by
  simp [availAt]

/-- A byte of the buffer that a read has just filled. -/
theorem byteAt_avail (data tail : List Byte) (pos count i : Nat) (hi : i < count)
    (hlen : pos + i < data.length) :
    byteAt (availAt data pos count ++ tail) i = byteAt data (pos + i) := by
  have hl : i < (availAt data pos count).length := by
    rw [availAt_length]; omega
  unfold byteAt
  rw [List.getD_eq_getElem _ _ (by rw [List.length_append]; omega),
    List.getElem_append_left hl, List.getD_eq_getElem _ _ hlen]
  simp [availAt]

theorem byteAt_append_right (pre block : List Byte) (i : Nat) :
    byteAt (pre ++ block) (pre.length + i) = byteAt block i := by
  unfold byteAt
  induction pre with
  | nil => simp
  | cons x pre ih =>
    have e : (x :: pre).length + i = (pre.length + i) + 1 := by simp; omega
    rw [e]
    simpa using ih

theorem byteAt_drop_append (buf tail : List Byte) (k i : Nat) (h : k + i < buf.length) :
    byteAt (buf.drop k ++ tail) i = byteAt buf (k + i) := by
  unfold byteAt
  rw [List.getD_eq_getElem _ _ (by rw [List.length_append, List.length_drop]; omega),
    List.getElem_append_left (by rw [List.length_drop]; omega), List.getD_eq_getElem _ _ h]
  simp

/-- The name `.` as `%s` prints it: the byte 46 followed by a zero byte. -/
theorem printfS_dot (l : List Byte) (h0 : byteAt l 0 = 46) (h1 : byteAt l 1 = 0)
    (hl : 1 < l.length) : printfS l = "." := by
  match l, hl with
  | a :: b :: t, _ =>
    simp only [byteAt, List.getD_cons_zero, List.getD_cons_succ] at h0 h1
    have e : printfS (a :: b :: t) = String.mk [Char.ofNat a.val] := by
      simp [printfS, List.takeWhile, h0, h1]
    rw [e, h0]

/-- The name `..` as `%s` prints it: twice the byte 46, followed by a zero byte. -/
theorem printfS_dotdot (l : List Byte) (h0 : byteAt l 0 = 46) (h1 : byteAt l 1 = 46)
    (h2 : byteAt l 2 = 0) (hl : 2 < l.length) : printfS l = ".." := by
  match l, hl with
  | a :: b :: c :: t, _ =>
    simp only [byteAt, List.getD_cons_zero, List.getD_cons_succ] at h0 h1 h2
    have e : printfS (a :: b :: c :: t) = String.mk [Char.ofNat a.val, Char.ofNat b.val] := by
      simp [printfS, List.takeWhile, h0, h1, h2]
    rw [e, h0, h1]

theorem walkLoop_step (ino : Inode) (deTail : List Byte) (fuel : Nat) (w : WalkState)
    (hc : walkCond ino w.iNextDir) (h0 : 0 ≤ nextOff w.deBuf w.iNextDir) :
    walkLoop ino deTail (fuel + 1) w =
      walkLoop ino deTail fuel
        { proc :=
            { data := w.proc.data,
              pos := (nextOff w.deBuf w.iNextDir).toNat
                + (availAt w.proc.data (nextOff w.deBuf w.iNextDir).toNat SIZEOF_DIR_ENTRY).length,
              out := w.proc.out ++ entryText w.deBuf deTail,
              log := w.proc.log ++ [IOEvent.seek (nextOff w.deBuf w.iNextDir)]
                ++ [IOEvent.read (nextOff w.deBuf w.iNextDir).toNat SIZEOF_DIR_ENTRY] },
          deBuf := nextBuf w.proc.data w.deBuf (nextOff w.deBuf w.iNextDir),
          iNextDir := nextOff w.deBuf w.iNextDir } :=
  walkLoop_succ ino deTail fuel w hc h0

/-- A walk over exactly two entries: the loop condition holds at the first and at the
second offset and fails at the third. -/
theorem walkLoop_two (ino : Inode) (deTail : List Byte) (fuel : Nat) (w : WalkState)
    (c0 : walkCond ino w.iNextDir) (h1 : 0 ≤ nextOff w.deBuf w.iNextDir)
    (c1 : walkCond ino (nextOff w.deBuf w.iNextDir))
    (h2 : 0 ≤ nextOff (nextBuf w.proc.data w.deBuf (nextOff w.deBuf w.iNextDir))
      (nextOff w.deBuf w.iNextDir))
    (c2 : ¬ walkCond ino (nextOff (nextBuf w.proc.data w.deBuf (nextOff w.deBuf w.iNextDir))
      (nextOff w.deBuf w.iNextDir))) :
    (walkLoop ino deTail (fuel + 2) w).2 = WalkEnd.finished
    ∧ (walkLoop ino deTail (fuel + 2) w).1.proc.out
      = w.proc.out ++ entryText w.deBuf deTail
        ++ entryText (nextBuf w.proc.data w.deBuf (nextOff w.deBuf w.iNextDir)) deTail
    ∧ (walkLoop ino deTail (fuel + 2) w).1.proc.log
      = w.proc.log ++ [IOEvent.seek (nextOff w.deBuf w.iNextDir)]
        ++ [IOEvent.read (nextOff w.deBuf w.iNextDir).toNat SIZEOF_DIR_ENTRY]
        ++ [IOEvent.seek (nextOff (nextBuf w.proc.data w.deBuf (nextOff w.deBuf w.iNextDir))
              (nextOff w.deBuf w.iNextDir))]
        ++ [IOEvent.read (nextOff (nextBuf w.proc.data w.deBuf (nextOff w.deBuf w.iNextDir))
              (nextOff w.deBuf w.iNextDir)).toNat SIZEOF_DIR_ENTRY] := by
  rw [walkLoop_step ino deTail (fuel + 1) w c0 h1]
  generalize hz1 : nextOff w.deBuf w.iNextDir = z1 at *
  generalize hd1 : nextBuf w.proc.data w.deBuf z1 = d1 at *
  generalize entryText w.deBuf deTail = t0
  rw [walkLoop_step ino deTail fuel _ c1 h2]
  generalize hz2 : nextOff d1 z1 = z2 at *
  generalize entryText d1 deTail = t1
  rw [walkLoop_done ino deTail fuel _ c2]
  exact ⟨rfl, rfl, rfl⟩

/-- What a buffer that begins with the bytes of entry A decodes to and prints as. -/
theorem entryText_A (d : TwoEntries) (rest buf deTail : List Byte) (off : Nat)
    (hlen : 10 ≤ buf.length)
    (h : ∀ i, i < 10 → byteAt buf i = byteAt (d.bytes ++ rest) (off + i)) (hoff : off = 0) :
    (decodeDirEntry buf).rec_len = 12
    ∧ entryText buf deTail = entryLines d.inodeA 12 1 d.aType.val "." := by
  subst hoff
  have e0 := h 0 (by norm_num)
  have e1 := h 1 (by norm_num)
  have e2 := h 2 (by norm_num)
  have e3 := h 3 (by norm_num)
  have e4 := h 4 (by norm_num)
  have e5 := h 5 (by norm_num)
  have e6 := h 6 (by norm_num)
  have e7 := h 7 (by norm_num)
  have e8 := h 8 (by norm_num)
  have e9 := h 9 (by norm_num)
  simp only [byteAt, TwoEntries.bytes, List.cons_append, List.getD_cons_zero,
    List.getD_cons_succ, Nat.zero_add] at e0 e1 e2 e3 e4 e5 e6 e7 e8 e9
  have hn : printfS (buf.drop 8 ++ deTail) = "." :=
    printfS_dot _ (by rw [byteAt_drop_append _ _ _ _ (by omega)]; exact e8)
      (by rw [byteAt_drop_append _ _ _ _ (by omega)]; exact e9)
      (by rw [List.length_append, List.length_drop]; omega)
  have hd : decodeDirEntry buf
      = { inode := d.inodeA, rec_len := 12, name_len := 1, file_type := d.aType.val } := by
    simp only [decodeDirEntry, le32, le16, byteAt, TwoEntries.inodeA, e0, e1, e2, e3, e4, e5,
      e6, e7]
    rfl
  exact ⟨by rw [hd], by rw [entryText, hd, hn]⟩

/-- What a buffer that begins with the bytes of entry B decodes to and prints as. -/
theorem entryText_B (d : TwoEntries) (rest buf deTail : List Byte) (off : Nat)
    (hlen : 11 ≤ buf.length)
    (h : ∀ i, i < 11 → byteAt buf i = byteAt (d.bytes ++ rest) (off + i)) (hoff : off = 12) :
    (decodeDirEntry buf).rec_len = d.recLenB
    ∧ entryText buf deTail = entryLines d.inodeB d.recLenB 2 d.bType.val ".." := by
  subst hoff
  have e0 := h 0 (by norm_num)
  have e1 := h 1 (by norm_num)
  have e2 := h 2 (by norm_num)
  have e3 := h 3 (by norm_num)
  have e4 := h 4 (by norm_num)
  have e5 := h 5 (by norm_num)
  have e6 := h 6 (by norm_num)
  have e7 := h 7 (by norm_num)
  have e8 := h 8 (by norm_num)
  have e9 := h 9 (by norm_num)
  have e10 := h 10 (by norm_num)
  simp only [byteAt, TwoEntries.bytes, List.cons_append, List.getD_cons_zero,
    List.getD_cons_succ, Nat.reduceAdd] at e0 e1 e2 e3 e4 e5 e6 e7 e8 e9 e10
  have hn : printfS (buf.drop 8 ++ deTail) = ".." :=
    printfS_dotdot _ (by rw [byteAt_drop_append _ _ _ _ (by omega)]; exact e8)
      (by rw [byteAt_drop_append _ _ _ _ (by omega)]; exact e9)
      (by rw [byteAt_drop_append _ _ _ _ (by omega)]; exact e10)
      (by rw [List.length_append, List.length_drop]; omega)
  have hd : decodeDirEntry buf
      = { inode := d.inodeB, rec_len := d.recLenB, name_len := 2,
          file_type := d.bType.val } := by
    simp only [decodeDirEntry, le32, le16, byteAt, TwoEntries.inodeB, TwoEntries.recLenB,
      e0, e1, e2, e3, e4, e5, e6, e7]
    rfl
  exact ⟨by rw [hd], by rw [entryText, hd, hn]⟩

/-- The walk of a directory block that holds entry A and entry B, for an inode of size
`12 + rec_len(B)`: the two entries are printed and the loop ends; three entries have been
read, the third at the offset where the size of the inode is reached. -/
theorem two_entries_walk (d : TwoEntries) (b S : Nat) (data pre rest deMem deTail : List Byte)
    (out : String) (log : List IOEvent) (pos0 fuel : Nat)
    (hdata : data = pre ++ (d.bytes ++ rest)) (hpre : pre.length = b * BLOCK_SIZE)
    (hS : S = 12 + d.recLenB) (hB : 0 < d.recLenB)
    (hsmall : b * BLOCK_SIZE + S < 2147483648) :
    (dirWalk { i_size := S, i_block0 := b } deMem deTail (fuel + 2)
        { data := data, pos := pos0, out := out, log := log }).2 = WalkEnd.finished
    ∧ (dirWalk { i_size := S, i_block0 := b } deMem deTail (fuel + 2)
        { data := data, pos := pos0, out := out, log := log }).1.proc.out
      = out ++ "--Root Directory Entries--\n"
        ++ entryLines d.inodeA 12 1 d.aType.val "."
        ++ entryLines d.inodeB d.recLenB 2 d.bType.val ".."
    ∧ (dirWalk { i_size := S, i_block0 := b } deMem deTail (fuel + 2)
        { data := data, pos := pos0, out := out, log := log }).1.proc.log
      = log ++ [IOEvent.seek ((b * BLOCK_SIZE : Nat) : Int)]
        ++ [IOEvent.read (b * BLOCK_SIZE) SIZEOF_DIR_ENTRY]
        ++ [IOEvent.seek ((b * BLOCK_SIZE + 12 : Nat) : Int)]
        ++ [IOEvent.read (b * BLOCK_SIZE + 12) SIZEOF_DIR_ENTRY]
        ++ [IOEvent.seek ((b * BLOCK_SIZE + S : Nat) : Int)]
        ++ [IOEvent.read (b * BLOCK_SIZE + S) SIZEOF_DIR_ENTRY] := by
  generalize hs : b * BLOCK_SIZE = s at *
  have hds : dirStart { i_size := S, i_block0 := b } = s := by
    unfold dirStart
    rw [hs]
    exact Nat.mod_eq_of_lt (by omega)
  have hcond : ∀ z : Int, walkCond { i_size := S, i_block0 := b } z ↔ toUInt32 z < s + S := by
    intro z
    show toUInt32 z < (b * BLOCK_SIZE + S) % 4294967296 ↔ _
    rw [hs, Nat.mod_eq_of_lt (by omega)]
  have hlenb : d.bytes.length = 23 := rfl
  have hdl : data.length = s + 23 + rest.length := by
    rw [hdata, List.length_append, List.length_append, hpre, hlenb]; omega
  have hsz : SIZEOF_DIR_ENTRY = 264 := rfl
  have hbyte : ∀ (tail : List Byte) (off i : Nat), off + i < 23 →
      byteAt (availAt data (s + off) SIZEOF_DIR_ENTRY ++ tail) i
        = byteAt (d.bytes ++ rest) (off + i) := by
    intro tail off i hi
    rw [byteAt_avail _ _ _ _ _ (by rw [hsz]; omega) (by omega), hdata, ← hpre,
      Nat.add_assoc, byteAt_append_right]
  have hal : ∀ off, off ≤ 12 → 11 ≤ (availAt data (s + off) SIZEOF_DIR_ENTRY).length := by
    intro off ho
    rw [availAt_length, hsz]; omega
  -- bounds of the three offsets
  have l0 : (-2147483648 : Int) ≤ (s : Int) := by omega
  have u0 : (s : Int) < 2147483648 := by omega
  have l1 : (-2147483648 : Int) ≤ ((s + 12 : Nat) : Int) := by omega
  have u1 : ((s + 12 : Nat) : Int) < 2147483648 := by omega
  have l2 : (-2147483648 : Int) ≤ ((s + S : Nat) : Int) := by omega
  have u2 : ((s + S : Nat) : Int) < 2147483648 := by omega
  have n0 : (0 : Int) ≤ (s : Int) := by omega
  have n1 : (0 : Int) ≤ ((s + 12 : Nat) : Int) := by omega
  have n2 : (0 : Int) ≤ ((s + S : Nat) : Int) := by omega
  have v0 : (s : Int) < 4294967296 := by omega
  have v1 : ((s + 12 : Nat) : Int) < 4294967296 := by omega
  have v2 : ((s + S : Nat) : Int) < 4294967296 := by omega
  have e12 : s + 12 + d.recLenB = s + S := by omega
  have c0 : s < s + S := by omega
  have c1 : s + 12 < s + S := by omega
  have c2 : ¬ s + S < s + S := by omega
  have len0 : 10 ≤ (availAt data s SIZEOF_DIR_ENTRY
      ++ deMem.drop (availAt data s SIZEOF_DIR_ENTRY).length).length := by
    have := hal 0 (by omega)
    rw [List.length_append]
    simp only [Nat.add_zero] at this
    omega
  have len1 : ∀ buf : List Byte, 11 ≤ (availAt data (s + 12) SIZEOF_DIR_ENTRY
      ++ buf).length := by
    intro buf
    have := hal 12 (le_refl _)
    rw [List.length_append]
    omega
  -- the first entry
  have hA := entryText_A d rest
    (availAt data s SIZEOF_DIR_ENTRY
      ++ deMem.drop (availAt data s SIZEOF_DIR_ENTRY).length) deTail 0 len0
    (fun i hi => by have := hbyte (deMem.drop (availAt data s SIZEOF_DIR_ENTRY).length) 0 i
                      (by omega); simpa using this) rfl
  have hn1 : ((s + 12 : Nat) : Int).toNat = s + 12 := Int.toNat_natCast _
  have hn2 : ((s + S : Nat) : Int).toNat = s + S := Int.toNat_natCast _
  -- the second entry
  have hBt := entryText_B d rest
    (nextBuf data (availAt data s SIZEOF_DIR_ENTRY
      ++ deMem.drop (availAt data s SIZEOF_DIR_ENTRY).length) ((s + 12 : Nat) : Int)) deTail 12
    (by unfold nextBuf; rw [hn1]; exact len1 _)
    (fun i hi => by unfold nextBuf; rw [hn1]; exact hbyte _ 12 i (by omega)) rfl
  have ti0 : toInt32 (s : Int) = s := toInt32_of_range _ l0 u0
  have hz1 : nextOff (availAt data s SIZEOF_DIR_ENTRY
      ++ deMem.drop (availAt data s SIZEOF_DIR_ENTRY).length) (s : Int)
      = ((s + 12 : Nat) : Int) := by
    unfold nextOff
    rw [hA.1, ← Nat.cast_add]
    exact toInt32_of_range _ l1 u1
  have hz2 : nextOff (nextBuf data (availAt data s SIZEOF_DIR_ENTRY
      ++ deMem.drop (availAt data s SIZEOF_DIR_ENTRY).length) ((s + 12 : Nat) : Int))
      ((s + 12 : Nat) : Int) = ((s + S : Nat) : Int) := by
    unfold nextOff
    rw [hBt.1, ← Nat.cast_add, e12]
    exact toInt32_of_range _ l2 u2
  have t0 : toUInt32 (s : Int) = s := by
    rw [toUInt32_of_range _ n0 v0]; exact Int.toNat_natCast _
  have t1 : toUInt32 ((s + 12 : Nat) : Int) = s + 12 := by
    rw [toUInt32_of_range _ n1 v1]; exact Int.toNat_natCast _
  have t2 : toUInt32 ((s + S : Nat) : Int) = s + S := by
    rw [toUInt32_of_range _ n2 v2]; exact Int.toNat_natCast _
  rw [dirWalk_eq, hds, ti0]
  have h2 := walkLoop_two { i_size := S, i_block0 := b } deTail fuel
    { proc :=
        { data := data, pos := s + (availAt data s SIZEOF_DIR_ENTRY).length,
          out := out ++ "--Root Directory Entries--\n",
          log := log ++ [IOEvent.seek (s : Int)] ++ [IOEvent.read s SIZEOF_DIR_ENTRY] },
      deBuf := availAt data s SIZEOF_DIR_ENTRY
        ++ deMem.drop (availAt data s SIZEOF_DIR_ENTRY).length,
      iNextDir := (s : Int) }
    ((hcond _).2 (by rw [t0]; exact c0))
    (by rw [hz1]; exact n1)
    (by rw [hz1]; exact (hcond _).2 (by rw [t1]; exact c1))
    (by rw [hz1, hz2]; exact n2)
    (by rw [hz1, hz2]; exact fun hc => c2 (by have := (hcond _).1 hc; rw [t2] at this; exact this))
  rw [hz1, hz2, hn1, hn2, hA.2, hBt.2] at h2
  exact h2

/-- C7, as amended. A directory block stored at `i_block[0] * BLOCK_SIZE` that holds entry
A (`rec_len = 12`, name `.` followed by a zero byte) and then entry B
(`rec_len = S - 12 > 0`, name `..` followed by a zero byte), for an inode of size `S`, the
offsets staying below `2^31`: the walk prints the heading, then A, then B, and ends; it
has issued three entry reads, at the start of the block, at `+ 12` and at `+ S`, the last
one after B was printed, and what that read returns is not printed. -/
theorem walk_of_two_entries (d : TwoEntries) (b S : Nat)
    (data pre rest deMem deTail : List Byte) (out : String) (log : List IOEvent)
    (pos0 fuel : Nat)
    (hdata : data = pre ++ (d.bytes ++ rest)) (hpre : pre.length = b * BLOCK_SIZE)
    (hS : S = 12 + d.recLenB) (hB : 0 < d.recLenB)
    (hsmall : b * BLOCK_SIZE + S < 2147483648) :
    (dirWalk { i_size := S, i_block0 := b } deMem deTail (fuel + 2)
        { data := data, pos := pos0, out := out, log := log }).2 = WalkEnd.finished
    ∧ (dirWalk { i_size := S, i_block0 := b } deMem deTail (fuel + 2)
        { data := data, pos := pos0, out := out, log := log }).1.proc.out
      = out ++ "--Root Directory Entries--\n"
        ++ entryLines d.inodeA 12 1 d.aType.val "."
        ++ entryLines d.inodeB d.recLenB 2 d.bType.val ".."
    ∧ (dirWalk { i_size := S, i_block0 := b } deMem deTail (fuel + 2)
        { data := data, pos := pos0, out := out, log := log }).1.proc.log
      = log ++ [IOEvent.seek ((b * BLOCK_SIZE : Nat) : Int)]
        ++ [IOEvent.read (b * BLOCK_SIZE) SIZEOF_DIR_ENTRY]
        ++ [IOEvent.seek ((b * BLOCK_SIZE + 12 : Nat) : Int)]
        ++ [IOEvent.read (b * BLOCK_SIZE + 12) SIZEOF_DIR_ENTRY]
        ++ [IOEvent.seek ((b * BLOCK_SIZE + S : Nat) : Int)]
        ++ [IOEvent.read (b * BLOCK_SIZE + S) SIZEOF_DIR_ENTRY] :=
  two_entries_walk d b S data pre rest deMem deTail out log pos0 fuel hdata hpre hS hB hsmall

/-- C7, witness: the root directory of a fresh file system in block 1 of an image of two
4096-byte blocks. -/
theorem walk_of_two_entries_witness :
    (List.replicate 4096 (0 : Byte)).length = 1 * BLOCK_SIZE
    ∧ 4096 = 12 + rootDirEntries.recLenB ∧ 0 < rootDirEntries.recLenB
    ∧ (dirWalk { i_size := 4096, i_block0 := 1 } [] [] (0 + 2)
        { data := List.replicate 4096 0 ++ (rootDirEntries.bytes ++ List.replicate 4073 0),
          pos := 0, out := "", log := [] }).2 = WalkEnd.finished := by
  have hl : (List.replicate 4096 (0 : Byte)).length = 1 * BLOCK_SIZE := by
    rw [List.length_replicate]; rfl
  have hS : 4096 = 12 + rootDirEntries.recLenB := by decide
  have hB : 0 < rootDirEntries.recLenB := by decide
  exact ⟨hl, hS, hB,
    (walk_of_two_entries rootDirEntries 1 4096 _ (List.replicate 4096 0)
      (List.replicate 4073 0) [] [] "" [] 0 0 rfl hl hS hB (by decide)).1⟩

/-- C7, counterexample. On the root directory of a fresh file system (block 1 of an image
of two 4096-byte blocks, inode size 4096) the walk issues three entry reads, not two: the
third is the read at offset 8192, which is `block_start + block_size`. -/
theorem walk_of_two_entries_reads_three_times :
    (dirWalk { i_size := 4096, i_block0 := 1 } [] [] (0 + 2)
        { data := List.replicate 4096 0 ++ (rootDirEntries.bytes ++ List.replicate 4073 0),
          pos := 0, out := "", log := [] }).1.proc.log
      = [IOEvent.seek 4096, IOEvent.read 4096 264, IOEvent.seek 4108, IOEvent.read 4108 264,
         IOEvent.seek 8192, IOEvent.read 8192 264] := by
  have hl : (List.replicate 4096 (0 : Byte)).length = 1 * BLOCK_SIZE := by
    rw [List.length_replicate]; rfl
  have h := (two_entries_walk rootDirEntries 1 4096 _ (List.replicate 4096 0)
      (List.replicate 4073 0) [] [] "" [] 0 0 rfl hl (by decide) (by decide) (by decide)).2.2
  have e : ([] : List IOEvent) ++ [IOEvent.seek ((1 * BLOCK_SIZE : Nat) : Int)]
        ++ [IOEvent.read (1 * BLOCK_SIZE) SIZEOF_DIR_ENTRY]
        ++ [IOEvent.seek ((1 * BLOCK_SIZE + 12 : Nat) : Int)]
        ++ [IOEvent.read (1 * BLOCK_SIZE + 12) SIZEOF_DIR_ENTRY]
        ++ [IOEvent.seek ((1 * BLOCK_SIZE + 4096 : Nat) : Int)]
        ++ [IOEvent.read (1 * BLOCK_SIZE + 4096) SIZEOF_DIR_ENTRY]
      = [IOEvent.seek 4096, IOEvent.read 4096 264, IOEvent.seek 4108, IOEvent.read 4108 264,
         IOEvent.seek 8192, IOEvent.read 8192 264] := by decide
  rw [e] at h
  exact h

/-! ## What the steps of the program add to the log and to standard output -/

theorem lseek_log (p : Proc) (z : Int) : (p.lseek z).1.log = p.log ++ [IOEvent.seek z] := by
  unfold Proc.lseek; split_ifs <;> rfl

theorem lseek_out (p : Proc) (z : Int) : (p.lseek z).1.out = p.out := by
  unfold Proc.lseek; split_ifs <;> rfl

theorem lseek_data (p : Proc) (z : Int) : (p.lseek z).1.data = p.data := by
  unfold Proc.lseek; split_ifs <;> rfl

theorem read_log (p : Proc) (buf : List Byte) (n : Nat) :
    (p.read buf n).1.log = p.log ++ [IOEvent.read p.pos n] := rfl

theorem read_out (p : Proc) (buf : List Byte) (n : Nat) : (p.read buf n).1.out = p.out := rfl

theorem read_data (p : Proc) (buf : List Byte) (n : Nat) : (p.read buf n).1.data = p.data := rfl

theorem print_log (p : Proc) (t : String) : (p.print t).log = p.log := rfl

theorem print_out (p : Proc) (t : String) : (p.print t).out = p.out ++ t := rfl

theorem print_data (p : Proc) (t : String) : (p.print t).data = p.data := rfl

/-- The directory loop only appends to the log and to standard output. -/
theorem walkLoop_extends (ino : Inode) (deTail : List Byte) :
    ∀ (fuel : Nat) (w : WalkState), ∃ (lo : List IOEvent) (ou : String),
      (walkLoop ino deTail fuel w).1.proc.log = w.proc.log ++ lo
        ∧ (walkLoop ino deTail fuel w).1.proc.out = w.proc.out ++ ou
  | 0, w => by
    refine ⟨[], "", ?_, ?_⟩ <;> (unfold walkLoop; split_ifs <;> simp)
  | fuel + 1, w => by
    by_cases hc : walkCond ino w.iNextDir
    · rw [walkLoop, if_pos hc]
      generalize entryText w.deBuf deTail = t
      generalize toInt32 (w.iNextDir + ((decodeDirEntry w.deBuf).rec_len : Int)) = z
      simp only
      by_cases hf : ((w.proc.print t).lseek z).2 ≠ z
      · rw [if_pos hf]
        refine ⟨[IOEvent.seek z], t, ?_, ?_⟩
        · show ((w.proc.print t).lseek z).1.log = _
          rw [lseek_log, print_log]
        · show ((w.proc.print t).lseek z).1.out = _
          rw [lseek_out, print_out]
      · rw [if_neg hf]
        obtain ⟨lo, ou, h1, h2⟩ := walkLoop_extends ino deTail fuel
          { proc := (((w.proc.print t).lseek z).1.read w.deBuf SIZEOF_DIR_ENTRY).1,
            deBuf := (((w.proc.print t).lseek z).1.read w.deBuf SIZEOF_DIR_ENTRY).2.1,
            iNextDir := z }
        refine ⟨[IOEvent.seek z] ++ [IOEvent.read ((w.proc.print t).lseek z).1.pos
          SIZEOF_DIR_ENTRY] ++ lo, t ++ ou, ?_, ?_⟩
        · rw [h1]
          show (((w.proc.print t).lseek z).1.read w.deBuf SIZEOF_DIR_ENTRY).1.log ++ lo = _
          rw [read_log, lseek_log, print_log]
          simp only [List.append_assoc]
        · rw [h2]
          show (((w.proc.print t).lseek z).1.read w.deBuf SIZEOF_DIR_ENTRY).1.out ++ ou = _
          rw [read_out, lseek_out, print_out, String.append_assoc]
    · rw [walkLoop_done ino deTail (fuel + 1) w hc]
      exact ⟨[], "", by simp, by simp⟩

theorem rootInodeOffset_nonneg (gd0 : GroupDesc) : 0 ≤ rootInodeOffset gd0 :=
  Int.natCast_nonneg _

/-- Part three when neither `malloc` returns `NULL`. -/
theorem partThree_ok (env : Env) (gd0 : GroupDesc) (fuel : Nat) (p : Proc)
    (h2 : env.mallocNull 2 SIZEOF_INODE = false)
    (h3 : env.mallocNull 3 SIZEOF_DIR_ENTRY = false) :
    partThree env gd0 fuel p = partThreeOk env gd0 fuel p := by
  unfold partThree partThreeOk
  rw [h2, h3]
  rfl

/-- The process state at the end of part three is the one the directory walk leaves. -/
theorem partThreeOk_proc (env : Env) (gd0 : GroupDesc) (fuel : Nat) (p : Proc) :
    (partThreeOk env gd0 fuel p).proc
      = (dirWalk
          (decodeInode (((p.lseek (rootInodeOffset gd0)).1.read env.inoMem SIZEOF_INODE).2.1))
          env.deMem env.deTail fuel
          ((p.lseek (rootInodeOffset gd0)).1.read env.inoMem SIZEOF_INODE).1).1.proc := by
  unfold partThreeOk
  simp only
  split <;> rfl

/-- Part three seeks to `rootInodeOffset`, reads one inode record there, prints the
heading of the directory section, and whatever it does next is appended. -/
theorem partThree_extends (env : Env) (gd0 : GroupDesc) (fuel : Nat) (p : Proc)
    (h2 : env.mallocNull 2 SIZEOF_INODE = false)
    (h3 : env.mallocNull 3 SIZEOF_DIR_ENTRY = false) :
    ∃ (lo : List IOEvent) (ou : String),
      (partThree env gd0 fuel p).proc.log
          = p.log ++ [IOEvent.seek (rootInodeOffset gd0)]
            ++ [IOEvent.read (rootInodeOffset gd0).toNat SIZEOF_INODE] ++ lo
        ∧ (partThree env gd0 fuel p).proc.out
          = p.out ++ "--Root Directory Entries--\n" ++ ou := by
  rw [partThree_ok env gd0 fuel p h2 h3, partThreeOk_proc, dirWalk_eq]
  generalize hino : decodeInode
    (((p.lseek (rootInodeOffset gd0)).1.read env.inoMem SIZEOF_INODE).2.1) = ino
  obtain ⟨lo, ou, h1, h2⟩ := walkLoop_extends ino env.deTail fuel
    { proc :=
        { data := ((p.lseek (rootInodeOffset gd0)).1.read env.inoMem SIZEOF_INODE).1.data,
          pos := dirStart ino + (availAt
            ((p.lseek (rootInodeOffset gd0)).1.read env.inoMem SIZEOF_INODE).1.data
            (dirStart ino) SIZEOF_DIR_ENTRY).length,
          out := ((p.lseek (rootInodeOffset gd0)).1.read env.inoMem SIZEOF_INODE).1.out
            ++ "--Root Directory Entries--\n",
          log := ((p.lseek (rootInodeOffset gd0)).1.read env.inoMem SIZEOF_INODE).1.log
            ++ [IOEvent.seek (dirStart ino)] ++ [IOEvent.read (dirStart ino) SIZEOF_DIR_ENTRY] },
      deBuf := availAt
          ((p.lseek (rootInodeOffset gd0)).1.read env.inoMem SIZEOF_INODE).1.data
          (dirStart ino) SIZEOF_DIR_ENTRY
        ++ env.deMem.drop (availAt
          ((p.lseek (rootInodeOffset gd0)).1.read env.inoMem SIZEOF_INODE).1.data
          (dirStart ino) SIZEOF_DIR_ENTRY).length,
      iNextDir := toInt32 (dirStart ino) }
  refine ⟨[IOEvent.seek (dirStart ino)] ++ [IOEvent.read (dirStart ino) SIZEOF_DIR_ENTRY] ++ lo,
    ou, ?_, ?_⟩
  · rw [h1]
    show (((p.lseek (rootInodeOffset gd0)).1.read env.inoMem SIZEOF_INODE).1.log
      ++ [IOEvent.seek (dirStart ino)] ++ [IOEvent.read (dirStart ino) SIZEOF_DIR_ENTRY]) ++ lo = _
    rw [read_log, lseek_log, lseek_of_nonneg _ _ (rootInodeOffset_nonneg gd0)]
    simp only [List.append_assoc]
  · rw [h2]
    show (((p.lseek (rootInodeOffset gd0)).1.read env.inoMem SIZEOF_INODE).1.out
      ++ "--Root Directory Entries--\n") ++ ou = _
    rw [read_out, lseek_out]

/-! ## The offsets of the seeks -/

theorem rootInodeOffset_eq (gd0 : GroupDesc) :
    rootInodeOffset gd0 = ((gd0.bg_inode_table * 4096 % 4294967296 + 128 : Nat) : Int) := rfl

/-- Part three when `ino2` is allocated: it seeks to `rootInodeOffset`, reads one inode
record there, and whatever it does next is appended to the log. -/
theorem partThree_reads_root (env : Env) (gd0 : GroupDesc) (fuel : Nat) (p : Proc)
    (h2 : env.mallocNull 2 SIZEOF_INODE = false) :
    ∃ lo : List IOEvent, (partThree env gd0 fuel p).proc.log
      = p.log ++ [IOEvent.seek (rootInodeOffset gd0)]
        ++ [IOEvent.read (rootInodeOffset gd0).toNat SIZEOF_INODE] ++ lo := by
  cases h3 : env.mallocNull 3 SIZEOF_DIR_ENTRY with
  | false =>
    obtain ⟨lo, _, h, _⟩ := partThree_extends env gd0 fuel p h2 h3
    exact ⟨lo, h⟩
  | true =>
    refine ⟨[], ?_⟩
    unfold partThree
    rw [h2, h3]
    show ((p.lseek (rootInodeOffset gd0)).1.read env.inoMem SIZEOF_INODE).1.log = _
    rw [read_log, lseek_log, lseek_of_nonneg _ _ (rootInodeOffset_nonneg gd0)]
    simp only [List.append_nil, Int.toNat_natCast]

/-- C9, as amended. For every group descriptor 0, whatever the superblock, the root inode
is read at offset `bg_inode_table × 4096 + (2 − 1) × 128` (the constant `BLOCK_SIZE` and
`sizeof(struct ext2_inode)`, the product taken in 32-bit unsigned arithmetic): part three
seeks there and reads 128 bytes there, unless the allocation of `ino2` fails, in which
case it ends the run with `exit(1)` before any seek or read.  That is the offset
`bg_inode_table × block_size + (2 − 1) × s_inode_size` when `s_log_block_size = 2`,
`s_inode_size = 128` and the product does not wrap. -/
theorem root_inode_read_offset (env : Env) (gd0 : GroupDesc) (fuel : Nat) (p : Proc) :
    (env.mallocNull 2 SIZEOF_INODE = true →
      partThree env gd0 fuel p = { proc := p, outcome := Outcome.exited 1 })
    ∧ (env.mallocNull 2 SIZEOF_INODE = false →
      ∃ lo : List IOEvent, (partThree env gd0 fuel p).proc.log
        = p.log ++ [IOEvent.seek ((gd0.bg_inode_table * 4096 % 4294967296 + 128 : Nat) : Int)]
          ++ [IOEvent.read (gd0.bg_inode_table * 4096 % 4294967296 + 128) 128] ++ lo)
    ∧ (∀ sb : SuperBlock, sb.s_log_block_size = 2 → sb.s_inode_size = 128 →
        gd0.bg_inode_table * 4096 < 4294967296 →
        gd0.bg_inode_table * 4096 % 4294967296 + 128 = claimedRootInodeOffset sb gd0) := by
  refine ⟨fun h2 => ?_, fun h2 => ?_, ?_⟩
  · unfold partThree
    rw [if_pos h2]
  · obtain ⟨lo, h⟩ := partThree_reads_root env gd0 fuel p h2
    rw [rootInodeOffset_eq, Int.toNat_natCast] at h
    exact ⟨lo, h⟩
  · intro sb h1 h2 h3
    unfold claimedRootInodeOffset sbBlockSize
    rw [h1, h2, Nat.mod_eq_of_lt h3]
    rfl

/-- C9, witness: a superblock with 4096-byte blocks and 128-byte inode records, every
allocation succeeding. -/
theorem root_inode_read_offset_witness :
    (envOf []).mallocNull 2 SIZEOF_INODE = false
    ∧ (∃ lo : List IOEvent, (partThree (envOf []) gdFive 0
        { data := [], pos := 0, out := "", log := [] }).proc.log
        = [] ++ [IOEvent.seek ((gdFive.bg_inode_table * 4096 % 4294967296 + 128 : Nat) : Int)]
          ++ [IOEvent.read (gdFive.bg_inode_table * 4096 % 4294967296 + 128) 128] ++ lo)
    ∧ gdFive.bg_inode_table * 4096 % 4294967296 + 128
        = claimedRootInodeOffset { sbTenFour with s_log_block_size := 2 } gdFive :=
  ⟨rfl,
   (root_inode_read_offset (envOf []) gdFive 0
      { data := [], pos := 0, out := "", log := [] }).2.1 rfl,
   (root_inode_read_offset (envOf []) gdFive 0
      { data := [], pos := 0, out := "", log := [] }).2.2
      { sbTenFour with s_log_block_size := 2 } rfl rfl (by decide)⟩

/-- C9, counterexample. The inode table is in block 5.  With 1024-byte blocks
(`s_log_block_size = 0`) and 128-byte inode records the offset of the claim is
`5 × 1024 + 128 = 5248`; with 4096-byte blocks and 256-byte inode records
(`s_inode_size = 256`) it is `5 × 4096 + 256 = 20736`.  For both superblocks the program
seeks to `5 × 4096 + 128 = 20608` and reads the root inode there: neither the block size
nor the inode size of the superblock enters the offset. -/
theorem root_inode_read_ignores_block_size :
    claimedRootInodeOffset sbTenFour gdFive = 5248
    ∧ claimedRootInodeOffset sbLargeInodes gdFive = 20736
    ∧ rootInodeOffset gdFive = 20608
    ∧ ∃ lo : List IOEvent, (partThree (envOf []) gdFive 0
        { data := [], pos := 0, out := "", log := [] }).proc.log
        = [] ++ [IOEvent.seek 20608] ++ [IOEvent.read 20608 128] ++ lo := by
  refine ⟨by decide, by decide, by decide, ?_⟩
  obtain ⟨lo, h⟩ := partThree_reads_root (envOf []) gdFive 0
    { data := [], pos := 0, out := "", log := [] } rfl
  have e1 : rootInodeOffset gdFive = 20608 := by decide
  have e2 : (20608 : Int).toNat = 20608 := by decide
  have e3 : SIZEOF_INODE = 128 := rfl
  rw [e1, e2, e3] at h
  exact ⟨lo, h⟩

theorem seeks_append (a b : List IOEvent) : seeks (a ++ b) = seeks a ++ seeks b := by
  induction a with
  | nil => rfl
  | cons e a ih => cases e <;> simp [seeks, ih]

theorem kLoop_log {first : Int} {f : Nat → ScanState → Nat → ScanState} (hf : BitBody first f)
    (j : Nat) (l : List Nat) : ∀ s : ScanState, (l.foldl (f j) s).proc.log = s.proc.log := by
  induction l with
  | nil => intro s; rfl
  | cons k l ih => intro s; rw [List.foldl_cons, ih, hf.log]

theorem byteLoop_seeks {first : Int} {f : Nat → ScanState → Nat → ScanState}
    (hf : BitBody first f) (s : ScanState) (j : Nat) :
    seeks (byteLoop f s j).proc.log = seeks s.proc.log := by
  unfold byteLoop
  rw [kLoop_log hf]
  show seeks (s.proc.read [s.byte] 1).1.log = _
  rw [read_log, seeks_append]
  simp [seeks]

theorem jLoop_seeks {first : Int} {f : Nat → ScanState → Nat → ScanState}
    (hf : BitBody first f) (l : List Nat) :
    ∀ s : ScanState, seeks (l.foldl (byteLoop f) s).proc.log = seeks s.proc.log := by
  induction l with
  | nil => intro s; rfl
  | cons j l ih => intro s; rw [List.foldl_cons, ih, byteLoop_seeks hf]

theorem close_log (t : ScanState) (h : String) :
    (if t.iBit = 0 ∧ t.iLastRead = 0 ∧ t.iLastLastRead = 0 then
      { t with proc := t.proc.print h } else t).proc.log = t.proc.log := by
  split_ifs <;> rfl

/-- The block scan seeks nowhere. -/
theorem blockScan_seeks (H : Int) (p : Proc) (byte0 : Byte) :
    seeks (blockScan H p byte0).proc.log = seeks p.log := by
  have h := jLoop_seeks blockBit_body (List.range 4095)
    { proc := p, byte := byte0, iBit := 0, tripped := false, iLastRead := -1,
      iLastLastRead := -1 }
  simp only [blockScan, blockByte_eq]
  rw [close_log, h]

/-- The inode scan seeks nowhere. -/
theorem inodeScan_seeks (H : Int) (p : Proc) (byte : Byte) (iBit : Nat) :
    seeks (inodeScan H p byte iBit).proc.log = seeks p.log := by
  have h := jLoop_seeks inodeBit_body (List.range 4095)
    { proc := p, byte := byte, iBit := iBit, tripped := false, iLastRead := -1,
      iLastLastRead := -1 }
  simp only [inodeScan, inodeByte_eq]
  rw [close_log, h]

theorem seeks_singleton (z : Int) : seeks [IOEvent.seek z] = [z] := rfl

theorem printAll_log (ts : List String) : ∀ p : Proc, (printAll ts p).log = p.log := by
  induction ts with
  | nil => intro p; rfl
  | cons t ts ih => intro p; exact (ih (p.print t)).trans (print_log p t)

theorem printAll_data (ts : List String) : ∀ p : Proc, (printAll ts p).data = p.data := by
  induction ts with
  | nil => intro p; rfl
  | cons t ts ih => intro p; exact (ih (p.print t)).trans (print_data p t)

theorem groupPrints_log (gd : GroupDesc) (i : Nat) (L H : Int) (p : Proc) :
    (groupPrints gd i L H p).log = p.log := printAll_log _ p

theorem groupPrints_data (gd : GroupDesc) (i : Nat) (L H : Int) (p : Proc) :
    (groupPrints gd i L H p).data = p.data := printAll_data _ p

theorem groupBody_eq : groupBody = groupBodyWith blockScan inodeScan := rfl

theorem groupBodyWith_seeks (bScan : Int → Proc → Byte → ScanState)
    (iScan : Int → Proc → Byte → Nat → ScanState)
    (hb : ∀ H p b, seeks (bScan H p b).proc.log = seeks p.log)
    (hi : ∀ H p b n, seeks (iScan H p b n).proc.log = seeks p.log)
    (sb : SuperBlock) (gdBuf : List Byte) (byte0 : Nat → Byte) (v : GroupVars) (i : Nat) :
    seeks (groupBodyWith bScan iScan sb gdBuf byte0 v i).proc.log
      = seeks v.proc.log ++ [bitmapOffset (decodeGroupDesc gdBuf i).bg_block_bitmap,
          bitmapOffset (decodeGroupDesc gdBuf i).bg_inode_bitmap] := by
  unfold groupBodyWith
  simp only [print_log, lseek_log, hb, hi, seeks_append, groupPrints_log,
    seeks_singleton, List.append_assoc, List.singleton_append]

/-- One iteration of the group loop seeks twice: to the block bitmap and to the inode
bitmap of the group, each at its block id times `BLOCK_SIZE`. -/
theorem groupBody_seeks (sb : SuperBlock) (gdBuf : List Byte) (byte0 : Nat → Byte)
    (v : GroupVars) (i : Nat) :
    seeks (groupBody sb gdBuf byte0 v i).proc.log
      = seeks v.proc.log ++ [bitmapOffset (decodeGroupDesc gdBuf i).bg_block_bitmap,
          bitmapOffset (decodeGroupDesc gdBuf i).bg_inode_bitmap] := by
  rw [groupBody_eq]
  exact groupBodyWith_seeks blockScan inodeScan blockScan_seeks inodeScan_seeks sb gdBuf
    byte0 v i

theorem groupLoop_seeks (sb : SuperBlock) (gdBuf : List Byte) (byte0 : Nat → Byte)
    (l : List Nat) : ∀ v : GroupVars,
      seeks (l.foldl (groupBody sb gdBuf byte0) v).proc.log
        = seeks v.proc.log ++ groupSeeks gdBuf l := by
  induction l with
  | nil => intro v; simp [groupSeeks]
  | cons i l ih =>
    intro v
    rw [List.foldl_cons, ih, groupBody_seeks]
    simp [groupSeeks]

theorem groupSection_seeks (sb : SuperBlock) (gdBuf : List Byte) (byte0 : Nat → Byte)
    (p : Proc) :
    seeks (groupSection sb gdBuf byte0 p).proc.log
      = seeks p.log ++ groupSeeks gdBuf (List.range (groupCount sb)) := by
  unfold groupSection
  generalize "--Individual Group Information--\n" = t
  simp only
  rw [groupLoop_seeks]
  rfl

/-- The seeks of part two: one to offset `BLOCK_SIZE` for the descriptor table, then,
when the table was read in full, those of the group loop. -/
theorem partTwo_seeks (env : Env) (sb : SuperBlock) (p : Proc) :
    seeks (partTwo env sb p).1.log
      = seeks p.log ++ [((4096 : Nat) : Int)]
        ++ (if (availAt p.data 4096 (SIZEOF_GROUP_DESC * groupCount sb)).length
               = SIZEOF_GROUP_DESC * groupCount sb
            then groupSeeks (partTwo env sb p).2 (List.range (groupCount sb)) else []) := by
  unfold partTwo
  have e : ((1 * BLOCK_SIZE : Nat) : Int) = ((4096 : Nat) : Int) := rfl
  rw [e, lseek_of_nonneg _ _ (Int.natCast_nonneg 4096)]
  simp only [read_eq, Int.toNat_natCast]
  split_ifs with h
  · rw [groupSection_seeks]
    simp [seeks_append, seeks]
  · simp [seeks_append, seeks]

/-- The directory walk starts with a seek to `i_block[0] * BLOCK_SIZE`. -/
theorem dirWalk_first_seek (ino : Inode) (deMem deTail : List Byte) (fuel : Nat) (q : Proc) :
    ∃ lo : List IOEvent, (dirWalk ino deMem deTail fuel q).1.proc.log
      = q.log ++ [IOEvent.seek ((ino.i_block0 * 4096 % 4294967296 : Nat) : Int)] ++ lo := by
  rw [dirWalk_eq]
  obtain ⟨lo, _, h, _⟩ := walkLoop_extends ino deTail fuel
    { proc :=
        { data := q.data,
          pos := dirStart ino + (availAt q.data (dirStart ino) SIZEOF_DIR_ENTRY).length,
          out := q.out ++ "--Root Directory Entries--\n",
          log := q.log ++ [IOEvent.seek (dirStart ino)]
            ++ [IOEvent.read (dirStart ino) SIZEOF_DIR_ENTRY] },
      deBuf := availAt q.data (dirStart ino) SIZEOF_DIR_ENTRY
        ++ deMem.drop (availAt q.data (dirStart ino) SIZEOF_DIR_ENTRY).length,
      iNextDir := toInt32 (dirStart ino) }
  refine ⟨[IOEvent.read (dirStart ino) SIZEOF_DIR_ENTRY] ++ lo, ?_⟩
  rw [h]
  show (q.log ++ [IOEvent.seek (dirStart ino)] ++ [IOEvent.read (dirStart ino) SIZEOF_DIR_ENTRY])
    ++ lo = q.log ++ [IOEvent.seek (dirStart ino)]
    ++ ([IOEvent.read (dirStart ino) SIZEOF_DIR_ENTRY] ++ lo)
  simp only [List.append_assoc]

/-- C10, as amended. Whatever `s_log_block_size` is, every block-addressed offset the
program seeks to is the block id times the constant `BLOCK_SIZE = 4096` (the product
taken in 32-bit unsigned arithmetic): the descriptor table is read at `1 × 4096`, the
bitmaps of each group at `bg_block_bitmap × 4096` and `bg_inode_bitmap × 4096`, and the
root directory at `i_block[0] × 4096`.  These are the offsets computed with the block size
of the superblock exactly when that block size is 4096 (`s_log_block_size = 2`). -/
theorem block_offsets_use_fixed_block_size (env : Env) (sb : SuperBlock) (p : Proc)
    (ino : Inode) (deMem deTail : List Byte) (fuel : Nat) (q : Proc) :
    seeks (partTwo env sb p).1.log
      = seeks p.log ++ [((4096 : Nat) : Int)]
        ++ (if (availAt p.data 4096 (SIZEOF_GROUP_DESC * groupCount sb)).length
               = SIZEOF_GROUP_DESC * groupCount sb
            then groupSeeks (partTwo env sb p).2 (List.range (groupCount sb)) else [])
    ∧ (∀ (gdBuf : List Byte) (i : Nat) (l : List Nat), groupSeeks gdBuf (i :: l)
        = (((decodeGroupDesc gdBuf i).bg_block_bitmap * 4096 % 4294967296 : Nat) : Int)
          :: (((decodeGroupDesc gdBuf i).bg_inode_bitmap * 4096 % 4294967296 : Nat) : Int)
          :: groupSeeks gdBuf l)
    ∧ (∃ lo : List IOEvent, (dirWalk ino deMem deTail fuel q).1.proc.log
        = q.log ++ [IOEvent.seek ((ino.i_block0 * 4096 % 4294967296 : Nat) : Int)] ++ lo)
    ∧ (sbBlockSize sb = 4096 ↔ sb.s_log_block_size = 2) := by
  refine ⟨partTwo_seeks env sb p, fun _ _ _ => rfl, dirWalk_first_seek ino deMem deTail fuel q,
    ?_⟩
  unfold sbBlockSize
  rw [Nat.shiftLeft_eq]
  constructor
  · intro h
    have h1 : (2 : Nat) ^ sb.s_log_block_size = 2 ^ 2 := by omega
    exact Nat.pow_right_injective (le_refl 2) h1
  · intro h
    rw [h]

/-- C10, counterexample. With 1024-byte blocks (`s_log_block_size = 0`) the descriptor
table is at `1 × block_size = 1024` according to the claim; the program seeks to 4096. -/
theorem group_table_seek_ignores_block_size :
    seeks (partTwo (envOf []) sbTenFour { data := [], pos := 0, out := "", log := [] }).1.log
      = [4096]
    ∧ 1 * sbBlockSize sbTenFour = 1024 := by
  refine ⟨?_, by decide⟩
  have h := partTwo_seeks (envOf []) sbTenFour { data := [], pos := 0, out := "", log := [] }
  rw [if_neg (by decide)] at h
  exact h

/-! ## A run on an image that ends before the end of the superblock -/

theorem main_eq_afterOpen (env : Env) (data : List Byte) (fuel : Nat) (hargc : env.argc = 2)
    (himg : env.image = some data) (h0 : env.mallocNull 0 SIZEOF_SUPER_BLOCK = false) :
    main env fuel = afterOpen env data fuel := by
  unfold main
  simp only
  rw [if_neg (by omega), himg]
  simp only [h0]
  rfl

/-- The run after `open` when the superblock read is short: no general information is
printed; a zero `s_inodes_per_group` in the buffer stops the run with a division by zero,
otherwise the descriptor array is allocated and parts two and three are executed on the
partly read superblock. -/
theorem afterOpen_short (env : Env) (data : List Byte) (fuel : Nat)
    (hlen : data.length < 2048) :
    afterOpen env data fuel =
      if (decodeSuperBlock (sbBuf env data)).s_inodes_per_group = 0 then
        { proc := procAfterSb data, outcome := Outcome.fpe }
      else
        afterSuperBlock env (decodeSuperBlock (sbBuf env data)) fuel (procAfterSb data) := by
  have hne : (availAt data 1024 1024).length ≠ 1024 := by
    rw [availAt_length]; omega
  unfold afterOpen
  have e : ((BOOT_OFFSET : Nat) : Int) = ((1024 : Nat) : Int) := rfl
  rw [e, lseek_of_nonneg _ _ (Int.natCast_nonneg 1024)]
  simp only [read_eq, Int.toNat_natCast]
  have e2 : SIZEOF_SUPER_BLOCK = 1024 := rfl
  rw [e2, if_neg hne]
  rfl

theorem afterSuperBlock_ok (env : Env) (sb : SuperBlock) (fuel : Nat) (p : Proc)
    (h1 : env.mallocNull 1 (SIZEOF_GROUP_DESC * groupCount sb) = false) :
    afterSuperBlock env sb fuel p
      = partThree env (decodeGroupDesc (partTwo env sb p).2 0) fuel (partTwo env sb p).1 := by
  unfold afterSuperBlock
  rw [h1]
  rfl

theorem availAt_past_end (data : List Byte) (pos count : Nat) (h : data.length ≤ pos) :
    availAt data pos count = [] := by
  unfold availAt
  rw [List.drop_eq_nil_of_le h, List.take_nil]

theorem groupSection_no_group (sb : SuperBlock) (gdBuf : List Byte) (byte0 : Nat → Byte)
    (p : Proc) (h : groupCount sb = 0) :
    (groupSection sb gdBuf byte0 p).proc = p.print "--Individual Group Information--\n" := by
  unfold groupSection
  rw [h]
  rfl

/-- Part two on a file that ends at or before offset 4096: the read of the descriptor
table transfers nothing, the buffer keeps what it held, and only the heading of the group
section can be printed, when the group count is zero. -/
theorem partTwo_short (env : Env) (sb : SuperBlock) (p : Proc) (h : p.data.length ≤ 4096) :
    (partTwo env sb p).1.out
        = p.out ++ (if groupCount sb = 0 then "--Individual Group Information--\n" else "")
      ∧ (partTwo env sb p).1.log
        = p.log ++ [IOEvent.seek 4096, IOEvent.read 4096 (SIZEOF_GROUP_DESC * groupCount sb)]
      ∧ (partTwo env sb p).2 = env.gdMem := by
  have ha : availAt p.data 4096 (SIZEOF_GROUP_DESC * groupCount sb) = [] :=
    availAt_past_end _ _ _ h
  unfold partTwo
  have e : ((1 * BLOCK_SIZE : Nat) : Int) = ((4096 : Nat) : Int) := rfl
  rw [e, lseek_of_nonneg _ _ (Int.natCast_nonneg 4096)]
  simp only [read_eq, Int.toNat_natCast, ha, List.length_nil, List.drop_zero, List.nil_append]
  by_cases hc : groupCount sb = 0
  · have hz : (0 : Nat) = SIZEOF_GROUP_DESC * groupCount sb := by rw [hc, Nat.mul_zero]
    rw [if_pos hz, if_pos hc, groupSection_no_group _ _ _ _ hc]
    refine ⟨rfl, ?_, rfl⟩
    rw [print_log]
    simp
  · have hz : ¬ (0 : Nat) = SIZEOF_GROUP_DESC * groupCount sb := by
      unfold SIZEOF_GROUP_DESC; omega
    rw [if_neg hz, if_neg hc]
    refine ⟨by simp, by simp, rfl⟩

/-- What a run does on an image that ends before the end of the superblock record, when
every allocation succeeds.  The superblock read is short and no general information is
printed.  When `s_inodes_per_group`, as found in the partly read buffer, is zero the run
ends in a division by zero; otherwise the later steps are executed on that buffer: the
descriptor table is sought and read at offset 4096, the root inode is sought and read, and
the heading of the root directory section is printed (after the heading of the group
section when the group count is zero). -/
theorem short_superblock_run (env : Env) (data : List Byte) (fuel : Nat)
    (hargc : env.argc = 2) (himg : env.image = some data)
    (hlen : data.length < BOOT_OFFSET + SIZEOF_SUPER_BLOCK)
    (h0 : env.mallocNull 0 SIZEOF_SUPER_BLOCK = false)
    (h1 : env.mallocNull 1
      (SIZEOF_GROUP_DESC * groupCount (decodeSuperBlock (sbBuf env data))) = false)
    (h2 : env.mallocNull 2 SIZEOF_INODE = false)
    (h3 : env.mallocNull 3 SIZEOF_DIR_ENTRY = false) :
    ((decodeSuperBlock (sbBuf env data)).s_inodes_per_group = 0 →
        (main env fuel).outcome = Outcome.fpe ∧ (main env fuel).proc.out = "")
    ∧ ((decodeSuperBlock (sbBuf env data)).s_inodes_per_group ≠ 0 →
        ∃ (lo : List IOEvent) (ou : String),
          (main env fuel).proc.out
            = "" ++ (if groupCount (decodeSuperBlock (sbBuf env data)) = 0
                      then "--Individual Group Information--\n" else "")
              ++ "--Root Directory Entries--\n" ++ ou
          ∧ (main env fuel).proc.log
            = [IOEvent.seek 1024, IOEvent.read 1024 1024]
              ++ [IOEvent.seek 4096,
                  IOEvent.read 4096
                    (SIZEOF_GROUP_DESC * groupCount (decodeSuperBlock (sbBuf env data)))]
              ++ [IOEvent.seek (rootInodeOffset (decodeGroupDesc env.gdMem 0))]
              ++ [IOEvent.read (rootInodeOffset (decodeGroupDesc env.gdMem 0)).toNat
                    SIZEOF_INODE] ++ lo) := by
  have h2048 : data.length < 2048 := hlen
  rw [main_eq_afterOpen env data fuel hargc himg h0, afterOpen_short env data fuel h2048]
  constructor
  · intro hz
    rw [if_pos hz]
    exact ⟨rfl, rfl⟩
  · intro hz
    rw [if_neg hz, afterSuperBlock_ok _ _ _ _ h1]
    obtain ⟨k1, k2, k3⟩ := partTwo_short env (decodeSuperBlock (sbBuf env data))
      (procAfterSb data) (by show data.length ≤ 4096; omega)
    obtain ⟨lo, ou, e1, e2⟩ := partThree_extends env
      (decodeGroupDesc
        (partTwo env (decodeSuperBlock (sbBuf env data)) (procAfterSb data)).2 0) fuel
      (partTwo env (decodeSuperBlock (sbBuf env data)) (procAfterSb data)).1 h2 h3
    have o1 : (procAfterSb data).out = "" := rfl
    have o2 : (procAfterSb data).log = [IOEvent.seek 1024, IOEvent.read 1024 1024] := rfl
    rw [k1, k3, o1] at e2
    rw [k2, k3, o2] at e1
    rw [k3]
    exact ⟨lo, ou, e2, e1⟩

set_option maxRecDepth 200000 in
/-- C8, at the failing input. The image has 1065 bytes and ends inside the superblock
record (`s_inodes_per_group = 1`, every other byte zero); every allocation succeeds and
the memory not read from the file is zero.  The superblock read is short, yet the run
does not stop: it goes on to the later steps on the partly read buffer, prints the heading
of the group section and the heading of the root directory section, and exits with
status 0, where the claim has a failure with a nonzero status and no section printed. -/
theorem truncated_image_run_succeeds :
    truncatedImage.length < BOOT_OFFSET + SIZEOF_SUPER_BLOCK
    ∧ (main (envOf truncatedImage) 0).outcome = Outcome.exited 0
    ∧ (main (envOf truncatedImage) 0).proc.out
      = "--Individual Group Information--\n--Root Directory Entries--\n" := by
  decide

/-! ## The disk size -/

set_option maxRecDepth 100000 in
/-- C11, at the failing input. For a file system of 524288 blocks of 4096 bytes the disk
size is `524288 × 4096 = 2147483648` bytes; the program forms the product in 32-bit
arithmetic and prints it with `%d`: the line reads `Disk Size in Bytes : -2147483648`.
The block size printed, 4096, is `1024 << s_log_block_size`. -/
theorem disk_size_of_two_gib_prints_negative :
    sbTwoGiB.s_blocks_count * sbBlockSize sbTwoGiB = 2147483648
    ∧ (generalInfo sbTwoGiB { data := [], pos := 0, out := "", log := [] }).1.out
        = "--General File System Information--\nBlock Size in Bytes : 4096\n"
          ++ "Total Number of Blocks : 524288\nDisk Size in Bytes : -2147483648\n"
          ++ "Maximum Number of Blocks Per Group : 32768\nInode Size in Bytes : 128\n"
          ++ "Number of Inodes Per Group : 8192\nNumber of Inode Blocks Per Group : 256\n"
          ++ "Number of Groups : 16\n\n" := by
  refine ⟨by decide, by decide⟩

/-! ## The two scans print the same text, numbers apart -/

theorem renderAll_append (l1 l2 : List Tok) :
    renderAll (l1 ++ l2) = renderAll l1 ++ renderAll l2 := by
  induction l1 with
  | nil => simp [renderAll]
  | cons t ts ih => simp [renderAll, ih, String.append_assoc]

theorem autoStep_out (first : Int) (a : Auto) (i bit : Nat) :
    (autoStep first a i bit).out = a.out ++ renderAll (stepToks first a i bit) := by
  simp only [autoStep, stepToks]
  split_ifs <;> simp [renderAll, Tok.render, String.append_assoc]

theorem autoRun_out (first : Int) (bit : Nat → Nat) (n : Nat) :
    ∀ (i : Nat) (a : Auto),
      (autoRun first bit i n a).out = a.out ++ renderAll (runToks first bit i n a) := by
  induction n with
  | zero => intro i a; simp [autoRun, runToks, renderAll]
  | succ n ih =>
    intro i a
    simp only [autoRun, runToks]
    rw [ih, autoStep_out, renderAll_append, String.append_assoc]

theorem closeOut_toks (h : Int) (a : Auto) :
    closeOut (printfD h) a = a.out ++ renderAll (closeToks h a) := by
  simp only [closeOut, closeToks]
  split_ifs <;> simp [renderAll, Tok.render]

theorem autoStep_same (f g : Int) (a b : Auto) (i bit : Nat) (h : a.same b) :
    (autoStep f a i bit).same (autoStep g b i bit)
      ∧ (autoStep f a i bit).iBit = (autoStep g b i bit).iBit := by
  obtain ⟨h1, h2, h3⟩ := h
  simp only [autoStep, Auto.same, h1, h2, h3]
  split_ifs <;> simp [h1, h2]

theorem stepToks_same (f : Int) (a b : Auto) (i bit : Nat) (h : a.same b) :
    stepToks f a i bit = stepToks f b i bit := by
  obtain ⟨h1, h2, h3⟩ := h
  simp only [stepToks, h1, h2, h3]

theorem stepToks_bump (a : Auto) (i bit : Nat) :
    stepToks 1 a i bit = (stepToks 0 a i bit).map Tok.bump := by
  simp only [stepToks]
  split_ifs <;> simp [Tok.bump]

theorem autoRun_same (f g : Int) (bit : Nat → Nat) (n : Nat) :
    ∀ (i : Nat) (a b : Auto), a.same b →
      (autoRun f bit i n a).same (autoRun g bit i n b)
        ∧ (0 < n → (autoRun f bit i n a).iBit = (autoRun g bit i n b).iBit) := by
  induction n with
  | zero => intro i a b h; exact ⟨h, fun h0 => absurd h0 (Nat.lt_irrefl 0)⟩
  | succ n ih =>
    intro i a b h
    simp only [autoRun]
    obtain ⟨s1, s2⟩ := autoStep_same f g a b i (bit i) h
    obtain ⟨r1, r2⟩ := ih (i + 1) _ _ s1
    refine ⟨r1, fun _ => ?_⟩
    rcases Nat.eq_zero_or_pos n with hn | hn
    · subst hn; simpa [autoRun] using s2
    · exact r2 hn

theorem runToks_same (f : Int) (bit : Nat → Nat) (n : Nat) :
    ∀ (i : Nat) (a b : Auto), a.same b → runToks f bit i n a = runToks f bit i n b := by
  induction n with
  | zero => intro i a b _; rfl
  | succ n ih =>
    intro i a b h
    simp only [runToks]
    rw [stepToks_same f a b i (bit i) h,
      ih (i + 1) _ _ (autoStep_same f f a b i (bit i) h).1]

theorem runToks_bump (bit : Nat → Nat) (n : Nat) :
    ∀ (i : Nat) (a b : Auto), a.same b →
      runToks 1 bit i n b = (runToks 0 bit i n a).map Tok.bump := by
  induction n with
  | zero => intro i a b _; rfl
  | succ n ih =>
    intro i a b h
    simp only [runToks, List.map_append]
    rw [← stepToks_same 1 a b i (bit i) h, stepToks_bump,
      ih (i + 1) _ _ (autoStep_same 0 1 a b i (bit i) h).1]

theorem closeToks_same (h : Int) (a b : Auto) (hs : a.same b) (hi : a.iBit = b.iBit) :
    closeToks h a = closeToks h b := by
  obtain ⟨_, h2, h3⟩ := hs
  simp only [closeToks, hi, h2, h3]

theorem closeToks_bump (h : Int) (a : Auto) :
    closeToks (h + 1) a = (closeToks h a).map Tok.bump := by
  simp only [closeToks]
  split_ifs <;> simp [Tok.bump]

/-- The tokens of the scan numbered from 1 are those of the scan numbered from 0 with
every number increased by 1. -/
theorem scanToks_bump (bit : Nat → Nat) (h : Int) :
    scanToks 1 bit (h + 1) = (scanToks 0 bit h).map Tok.bump := by
  have hs : (autoInit "" 0).same (autoInit "" 0) := ⟨rfl, rfl, rfl⟩
  obtain ⟨r1, r2⟩ := autoRun_same 0 1 bit 32760 0 _ _ hs
  simp only [scanToks, List.map_append]
  rw [runToks_bump bit 32760 0 _ _ hs, closeToks_bump,
    closeToks_same h _ _ r1 (r2 (by norm_num))]

/-- The text of a whole scan, whatever stood on standard output and in `iBit` before. -/
theorem scan_text (first : Int) (bit : Nat → Nat) (h : Int) (out : String) (iBit : Nat) :
    closeOut (printfD h) (autoRun first bit 0 32760
        { out := out, iBit := iBit, tripped := false, last := -1, lastlast := -1 })
      = out ++ renderAll (scanToks first bit h) := by
  have hs : (autoInit out iBit).same (autoInit "" 0) := ⟨rfl, rfl, rfl⟩
  obtain ⟨r1, r2⟩ := autoRun_same first first bit 32760 0 _ _ hs
  show closeOut (printfD h) (autoRun first bit 0 32760 (autoInit out iBit)) = _
  rw [closeOut_toks, autoRun_out, closeToks_same h _ _ r1 (r2 (by norm_num)),
    runToks_same first bit 32760 0 _ _ hs]
  simp only [scanToks, renderAll_append, String.append_assoc]
  rfl

/-- C14. On a file that holds the 4095 bytes of a scan from the current position on, and
for an upper bound `H` whose successor is an `int`: the block bitmap scan prints the
tokens of the one extractor `scanToks` with `first = 0` and closing number `H`, the inode
bitmap scan prints the tokens of the same extractor with `first = 1` and closing number
`H + 1`, whatever the variables `byte` and `iBit` held before, and the second token
sequence is the first with every number increased by 1, the dashes and commas
unchanged. -/
theorem inode_scan_is_block_scan_plus_one (H : Int) (p : Proc) (byte0 byte : Byte)
    (iBit : Nat) (hlo : -2147483648 ≤ H) (hhi : H < 2147483647)
    (hlen : p.pos + 4095 ≤ p.data.length) :
    (blockScan H p byte0).proc.out
        = p.out ++ renderAll (scanToks 0 (fileBit p.data p.pos) H)
    ∧ (inodeScan H p byte iBit).proc.out
        = p.out ++ renderAll ((scanToks 0 (fileBit p.data p.pos) H).map Tok.bump) := by
  have e : toInt32 (H + 1) = H + 1 := toInt32_of_range _ (by omega) (by omega)
  rw [blockScan_out H p byte0 hlen, inodeScan_out H p byte iBit hlen, e, scan_text, scan_text,
    scanToks_bump]
  exact ⟨rfl, rfl⟩

theorem scan_start_bit (D : List Byte) (x v : Nat) (h : fileBit D 0 x = v) :
    fileBit ({ data := D, pos := 0, out := "", log := [] } : Proc).data
      ({ data := D, pos := 0, out := "", log := [] } : Proc).pos x = v := h

theorem scan_start_len (D : List Byte) (n : Nat) (h : n ≤ D.length) :
    ({ data := D, pos := 0, out := "", log := [] } : Proc).pos + n
      ≤ ({ data := D, pos := 0, out := "", log := [] } : Proc).data.length := by
  simpa using h

/-- C14, witness: the bitmap block with the free runs 3-5 and 9, upper bound 32767. -/
theorem inode_scan_is_block_scan_plus_one_witness :
    (-2147483648 : Int) ≤ 32767 ∧ (32767 : Int) < 2147483647
    ∧ (blockScan 32767
          { data := mkBitmap BLOCK_SIZE [(3, 5), (9, 9)], pos := 0, out := "", log := [] }
          0).proc.out
        = ({ data := mkBitmap BLOCK_SIZE [(3, 5), (9, 9)], pos := 0, out := "", log := [] }
            : Proc).out
          ++ renderAll (scanToks 0
              (fileBit
                ({ data := mkBitmap BLOCK_SIZE [(3, 5), (9, 9)], pos := 0, out := "", log := [] }
                  : Proc).data
                ({ data := mkBitmap BLOCK_SIZE [(3, 5), (9, 9)], pos := 0, out := "", log := [] }
                  : Proc).pos)
              32767) :=
  ⟨by decide, by decide,
    (inode_scan_is_block_scan_plus_one 32767
      { data := mkBitmap BLOCK_SIZE [(3, 5), (9, 9)], pos := 0, out := "", log := [] } 0 0 0
      (by decide) (by decide)
      (scan_start_len _ 4095 (by rw [mkBitmap_length]; unfold BLOCK_SIZE; omega))).1⟩

/-! ## The upper bound of the group in the block scan -/

theorem autoStep_last (f : Int) (a : Auto) (i bit : Nat) :
    (autoStep f a i bit).last = bit ∧ (autoStep f a i bit).iBit = bit
      ∧ (autoStep f a i bit).lastlast = a.last := by
  simp only [autoStep]
  split_ifs <;> simp

/-- After two or more steps the look-back variables hold the last two bits scanned. -/
theorem autoRun_tail (f : Int) (bit : Nat → Nat) (m i : Nat) (a : Auto) :
    (autoRun f bit i (m + 2) a).last = bit (i + m + 1)
      ∧ (autoRun f bit i (m + 2) a).iBit = bit (i + m + 1)
      ∧ (autoRun f bit i (m + 2) a).lastlast = bit (i + m) := by
  rw [autoRun_add]
  simp only [autoRun]
  obtain ⟨h1, h2, h3⟩ := autoStep_last f
    (autoStep f (autoRun f bit i m a) (i + m) (bit (i + m))) (i + m + 1) (bit (i + m + 1))
  obtain ⟨k1, _, _⟩ := autoStep_last f (autoRun f bit i m a) (i + m) (bit (i + m))
  rw [k1] at h3
  exact ⟨h1, h2, h3⟩

/-- The numbers printed while scanning are positions of 0 bits among the bits scanned. -/
theorem runToks_nums (bit : Nat → Nat) (n : Nat) :
    ∀ (i : Nat) (a : Auto), (a.last = 0 → 0 < i ∧ bit (i - 1) = 0) →
      ∀ t : Int, Tok.num t ∈ runToks 0 bit i n a →
        ∃ x : Nat, t = (x : Int) ∧ x < i + n ∧ bit x = 0 := by
  induction n with
  | zero => intro i a _ t ht; simp [runToks] at ht
  | succ n ih =>
    intro i a inv t ht
    simp only [runToks, List.mem_append] at ht
    rcases ht with ht | ht
    · simp only [stepToks] at ht
      split_ifs at ht with c1 c2 c3 c4 c5
      · simp only [List.mem_singleton, Tok.num.injEq] at ht
        exact ⟨i, by rw [ht]; simp, by omega, c1.1⟩
      · simp at ht
      · simp only [List.mem_cons, Tok.num.injEq, List.mem_singleton, false_or,
          List.not_mem_nil, or_false, reduceCtorEq] at ht
        obtain ⟨hi, hb⟩ := inv c3.2.1
        refine ⟨i - 1, ?_, by omega, hb⟩
        rw [ht]
        omega
      · simp only [List.mem_append, List.mem_singleton, reduceCtorEq, Tok.num.injEq,
          false_or] at ht
        exact ⟨i, by rw [ht]; simp, by omega, c4.1⟩
      · simp only [List.mem_append, List.mem_singleton, List.not_mem_nil, Tok.num.injEq,
          false_or] at ht
        exact ⟨i, by rw [ht]; simp, by omega, c4.1⟩
      · simp at ht
    · obtain ⟨x, h1, h2, h3⟩ := ih (i + 1) (autoStep 0 a i (bit i)) (by
        intro hl
        rw [(autoStep_last 0 a i (bit i)).1] at hl
        have : bit i = 0 := by exact_mod_cast hl
        exact ⟨by omega, by simpa using this⟩) t ht
      exact ⟨x, h1, by omega, h3⟩

/-- The tokens of the closing test, by the last two bits scanned. -/
theorem closeToks_tail (f : Int) (bit : Nat → Nat) (h : Int) (a : Auto) :
    renderAll (closeToks h (autoRun f bit 0 32760 a))
      = if bit 32758 = 0 ∧ bit 32759 = 0 then "-" ++ printfD h else "" := by
  obtain ⟨h1, h2, h3⟩ := autoRun_tail f bit 32758 0 a
  have e1 : 32758 + 2 = 32760 := by norm_num
  have e2 : 0 + 32758 + 1 = 32759 := by norm_num
  have e3 : 0 + 32758 = 32758 := by norm_num
  rw [e1, e2] at h1 h2
  rw [e1, e3] at h3
  simp only [closeToks, h1, h2, h3]
  by_cases c : bit 32758 = 0 ∧ bit 32759 = 0
  · rw [if_pos c, if_pos ⟨c.2, by rw [c.2]; rfl, by rw [c.1]; rfl⟩]
    simp [renderAll, Tok.render]
  · rw [if_neg c, if_neg (fun hc => c ⟨by exact_mod_cast hc.2.2, hc.1⟩)]
    rfl

/-- The text of the block scan: the tokens printed while scanning, then the closing
bound when the last two scanned bits are both 0. -/
theorem blockScan_text (H : Int) (p : Proc) (byte0 : Byte)
    (hlen : p.pos + 4095 ≤ p.data.length) :
    (blockScan H p byte0).proc.out
      = p.out ++ renderAll (runToks 0 (fileBit p.data p.pos) 0 32760 (autoInit "" 0))
        ++ (if fileBit p.data p.pos 32758 = 0 ∧ fileBit p.data p.pos 32759 = 0
            then "-" ++ printfD H else "") := by
  rw [blockScan_out H p byte0 hlen, scan_text]
  simp only [scanToks, renderAll_append]
  rw [closeToks_tail, String.append_assoc]

/-- The text printed while scanning a bitmap whose bits are 1 up to position 32749 and 0
from position 32750 on. -/
theorem runToks_tail_run (bit : Nat → Nat) (h1 : ∀ x, x < 32750 → bit x = 1)
    (h0 : ∀ x, 32750 ≤ x → x < 32760 → bit x = 0) :
    renderAll (runToks 0 bit 0 32760 (autoInit "" 0)) = "32750" := by
  have ho := autoRun_out 0 bit 32760 0 (autoInit "" 0)
  have e0 : (autoInit "" 0).out = "" := rfl
  rw [e0, String.empty_append] at ho
  rw [← ho]
  have e : 32760 = 32750 + (2 + 8) := by norm_num
  rw [e, autoRun_add, autoRun_add]
  obtain ⟨o1, t1, _, l1⟩ := autoRun_ones 0 bit 32750 0 (autoInit "" 0) (by decide)
    (fun x _ hx => h1 x (by omega))
  have l1 := l1 (by norm_num)
  have b0 : bit (0 + 32750) = 0 := h0 _ (by omega) (by omega)
  have b1 : bit (0 + 32750 + 1) = 0 := h0 _ (by omega) (by omega)
  have e1 : (autoInit "" 0).out = "" := rfl
  have e2 : (autoInit "" 0).tripped = false := rfl
  rw [e1] at o1
  rw [e2] at t1
  generalize autoRun 0 bit 0 32750 (autoInit "" 0) = s at o1 t1 l1 ⊢
  have two : autoRun 0 bit (0 + 32750) 2 s
      = { out := printfD (((0 + 32750 : Nat) : Int) + 0), iBit := 0, tripped := true,
          last := 0, lastlast := 0 } := by
    cases s with
    | mk o ib t l ll =>
      simp only at o1 t1 l1
      subst o1 t1 l1
      simp [autoRun, autoStep, b0, b1]
  rw [two, autoRun_zeros 0 bit 8 (0 + 32750 + 2) _ rfl rfl rfl
    (fun x hx1 hx2 => h0 x (by omega) (by omega))]
  decide

/-- The block scan of a bitmap whose only 0 bit is the last scanned bit, 32759. -/
theorem closeOut_last_bit (h : String) (bit : Nat → Nat) (h1 : ∀ x, x < 32759 → bit x = 1)
    (h0 : bit 32759 = 0) :
    closeOut h (autoRun 0 bit 0 32760
      { out := "", iBit := 0, tripped := false, last := -1, lastlast := -1 }) = "32759" := by
  have e : 32760 = 32759 + 1 := by norm_num
  rw [e, autoRun_add]
  obtain ⟨o1, t1, _, l1⟩ := autoRun_ones 0 bit 32759 0
    { out := "", iBit := 0, tripped := false, last := -1, lastlast := -1 } (by decide)
    (fun x _ hx => h1 x (by omega))
  have l1 := l1 (by norm_num)
  have b0 : bit (0 + 32759) = 0 := by rw [Nat.zero_add]; exact h0
  simp only at o1 t1
  generalize autoRun 0 bit 0 32759
    { out := "", iBit := 0, tripped := false, last := -1, lastlast := -1 } = s at o1 t1 l1 ⊢
  have one : autoRun 0 bit (0 + 32759) 1 s
      = { out := printfD (((0 + 32759 : Nat) : Int) + 0), iBit := 0, tripped := true,
          last := 0, lastlast := 1 } := by
    cases s with
    | mk o ib t l ll =>
      simp only at o1 t1 l1
      subst o1 t1 l1
      simp [autoRun, autoStep, b0]
  rw [one]
  unfold closeOut
  rw [if_neg (fun hc => absurd hc.2.2 (by decide))]
  decide

/-- C12, as amended. On a file that holds the 4095 bytes of a scan from the current
position on, and for every upper bound `H`: when the last two scanned bits (32758 and
32759) are both 0, that is when a run of two or more 0 bits is still open at the end, the
block bitmap scan prints the tokens printed while scanning, which do not depend on `H`,
and closes the run with `-H`; when the last scanned bit is 1 it prints those tokens and
nothing more; and every number printed while scanning is the position of a 0 bit among
the 32760 bits scanned, whether or not it exceeds `H`. -/
theorem upper_bound_only_closes_open_run (H : Int) (p : Proc) (byte0 : Byte)
    (hlen : p.pos + 4095 ≤ p.data.length) :
    (fileBit p.data p.pos 32758 = 0 ∧ fileBit p.data p.pos 32759 = 0 →
      (blockScan H p byte0).proc.out
        = p.out ++ renderAll (runToks 0 (fileBit p.data p.pos) 0 32760 (autoInit "" 0))
          ++ ("-" ++ printfD H))
    ∧ (fileBit p.data p.pos 32759 = 1 →
      (blockScan H p byte0).proc.out
        = p.out ++ renderAll (runToks 0 (fileBit p.data p.pos) 0 32760 (autoInit "" 0)))
    ∧ ∀ t : Int, Tok.num t ∈ runToks 0 (fileBit p.data p.pos) 0 32760 (autoInit "" 0) →
        ∃ x : Nat, t = (x : Int) ∧ x < 32760 ∧ fileBit p.data p.pos x = 0 := by
  refine ⟨fun hc => ?_, fun hc => ?_, ?_⟩
  · rw [blockScan_text H p byte0 hlen, if_pos hc]
  · rw [blockScan_text H p byte0 hlen, if_neg (fun h => by rw [hc] at h; exact absurd h.2 (by decide)),
      String.append_empty]
  · intro t ht
    obtain ⟨x, h1, h2, h3⟩ := runToks_nums (fileBit p.data p.pos) 32760 0 (autoInit "" 0)
      (fun hl => absurd hl (by decide)) t ht
    exact ⟨x, h1, by omega, h3⟩

theorem bitOf_tail_run (x : Nat) :
    bitOf [(32750, 32767)] x = if 32750 ≤ x ∧ x ≤ 32767 then 0 else 1 := by
  by_cases h : 32750 ≤ x ∧ x ≤ 32767
  · rw [if_pos h]
    exact bitOf_head _ _ x h.1 h.2
  · rw [if_neg h, bitOf_tail _ _ x (by simp only; omega)]
    exact bitOf_nil x

/-- C12, witness: the bits 32750 to 32767 of the bitmap block are 0, all others 1, and
the upper bound is 50.  The scan prints the start 32750 of the run, which is above the
bound, and closes it with the bound: `32750-50`. -/
theorem upper_bound_only_closes_open_run_witness :
    (blockScan 50
        { data := mkBitmap BLOCK_SIZE [(32750, 32767)], pos := 0, out := "", log := [] }
        0).proc.out = "32750-50" := by
  have hb : ∀ x, x < 32760 →
      fileBit ({ data := mkBitmap BLOCK_SIZE [(32750, 32767)], pos := 0, out := "", log := [] }
          : Proc).data
        ({ data := mkBitmap BLOCK_SIZE [(32750, 32767)], pos := 0, out := "", log := [] }
          : Proc).pos x
        = if 32750 ≤ x ∧ x ≤ 32767 then 0 else 1 := by
    intro x hx
    exact scan_start_bit _ x _ (by
      rw [fileBit_mkBitmap BLOCK_SIZE _ x (by unfold BLOCK_SIZE; omega)]
      exact bitOf_tail_run x)
  have h := (upper_bound_only_closes_open_run 50
    { data := mkBitmap BLOCK_SIZE [(32750, 32767)], pos := 0, out := "", log := [] } 0
    (scan_start_len _ 4095 (by rw [mkBitmap_length]; unfold BLOCK_SIZE; omega))).1
    ⟨by rw [hb 32758 (by norm_num)]; decide, by rw [hb 32759 (by norm_num)]; decide⟩
  rw [runToks_tail_run _
    (fun x hx => by rw [hb x (by omega), if_neg (by omega)])
    (fun x hx1 hx2 => by rw [hb x hx2, if_pos (by omega)])] at h
  rw [h]
  decide

/-- C12, counterexample. With upper bound `H = 50` and a bitmap block whose only 0 bit is
at position 100, the block scan prints `100`, an id above `H`.  With upper bound 32767 and
a bitmap block whose only 0 bit is the last scanned bit, 32759, the run of one bit that is
open when the scan ends is printed as `32759` and is not closed with the bound. -/
theorem free_bit_beyond_upper_bound_is_reported :
    (blockScan 50 { data := mkBitmap BLOCK_SIZE [(100, 100)], pos := 0, out := "", log := [] }
        0).proc.out = "100" ∧ (50 : Int) < 100
    ∧ (blockScan 32767
        { data := [] ++ mkBitmap BLOCK_SIZE [(32759, 32759)] ++ [],
          pos := ([] : List Byte).length, out := "", log := [] } 0).proc.out = "32759" := by
  have h := blockScan_runs_at 50 (mkBitmap BLOCK_SIZE [(100, 100)]) []
    (mkBitmap BLOCK_SIZE [(100, 100)]) [] 0 0 [(100, 100)]
    (by rw [List.nil_append, List.append_nil]) rfl
    (by rw [mkBitmap_length]; unfold BLOCK_SIZE; omega)
    (fun x hx => fileBit_mkBitmap BLOCK_SIZE _ x (by unfold BLOCK_SIZE; omega))
    (by decide) (by decide)
  have e1 : runsText 0 false [(100, 100)] = "100" := by decide
  rw [e1] at h
  refine ⟨h, by decide, ?_⟩
  rw [blockScan_mid 32767 [] _ [] 0 (by rw [mkBitmap_length]; unfold BLOCK_SIZE; omega)]
  exact closeOut_last_bit _ _
    (fun x hx => by
      rw [fileBit_mkBitmap BLOCK_SIZE _ x (by unfold BLOCK_SIZE; omega),
        bitOf_tail _ _ x (by simp only; omega)]
      exact bitOf_nil x)
    (by
      rw [fileBit_mkBitmap BLOCK_SIZE _ 32759 (by unfold BLOCK_SIZE; omega)]
      exact bitOf_head _ _ _ (le_refl _) (le_refl _))

/-! ## The bytes that a scan reads -/

theorem byteLoop_log {first : Int} {f : Nat → ScanState → Nat → ScanState}
    (hf : BitBody first f) (s : ScanState) (j : Nat) :
    (byteLoop f s j).proc.log = s.proc.log ++ [IOEvent.read s.proc.pos 1] := by
  unfold byteLoop
  rw [kLoop_log hf]
  show (s.proc.read [s.byte] 1).1.log = _
  rw [read_log]

/-- The reads of the first `n` iterations of a `j` loop, when the file holds `n` bytes
from the current position on: one byte at a time, at ascending positions. -/
theorem jLoop_reads {first : Int} {f : Nat → ScanState → Nat → ScanState}
    (hf : BitBody first f) (s : ScanState) (n : Nat)
    (hlen : s.proc.pos + n ≤ s.proc.data.length) :
    ((List.range n).foldl (byteLoop f) s).proc.log
      = s.proc.log ++ (List.range n).map (fun j => IOEvent.read (s.proc.pos + j) 1) := by
  induction n with
  | zero => simp
  | succ n ih =>
    have h := jLoop_spec hf s n (by omega)
    simp only at h
    rw [List.range_succ, List.foldl_append, List.map_append]
    simp only [List.foldl_cons, List.foldl_nil, List.map_cons, List.map_nil]
    rw [byteLoop_log hf, ih (by omega), h.2.2, List.append_assoc]

theorem close_pos (t : ScanState) (h : String) :
    (if t.iBit = 0 ∧ t.iLastRead = 0 ∧ t.iLastLastRead = 0 then
      { t with proc := t.proc.print h } else t).proc.pos = t.proc.pos := by
  split_ifs <;> rfl

/-- The reads of the block scan and the position it leaves. -/
theorem blockScan_reads (H : Int) (p : Proc) (byte0 : Byte)
    (hlen : p.pos + 4095 ≤ p.data.length) :
    (blockScan H p byte0).proc.log
        = p.log ++ (List.range 4095).map (fun j => IOEvent.read (p.pos + j) 1)
      ∧ (blockScan H p byte0).proc.pos = p.pos + 4095 := by
  have h := jLoop_reads blockBit_body
    { proc := p, byte := byte0, iBit := 0, tripped := false, iLastRead := -1,
      iLastLastRead := -1 } 4095 hlen
  have k := jLoop_spec blockBit_body
    { proc := p, byte := byte0, iBit := 0, tripped := false, iLastRead := -1,
      iLastLastRead := -1 } 4095 hlen
  simp only at k
  simp only [blockScan, blockByte_eq]
  rw [close_log, close_pos, h, k.2.2]
  exact ⟨rfl, rfl⟩

/-- The reads of the inode scan and the position it leaves. -/
theorem inodeScan_reads (H : Int) (p : Proc) (byte : Byte) (iBit : Nat)
    (hlen : p.pos + 4095 ≤ p.data.length) :
    (inodeScan H p byte iBit).proc.log
        = p.log ++ (List.range 4095).map (fun j => IOEvent.read (p.pos + j) 1)
      ∧ (inodeScan H p byte iBit).proc.pos = p.pos + 4095 := by
  have h := jLoop_reads inodeBit_body
    { proc := p, byte := byte, iBit := iBit, tripped := false, iLastRead := -1,
      iLastLastRead := -1 } 4095 hlen
  have k := jLoop_spec inodeBit_body
    { proc := p, byte := byte, iBit := iBit, tripped := false, iLastRead := -1,
      iLastLastRead := -1 } 4095 hlen
  simp only at k
  simp only [inodeScan, inodeByte_eq]
  rw [close_log, close_pos, h, k.2.2]
  exact ⟨rfl, rfl⟩

/-- C13, what the code does. On a file that holds a bitmap block (`BLOCK_SIZE` bytes)
from the current position on, each scan reads the bytes 0 to 4094 of the block, one at a
time in ascending order, and runs its branch over the `8 × 4095 = 32760` bits of those
bytes, bit `8 j + k` being bit `k` of byte `j` (least significant bit first).  Byte 4095,
the last of the block, is not read: the scan examines 32760 bits, not
`BLOCK_SIZE × 8 = 32768`. -/
theorem scan_examines_4095_bytes (H : Int) (p : Proc) (byte0 byte : Byte) (iBit : Nat)
    (hlen : p.pos + BLOCK_SIZE ≤ p.data.length) :
    (blockScan H p byte0).proc.log
        = p.log ++ (List.range 4095).map (fun j => IOEvent.read (p.pos + j) 1)
    ∧ (blockScan H p byte0).proc.out
        = closeOut (printfD H) (autoRun 0 (fileBit p.data p.pos) 0 32760
            { out := p.out, iBit := 0, tripped := false, last := -1, lastlast := -1 })
    ∧ (inodeScan H p byte iBit).proc.log
        = p.log ++ (List.range 4095).map (fun j => IOEvent.read (p.pos + j) 1)
    ∧ (inodeScan H p byte iBit).proc.out
        = closeOut (printfD (toInt32 (H + 1))) (autoRun 1 (fileBit p.data p.pos) 0 32760
            { out := p.out, iBit := iBit, tripped := false, last := -1, lastlast := -1 })
    ∧ (∀ j k : Nat, k < 8 →
        fileBit p.data p.pos (8 * j + k) = ((p.data.getD (p.pos + j) 0).val >>> k) &&& 1)
    ∧ 32760 = 8 * 4095 ∧ 32760 < 8 * BLOCK_SIZE := by
  have h4 : p.pos + 4095 ≤ p.data.length := by
    unfold BLOCK_SIZE at hlen
    omega
  refine ⟨(blockScan_reads H p byte0 h4).1, blockScan_out H p byte0 h4,
    (inodeScan_reads H p byte iBit h4).1, inodeScan_out H p byte iBit h4, ?_, by norm_num,
    by unfold BLOCK_SIZE; norm_num⟩
  intro j k hk
  have e1 : (8 * j + k) / 8 = j := by omega
  have e2 : (8 * j + k) % 8 = k := by omega
  simp only [fileBit, e1, e2]

/-- C13, witness: a bitmap block of bytes `0xff` at the start of the file; the scan
leaves the file position at 4095. -/
theorem scan_examines_4095_bytes_witness :
    (blockScan 32767 { data := List.replicate BLOCK_SIZE 255, pos := 0, out := "", log := [] }
        0).proc.log
      = ({ data := List.replicate BLOCK_SIZE 255, pos := 0, out := "", log := [] } : Proc).log
        ++ (List.range 4095).map (fun j => IOEvent.read
            (({ data := List.replicate BLOCK_SIZE 255, pos := 0, out := "", log := [] }
              : Proc).pos + j) 1) :=
  (scan_examines_4095_bytes 32767
    { data := List.replicate BLOCK_SIZE 255, pos := 0, out := "", log := [] } 0 0 0
    (scan_start_len _ BLOCK_SIZE (by rw [List.length_replicate]))).1

/-! ## The runs of free bits that the block scan prints -/

theorem step_outside_used (a : Auto) (i : Nat) (ha : a.last = 1) :
    autoStep 0 a i 1 = { a with iBit := 1, lastlast := 1, last := 1 } := by
  cases a
  simp only at ha
  subst ha
  simp [autoStep]

theorem step_outside_free (a : Auto) (i : Nat) (ha : a.last = 1) :
    autoStep 0 a i 0
      = { out := (if a.tripped then a.out ++ ", " else a.out) ++ printfD ((i : Int) + 0),
          iBit := 0, tripped := true, last := 0, lastlast := 1 } := by
  cases a
  simp only at ha
  subst ha
  simp [autoStep]

theorem step_inside_free (a : Auto) (i : Nat) (ha : a.last = 0) (hb : a.lastlast ≠ -1) :
    autoStep 0 a i 0 = { a with iBit := 0, lastlast := 0, last := 0 } := by
  cases a
  simp only at ha hb
  subst ha
  simp [autoStep, hb]

theorem step_inside_used_long (a : Auto) (i : Nat) (ha : a.last = 0) (hb : a.lastlast = 0) :
    autoStep 0 a i 1
      = { a with out := a.out ++ ("-" ++ printfD ((i : Int) - 1 + 0)), iBit := 1,
                 lastlast := 0, last := 1 } := by
  cases a
  simp only at ha hb
  subst ha hb
  simp [autoStep]

theorem step_inside_used_short (a : Auto) (i : Nat) (ha : a.last = 0) (hb : a.lastlast = 1) :
    autoStep 0 a i 1 = { a with iBit := 1, lastlast := 0, last := 1 } := by
  cases a
  simp only at ha hb
  subst ha hb
  simp [autoStep]

theorem runsText_cons_open (tr : Bool) (out : String) (s e : Nat) (rest : List (Nat × Nat)) :
    ((if tr then out ++ ", " else out) ++ printfD ((s : Int) + 0))
        ++ (runEnd s e ++ runsText 0 true rest)
      = out ++ runsText 0 tr ((s, e) :: rest) := by
  unfold runEnd
  cases tr <;> by_cases h : s = e <;> simp [runsText, fmtRange, h, String.append_assoc]

/-- The automaton over the bits `i, ..., E - 1`, the last two of which are not both 0:
from outside a run it appends the text of the maximal runs of 0 bits; from inside a run,
whose start is printed, it appends the end of that run and the text of the runs after
it. -/
theorem autoRun_zeroRuns (bit : Nat → Nat) (hbit : ∀ x, bit x ≤ 1) (E : Nat)
    (hE : ¬(bit (E - 2) = 0 ∧ bit (E - 1) = 0)) :
    ∀ (n i : Nat) (a : Auto), i + n = E →
      (a.last = 1 →
        (autoRun 0 bit i n a).out = a.out ++ runsText 0 a.tripped (zeroRuns bit i n none))
      ∧ (∀ s : Nat, s < i → a.last = 0 → a.tripped = true → bit (i - 1) = 0 →
          (s + 1 = i → a.lastlast = 1) → (s + 1 < i → a.lastlast = 0 ∧ bit (i - 2) = 0) →
          ∃ (e : Nat) (rest : List (Nat × Nat)),
            zeroRuns bit i n (some s) = (s, e) :: rest
            ∧ (autoRun 0 bit i n a).out = a.out ++ (runEnd s e ++ runsText 0 true rest)) := by
  intro n
  induction n with
  | zero =>
    intro i a hi
    refine ⟨fun _ => by simp [autoRun, zeroRuns, runsText], ?_⟩
    intro s hs _ _ hb _ h2
    have hse : s + 1 = i := by
      by_contra hne
      have hlt : s + 1 < i := by omega
      have e2 : E - 2 = i - 2 := by omega
      have e1 : E - 1 = i - 1 := by omega
      exact hE ⟨by rw [e2]; exact (h2 hlt).2, by rw [e1]; exact hb⟩
    refine ⟨i - 1, [], rfl, ?_⟩
    have : s = i - 1 := by omega
    simp [autoRun, runEnd, runsText, this]
  | succ n ih =>
    intro i a hi
    have hi1 : i + 1 + n = E := by omega
    rcases Nat.eq_zero_or_pos (bit i) with hb0 | hbpos
    · -- bit `i` is free
      constructor
      · intro ha
        obtain ⟨e, rest, hz, ho⟩ := (ih (i + 1) (autoStep 0 a i 0) hi1).2 i (by omega)
          (by rw [step_outside_free a i ha]) (by rw [step_outside_free a i ha])
          (by simpa using hb0)
          (fun _ => by rw [step_outside_free a i ha])
          (fun h => by omega)
        simp only [autoRun, zeroRuns, hb0, if_true]
        rw [hz, ho, step_outside_free a i ha]
        exact runsText_cons_open a.tripped a.out i e rest
      · intro s hs ha ht hb h1 h2
        have hll : a.lastlast ≠ -1 := by
          rcases Nat.lt_or_ge (s + 1) i with hlt | hge
          · rw [(h2 hlt).1]; decide
          · rw [h1 (by omega)]; decide
        obtain ⟨e, rest, hz, ho⟩ := (ih (i + 1) (autoStep 0 a i 0) hi1).2 s (by omega)
          (by rw [step_inside_free a i ha hll]) (by rw [step_inside_free a i ha hll]; exact ht)
          (by simpa using hb0)
          (fun h => by omega)
          (fun _ => ⟨by rw [step_inside_free a i ha hll], by simpa using hb⟩)
        refine ⟨e, rest, ?_, ?_⟩
        · simp only [zeroRuns, hb0, if_true]
          exact hz
        · simp only [autoRun, hb0]
          rw [ho, step_inside_free a i ha hll]
    · -- bit `i` is used
      have hb1 : bit i = 1 := by have := hbit i; omega
      have hne : ¬ bit i = 0 := by omega
      constructor
      · intro ha
        have h := (ih (i + 1) (autoStep 0 a i 1) hi1).1 (by rw [step_outside_used a i ha])
        simp only [autoRun, zeroRuns, hb1]
        rw [h, step_outside_used a i ha]
        simp
      · intro s hs ha ht hb h1 h2
        rcases Nat.lt_or_ge (s + 1) i with hlt | hge
        · have hl0 := (h2 hlt).1
          have h := (ih (i + 1) (autoStep 0 a i 1) hi1).1
            (by rw [step_inside_used_long a i ha hl0])
          refine ⟨i - 1, zeroRuns bit (i + 1) n none, ?_, ?_⟩
          · simp only [zeroRuns, hne, if_false]
          · simp only [autoRun, hb1]
            rw [h, step_inside_used_long a i ha hl0]
            have hse : s ≠ i - 1 := by omega
            have hc : ((i - 1 : Nat) : Int) + 0 = (i : Int) - 1 + 0 := by omega
            simp only [runEnd, hse, if_false, ht, hc, String.append_assoc]
        · have hl1 := h1 (by omega)
          have h := (ih (i + 1) (autoStep 0 a i 1) hi1).1
            (by rw [step_inside_used_short a i ha hl1])
          refine ⟨i - 1, zeroRuns bit (i + 1) n none, ?_, ?_⟩
          · simp only [zeroRuns, hne, if_false]
          · simp only [autoRun, hb1]
            rw [h, step_inside_used_short a i ha hl1]
            have hse : s = i - 1 := by omega
            simp [runEnd, hse, ht]

theorem fileBit_le_one (data : List Byte) (pos x : Nat) : fileBit data pos x ≤ 1 := by
  unfold fileBit
  rw [Nat.and_one_is_mod]
  omega

theorem zeroRuns_used (bit : Nat → Nat) (i n : Nat) (h : bit i ≠ 0) :
    zeroRuns bit i (n + 1) none = zeroRuns bit (i + 1) n none := by
  simp only [zeroRuns, h, if_false]

/-- The whole scan of bits of which the first is 1 and the last two are not both 0. -/
theorem closeOut_zeroRuns (h out : String) (bit : Nat → Nat) (hbit : ∀ x, bit x ≤ 1)
    (h0 : bit 0 = 1) (hend : ¬(bit 32758 = 0 ∧ bit 32759 = 0)) :
    closeOut h (autoRun 0 bit 0 32760
        { out := out, iBit := 0, tripped := false, last := -1, lastlast := -1 })
      = out ++ runsText 0 false (zeroRuns bit 0 32760 none) := by
  obtain ⟨t1, t2, t3⟩ := autoRun_tail 0 bit 32758 0
    { out := out, iBit := 0, tripped := false, last := -1, lastlast := -1 }
  have e1 : 32758 + 2 = 32760 := by norm_num
  have e2 : 0 + 32758 + 1 = 32759 := by norm_num
  have e3 : 0 + 32758 = 32758 := by norm_num
  rw [e1, e2] at t1 t2
  rw [e1, e3] at t3
  have hclose : ¬((autoRun 0 bit 0 32760
      { out := out, iBit := 0, tripped := false, last := -1, lastlast := -1 }).iBit = 0
      ∧ (autoRun 0 bit 0 32760
        { out := out, iBit := 0, tripped := false, last := -1, lastlast := -1 }).last = 0
      ∧ (autoRun 0 bit 0 32760
        { out := out, iBit := 0, tripped := false, last := -1, lastlast := -1 }).lastlast = 0) := by
    rw [t1, t2, t3]
    intro hc
    exact hend ⟨by exact_mod_cast hc.2.2, hc.1⟩
  unfold closeOut
  rw [if_neg hclose]
  have e : 32760 = 1 + 32759 := by norm_num
  have one : autoRun 0 bit 0 1
      { out := out, iBit := 0, tripped := false, last := -1, lastlast := -1 }
      = { out := out, iBit := 1, tripped := false, last := 1, lastlast := -1 } := by
    simp [autoRun, autoStep, h0]
  have hE : ¬(bit (32760 - 2) = 0 ∧ bit (32760 - 1) = 0) := hend
  have h := (autoRun_zeroRuns bit hbit 32760 hE 32759 (0 + 1)
    { out := out, iBit := 1, tripped := false, last := 1, lastlast := -1 } (by norm_num)).1 rfl
  rw [e, autoRun_add, one, h, Nat.add_comm 1 32759,
    zeroRuns_used bit 0 32759 (by rw [h0]; decide)]

/-- C16. On a file that holds the 4095 bytes of the scan from the current position on,
for every bitmap whose bit 0 is 1 and whose last two scanned bits (32758 and 32759) are
not both 0: the block bitmap scan prints exactly the maximal runs of consecutive 0 bits
among the 32760 scanned bits, in ascending order, joined by `", "`, a run of one bit as
its position and a longer run as `start-end`, `end` being the position of its last 0
bit. -/
theorem block_scan_prints_maximal_runs (H : Int) (p : Proc) (byte0 : Byte)
    (hlen : p.pos + 4095 ≤ p.data.length) (h0 : fileBit p.data p.pos 0 = 1)
    (hend : ¬(fileBit p.data p.pos 32758 = 0 ∧ fileBit p.data p.pos 32759 = 0)) :
    (blockScan H p byte0).proc.out
      = p.out ++ runsText 0 false (zeroRuns (fileBit p.data p.pos) 0 32760 none) := by
  rw [blockScan_out H p byte0 hlen]
  exact closeOut_zeroRuns _ p.out _ (fileBit_le_one p.data p.pos) h0 hend

theorem bitOf_sample (x : Nat) (h : x < 3 ∨ 9 < x) : bitOf [(3, 5), (9, 9)] x = 1 := by
  have h5 : 5 < x ∨ x < 3 := by omega
  by_cases hx : x < 3
  · rw [bitOf_tail _ _ x (Or.inl hx), bitOf_tail _ _ x (Or.inl (by simp only; omega))]
    exact bitOf_nil x
  · rw [bitOf_tail _ _ x (Or.inr (by simp only; omega)),
      bitOf_tail _ _ x (Or.inr (by simp only; omega))]
    exact bitOf_nil x

/-- C16, witness: the bitmap block with the free runs 3-5 and 9 at the start of the
file. -/
theorem block_scan_prints_maximal_runs_witness :
    (blockScan 32767
        { data := mkBitmap BLOCK_SIZE [(3, 5), (9, 9)], pos := 0, out := "", log := [] }
        0).proc.out
      = ({ data := mkBitmap BLOCK_SIZE [(3, 5), (9, 9)], pos := 0, out := "", log := [] }
          : Proc).out
        ++ runsText 0 false (zeroRuns
            (fileBit
              ({ data := mkBitmap BLOCK_SIZE [(3, 5), (9, 9)], pos := 0, out := "", log := [] }
                : Proc).data
              ({ data := mkBitmap BLOCK_SIZE [(3, 5), (9, 9)], pos := 0, out := "", log := [] }
                : Proc).pos)
            0 32760 none) :=
  block_scan_prints_maximal_runs 32767
    { data := mkBitmap BLOCK_SIZE [(3, 5), (9, 9)], pos := 0, out := "", log := [] } 0
    (scan_start_len _ 4095 (by rw [mkBitmap_length]; unfold BLOCK_SIZE; omega))
    (scan_start_bit _ 0 1 (by
      rw [fileBit_mkBitmap BLOCK_SIZE _ 0 (by unfold BLOCK_SIZE; omega)]
      exact bitOf_sample 0 (by omega)))
    (fun hc => by
      have h := scan_start_bit _ 32759 1 (by
        rw [fileBit_mkBitmap BLOCK_SIZE [(3, 5), (9, 9)] 32759 (by unfold BLOCK_SIZE; omega)]
        exact bitOf_sample 32759 (by omega))
      rw [h] at hc
      exact absurd hc.2 (by decide))

/-! ## The block id ranges of the groups -/

theorem groupBody_vars (sb : SuperBlock) (gdBuf : List Byte) (byte0 : Nat → Byte)
    (v : GroupVars) (i : Nat) :
    (groupBody sb gdBuf byte0 v i).iTotalNoBlocks = nextTotal sb v
      ∧ (groupBody sb gdBuf byte0 v i).iBlockRangeL = toInt32 (v.iBlockRangeH + 1)
      ∧ (groupBody sb gdBuf byte0 v i).iBlockRangeH = nextRangeH sb v := by
  rw [groupBody_eq]
  exact ⟨rfl, rfl, rfl⟩

theorem groupVarsAfter_succ (sb : SuperBlock) (gdBuf : List Byte) (byte0 : Nat → Byte)
    (p : Proc) (k : Nat) :
    groupVarsAfter sb gdBuf byte0 p (k + 1)
      = groupBody sb gdBuf byte0 (groupVarsAfter sb gdBuf byte0 p k) k := by
  unfold groupVarsAfter
  rw [List.range_succ, List.foldl_append]
  rfl

theorem groupSection_eq (sb : SuperBlock) (gdBuf : List Byte) (byte0 : Nat → Byte) (p : Proc) :
    groupSection sb gdBuf byte0 p
      = groupVarsAfter sb gdBuf byte0 (p.print "--Individual Group Information--\n")
          (groupCount sb) := rfl

theorem rangeVars_bounds (sb : SuperBlock) (k : Nat) :
    (rangeVars sb k).1 ≤ sb.s_blocks_count ∧ sb.s_first_data_block ≤ (rangeVars sb k).2
      ∧ (rangeVars sb k).2 ≤ sb.s_first_data_block + k * sb.s_blocks_per_group
      ∧ (rangeVars sb k).2 ≤ (rangeVars sb (k + 1)).2
      ∧ (rangeVars sb (k + 1)).2 ≤ (rangeVars sb k).2 + sb.s_blocks_per_group := by
  induction k with
  | zero =>
    simp only [rangeVars]
    split_ifs <;> simp
    omega
  | succ k ih =>
    obtain ⟨h1, h2, h3, h4, h5⟩ := ih
    have e : (k + 1) * sb.s_blocks_per_group = k * sb.s_blocks_per_group + sb.s_blocks_per_group := by
      ring
    rw [e]
    generalize k * sb.s_blocks_per_group = x at *
    have hs : rangeVars sb (k + 1 + 1)
        = if (rangeVars sb (k + 1)).1 < sb.s_blocks_per_group then
            ((rangeVars sb (k + 1)).1, (rangeVars sb (k + 1)).2 + (rangeVars sb (k + 1)).1)
          else ((rangeVars sb (k + 1)).1 - sb.s_blocks_per_group,
                (rangeVars sb (k + 1)).2 + sb.s_blocks_per_group) := rfl
    have hs1 : rangeVars sb (k + 1)
        = if (rangeVars sb k).1 < sb.s_blocks_per_group then
            ((rangeVars sb k).1, (rangeVars sb k).2 + (rangeVars sb k).1)
          else ((rangeVars sb k).1 - sb.s_blocks_per_group,
                (rangeVars sb k).2 + sb.s_blocks_per_group) := rfl
    have a1 : (rangeVars sb (k + 1)).1 ≤ sb.s_blocks_count := by
      rw [hs1]; split_ifs <;> simp only <;> omega
    rw [hs]
    split_ifs with c <;> simp only <;> omega

theorem rangeVars_succ_fst (sb : SuperBlock) (k : Nat) :
    (rangeVars sb (k + 1)).1
      = if (rangeVars sb k).1 < sb.s_blocks_per_group then (rangeVars sb k).1
        else (rangeVars sb k).1 - sb.s_blocks_per_group := by
  simp only [rangeVars]
  split_ifs <;> rfl

theorem rangeVars_succ_snd (sb : SuperBlock) (k : Nat) :
    (rangeVars sb (k + 1)).2
      = if (rangeVars sb k).1 < sb.s_blocks_per_group then
          (rangeVars sb k).2 + (rangeVars sb k).1
        else (rangeVars sb k).2 + sb.s_blocks_per_group := by
  simp only [rangeVars]
  split_ifs <;> rfl

theorem toUInt32_toInt32 (t : Nat) (ht : t < 4294967296) : toUInt32 (toInt32 (t : Int)) = t := by
  unfold toUInt32 toInt32
  omega

theorem nextRangeH_exact (sb : SuperBlock) (v : GroupVars) (t h : Nat)
    (hT : v.iTotalNoBlocks = toInt32 (t : Int)) (hH : v.iBlockRangeH = (h : Int) - 1)
    (ht : t < 4294967296) (hh : h + sb.s_blocks_per_group < 2147483648) :
    nextRangeH sb v
        = (((if t < sb.s_blocks_per_group then h + t else h + sb.s_blocks_per_group : Nat)
            : Int)) - 1
      ∧ nextTotal sb v
        = toInt32 ((if t < sb.s_blocks_per_group then t else t - sb.s_blocks_per_group : Nat)
            : Int) := by
  unfold nextRangeH nextTotal
  rw [hT, hH, toUInt32_toInt32 t ht]
  by_cases c : t < sb.s_blocks_per_group
  · rw [if_pos c, if_pos c, if_pos c, if_pos c]
    refine ⟨?_, rfl⟩
    unfold toInt32
    omega
  · rw [if_neg c, if_neg c, if_neg c, if_neg c]
    refine ⟨?_, ?_⟩
    · unfold toInt32
      omega
    · unfold toInt32
      omega

/-- The variables of the group loop after `k` iterations, when the ids reached fit an
`int`: `iBlockRangeH` holds the value of exact arithmetic and `iTotalNoBlocks` the value
of exact arithmetic converted to `int`. -/
theorem groupVarsAfter_exact (sb : SuperBlock) (gdBuf : List Byte) (byte0 : Nat → Byte)
    (p : Proc) (hbc : sb.s_blocks_count < 4294967296) :
    ∀ k : Nat, sb.s_first_data_block + k * sb.s_blocks_per_group < 2147483648 →
      (groupVarsAfter sb gdBuf byte0 p k).iTotalNoBlocks = toInt32 ((rangeVars sb k).1 : Int)
        ∧ (groupVarsAfter sb gdBuf byte0 p k).iBlockRangeH = ((rangeVars sb k).2 : Int) - 1 := by
  intro k
  induction k with
  | zero =>
    intro hk
    constructor
    · rfl
    · show toInt32 ((sb.s_first_data_block : Int) - 1) = (sb.s_first_data_block : Int) - 1
      exact toInt32_of_range _ (by omega) (by omega)
  | succ k ih =>
    intro hk
    have e : (k + 1) * sb.s_blocks_per_group
        = k * sb.s_blocks_per_group + sb.s_blocks_per_group := by ring
    rw [e] at hk
    obtain ⟨i1, i2⟩ := ih (by omega)
    obtain ⟨b1, _, b3, _, _⟩ := rangeVars_bounds sb k
    obtain ⟨e1, e2⟩ := nextRangeH_exact sb (groupVarsAfter sb gdBuf byte0 p k) _ _ i1 i2
      (by omega) (by omega)
    obtain ⟨g1, _, g3⟩ := groupBody_vars sb gdBuf byte0 (groupVarsAfter sb gdBuf byte0 p k) k
    constructor
    · rw [groupVarsAfter_succ, g1, e2, rangeVars_succ_fst]
    · rw [groupVarsAfter_succ, g3, e1, rangeVars_succ_snd]

/-- The lower id of group `k`, when the ids reached fit an `int`. -/
theorem groupVarsAfter_low (sb : SuperBlock) (gdBuf : List Byte) (byte0 : Nat → Byte)
    (p : Proc) (hbc : sb.s_blocks_count < 4294967296) (k : Nat)
    (hk : sb.s_first_data_block + k * sb.s_blocks_per_group < 2147483648) :
    (groupVarsAfter sb gdBuf byte0 p (k + 1)).iBlockRangeL = ((rangeVars sb k).2 : Int) := by
  obtain ⟨_, i2⟩ := groupVarsAfter_exact sb gdBuf byte0 p hbc k hk
  obtain ⟨_, _, b3, _, _⟩ := rangeVars_bounds sb k
  obtain ⟨_, g2, _⟩ := groupBody_vars sb gdBuf byte0 (groupVarsAfter sb gdBuf byte0 p k) k
  rw [groupVarsAfter_succ, g2, i2, toInt32_of_range _ (by omega) (by omega)]
  ring

/-- For every superblock (its block count a 32-bit number) and every
number `n` of groups such that the block ids fit the `int` variables of the loop
(`s_first_data_block + n × s_blocks_per_group < 2^31`), the block id ranges `[L_i, H_i]`
that the group loop reports for the groups `0, ..., n - 1` (the variables `iBlockRangeL`
and `iBlockRangeH` after iteration `i`) satisfy `L_0 = s_first_data_block`,
`L_(i+1) = H_i + 1` and `0 ≤ H_i - L_i + 1 ≤ s_blocks_per_group`: the ranges follow one
another without gap or overlap. -/
theorem group_ranges_are_contiguous (sb : SuperBlock) (gdBuf : List Byte)
    (byte0 : Nat → Byte) (p : Proc) (n : Nat) (hbc : sb.s_blocks_count < 4294967296)
    (hn : sb.s_first_data_block + n * sb.s_blocks_per_group < 2147483648) :
    (0 < n → (groupVarsAfter sb gdBuf byte0 p 1).iBlockRangeL = (sb.s_first_data_block : Int))
    ∧ (∀ i : Nat, i + 1 < n →
        (groupVarsAfter sb gdBuf byte0 p (i + 2)).iBlockRangeL
          = (groupVarsAfter sb gdBuf byte0 p (i + 1)).iBlockRangeH + 1)
    ∧ (∀ i : Nat, i < n →
        0 ≤ (groupVarsAfter sb gdBuf byte0 p (i + 1)).iBlockRangeH
              - (groupVarsAfter sb gdBuf byte0 p (i + 1)).iBlockRangeL + 1
        ∧ (groupVarsAfter sb gdBuf byte0 p (i + 1)).iBlockRangeH
            - (groupVarsAfter sb gdBuf byte0 p (i + 1)).iBlockRangeL + 1
          ≤ (sb.s_blocks_per_group : Int)) := by
  have hle : ∀ k : Nat, k ≤ n →
      sb.s_first_data_block + k * sb.s_blocks_per_group < 2147483648 := by
    intro k hk
    have := Nat.mul_le_mul_right sb.s_blocks_per_group hk
    omega
  refine ⟨fun _ => ?_, fun i hi => ?_, fun i hi => ?_⟩
  · exact groupVarsAfter_low sb gdBuf byte0 p hbc 0 (hle 0 (Nat.zero_le n))
  · rw [groupVarsAfter_low sb gdBuf byte0 p hbc (i + 1) (hle (i + 1) (by omega)),
      (groupVarsAfter_exact sb gdBuf byte0 p hbc (i + 1) (hle (i + 1) (by omega))).2]
    ring
  · rw [groupVarsAfter_low sb gdBuf byte0 p hbc i (hle i (by omega)),
      (groupVarsAfter_exact sb gdBuf byte0 p hbc (i + 1) (hle (i + 1) (by omega))).2]
    obtain ⟨_, _, _, b4, b5⟩ := rangeVars_bounds sb i
    constructor <;> omega

/-- The ranges of the file system of 2 GiB, 16 groups of 32768 blocks. -/
theorem group_ranges_are_contiguous_witness :
    sbTwoGiB.s_blocks_count < 4294967296
    ∧ sbTwoGiB.s_first_data_block + 16 * sbTwoGiB.s_blocks_per_group < 2147483648
    ∧ (0 < 16 →
        (groupVarsAfter sbTwoGiB [] (fun _ => 0) { data := [], pos := 0, out := "", log := [] }
          1).iBlockRangeL = (sbTwoGiB.s_first_data_block : Int))
    ∧ (∀ i : Nat, i + 1 < 16 →
        (groupVarsAfter sbTwoGiB [] (fun _ => 0) { data := [], pos := 0, out := "", log := [] }
          (i + 2)).iBlockRangeL
          = (groupVarsAfter sbTwoGiB [] (fun _ => 0)
              { data := [], pos := 0, out := "", log := [] } (i + 1)).iBlockRangeH + 1) :=
  ⟨by decide, by decide,
    (group_ranges_are_contiguous sbTwoGiB [] (fun _ => 0)
      { data := [], pos := 0, out := "", log := [] } 16 (by decide) (by decide)).1,
    (group_ranges_are_contiguous sbTwoGiB [] (fun _ => 0)
      { data := [], pos := 0, out := "", log := [] } 16 (by decide) (by decide)).2.1⟩

/-- C18, at the failing input. With `s_first_data_block = 4294967295` (and 64 blocks in
groups of 8192) the range reported for group 0 is `-1-62`: the lower id is `-1`, not
`s_first_data_block`, because the id does not fit the `int` variable `iBlockRangeL`. -/
theorem first_range_wraps_when_ids_exceed_int :
    (groupVarsAfter sbWrapFirst [] (fun _ => 0) { data := [], pos := 0, out := "", log := [] }
        1).iBlockRangeL = -1
    ∧ (groupVarsAfter sbWrapFirst [] (fun _ => 0) { data := [], pos := 0, out := "", log := [] }
        1).iBlockRangeH = 62
    ∧ (sbWrapFirst.s_first_data_block : Int) = 4294967295 := by
  obtain ⟨_, g2, g3⟩ := groupBody_vars sbWrapFirst [] (fun _ => 0)
    (groupVarsAfter sbWrapFirst [] (fun _ => 0)
      { data := [], pos := 0, out := "", log := [] } 0) 0
  refine ⟨?_, ?_, by decide⟩
  · rw [groupVarsAfter_succ, g2]
    decide
  · rw [groupVarsAfter_succ, g3]
    decide

/-! ## The upper id of the last group -/

/-- C17, at the failing input. With 10000 blocks, first data block 1 and 8192 blocks per
group the group loop runs over `ceil((10000 - 1) / 8192) = 2` groups; the upper block id
it reports for the last group is 10000, not `s_blocks_count - 1 = 9999`: the loop starts
`iTotalNoBlocks` at `s_blocks_count` where the blocks left are
`s_blocks_count - s_first_data_block`. -/
theorem last_group_upper_id_is_beyond_device :
    groupCount sbFirstBlockOne = 2
    ∧ ceilDiv (sbFirstBlockOne.s_blocks_count - sbFirstBlockOne.s_first_data_block)
        sbFirstBlockOne.s_blocks_per_group = 2
    ∧ (∀ (gdBuf : List Byte) (byte0 : Nat → Byte) (p : Proc),
        (groupSection sbFirstBlockOne gdBuf byte0 p).iBlockRangeH = 10000
          ∧ (groupSection sbFirstBlockOne gdBuf byte0 p).iBlockRangeL = 8193)
    ∧ sbFirstBlockOne.s_blocks_count - 1 = 9999 := by
  have hg : groupCount sbFirstBlockOne = 2 := by decide
  refine ⟨hg, by decide, fun gdBuf byte0 p => ?_, by decide⟩
  rw [groupSection_eq, hg]
  have h := (groupVarsAfter_exact sbFirstBlockOne gdBuf byte0
    (p.print "--Individual Group Information--\n") (by decide) 2 (by decide)).2
  have l := groupVarsAfter_low sbFirstBlockOne gdBuf byte0
    (p.print "--Individual Group Information--\n") (by decide) 1 (by decide)
  have e2 : (((rangeVars sbFirstBlockOne 2).2 : Nat) : Int) - 1 = 10000 := by decide
  have e1 : (((rangeVars sbFirstBlockOne 1).2 : Nat) : Int) = 8193 := by decide
  rw [e2] at h
  rw [e1] at l
  exact ⟨h, l⟩

/-! ## The name of a directory entry -/

set_option maxRecDepth 1000000 in
/-- C19, at the failing input. The root directory (block 1, `i_size = 24`) holds an entry
with `name_len = 4` and name `abcd`, and the next entry starts right after the name: the
walk prints the name as `abcdA`, the four bytes of the name followed by the first byte of
the next entry (the low byte 65 of its inode number), up to the first zero byte. -/
theorem name_runs_into_next_entry :
    (dirWalk { i_size := 24, i_block0 := 1 } (List.replicate SIZEOF_DIR_ENTRY 0) [] 24
        { data := dirImage, pos := 0, out := "", log := [] }).1.proc.out
      = "--Root Directory Entries--\n"
        ++ "Inode: 12\nEntry Length : 12\nName Length : 4\nFile Type : 1\nName : abcdA\n\n"
        ++ "Inode: 65\nEntry Length : 12\nName Length : 1\nFile Type : 1\nName : x\n\n" := by
  decide

/-! ## The group count in the report, the allocation and the group loop -/

/-- The last line of the general information section, when no division by zero stopped
it, is the group count printed with `%d`. -/
theorem generalInfo_last_line (sb : SuperBlock) (p : Proc) (h : (generalInfo sb p).2 = false) :
    ∃ pre : String, (generalInfo sb p).1.out
      = pre ++ ("Number of Groups : " ++ printfD (toInt32 (groupCount sb)) ++ "\n\n") := by
  unfold generalInfo at h ⊢
  simp only at h ⊢
  split_ifs at h ⊢ with c1 c2 c3
  exact ⟨_, rfl⟩

/-- The descriptor buffer after part two: what the read of
`SIZEOF_GROUP_DESC * groupCount sb` bytes at offset 4096 delivered, then what the buffer
held before. -/
theorem partTwo_buffer (env : Env) (sb : SuperBlock) (p : Proc) :
    (partTwo env sb p).2
      = availAt p.data 4096 (SIZEOF_GROUP_DESC * groupCount sb)
        ++ env.gdMem.drop (availAt p.data 4096 (SIZEOF_GROUP_DESC * groupCount sb)).length := by
  unfold partTwo
  have e : ((1 * BLOCK_SIZE : Nat) : Int) = ((4096 : Nat) : Int) := rfl
  rw [e, lseek_of_nonneg _ _ (Int.natCast_nonneg 4096)]
  simp only [read_eq, Int.toNat_natCast]
  split_ifs <;> rfl

/-- C5, as amended. For every superblock with `s_inodes_per_group > 0`, the group count
of the program is the quotient `s_inodes_count / s_inodes_per_group` of C integer
division, that is the quotient rounded down; it is `ceil(s_inodes_count /
s_inodes_per_group)` exactly when `s_inodes_per_group` divides `s_inodes_count`.  That
quotient is what the general information section prints as `Number of Groups` (with
`%d`, so as itself when it is below `2^31`), what the allocation of `gd2` and the read of
the descriptor table are sized by (32 bytes per group), and the number of iterations of
the group loop, which runs over the groups `0, ..., quotient - 1`. -/
theorem group_count_is_floor (env : Env) (sb : SuperBlock) (gdBuf : List Byte)
    (byte0 : Nat → Byte) (fuel : Nat) (p : Proc) (h : 0 < sb.s_inodes_per_group) :
    sb.s_inodes_count / sb.s_inodes_per_group * sb.s_inodes_per_group ≤ sb.s_inodes_count
    ∧ sb.s_inodes_count < (sb.s_inodes_count / sb.s_inodes_per_group + 1) * sb.s_inodes_per_group
    ∧ (sb.s_inodes_count / sb.s_inodes_per_group = ceilDiv sb.s_inodes_count sb.s_inodes_per_group
        ↔ sb.s_inodes_per_group ∣ sb.s_inodes_count)
    ∧ ((generalInfo sb p).2 = false →
        ∃ pre : String, (generalInfo sb p).1.out
          = pre ++ ("Number of Groups : "
              ++ printfD (toInt32 ((sb.s_inodes_count / sb.s_inodes_per_group : Nat) : Int))
              ++ "\n\n"))
    ∧ (sb.s_inodes_count / sb.s_inodes_per_group < 2147483648 →
        toInt32 ((sb.s_inodes_count / sb.s_inodes_per_group : Nat) : Int)
          = ((sb.s_inodes_count / sb.s_inodes_per_group : Nat) : Int))
    ∧ afterSuperBlock env sb fuel p
        = (if env.mallocNull 1 (32 * (sb.s_inodes_count / sb.s_inodes_per_group)) then
            { proc := p, outcome := Outcome.exited 1 }
          else partThree env (decodeGroupDesc (partTwo env sb p).2 0) fuel (partTwo env sb p).1)
    ∧ (partTwo env sb p).2
        = availAt p.data 4096 (32 * (sb.s_inodes_count / sb.s_inodes_per_group))
          ++ env.gdMem.drop
              (availAt p.data 4096 (32 * (sb.s_inodes_count / sb.s_inodes_per_group))).length
    ∧ groupSection sb gdBuf byte0 p
        = (List.range (sb.s_inodes_count / sb.s_inodes_per_group)).foldl
            (groupBody sb gdBuf byte0)
            (groupVarsInit sb (p.print "--Individual Group Information--\n")) := by
  obtain ⟨q1, q2, q3⟩ := quotient_is_floor sb h
  refine ⟨q1, q2, q3, generalInfo_last_line sb p, fun hq => ?_, rfl, partTwo_buffer env sb p,
    rfl⟩
  clear q1 q2 q3
  generalize sb.s_inodes_count / sb.s_inodes_per_group = q at hq ⊢
  exact toInt32_of_range _ (by omega) (by omega)

/-- C5, witness: 10 inodes, 4 inodes per group, which is not a whole number of groups. -/
theorem group_count_is_floor_witness :
    0 < sbTenFour.s_inodes_per_group
    ∧ sbTenFour.s_inodes_count / sbTenFour.s_inodes_per_group * sbTenFour.s_inodes_per_group
        ≤ sbTenFour.s_inodes_count
    ∧ sbTenFour.s_inodes_count
        < (sbTenFour.s_inodes_count / sbTenFour.s_inodes_per_group + 1)
          * sbTenFour.s_inodes_per_group
    ∧ sbTenFour.s_inodes_count / sbTenFour.s_inodes_per_group = 2 :=
  ⟨by decide,
    (group_count_is_floor (envOf []) sbTenFour [] (fun _ => 0) 0
      { data := [], pos := 0, out := "", log := [] } (by decide)).1,
    (group_count_is_floor (envOf []) sbTenFour [] (fun _ => 0) 0
      { data := [], pos := 0, out := "", log := [] } (by decide)).2.1,
    by decide⟩

/-! ## The chain of directory entries -/

theorem byteAt_lt (buf : List Byte) (i : Nat) : byteAt buf i < 256 := (buf.getD i 0).isLt

theorem byteAt_cons_succ (a : Byte) (t : List Byte) (i : Nat) :
    byteAt (a :: t) (i + 1) = byteAt t i := by
  simp [byteAt]

theorem takeWhile_name : ∀ (n : Nat) (l : List Byte), (∀ i, i < n → byteAt l i ≠ 0) →
    byteAt l n = 0 →
    (l.takeWhile (fun b => b.val != 0)).map (fun b => Char.ofNat b.val)
      = (List.range n).map (fun i => Char.ofNat (byteAt l i)) := by
  intro n
  induction n with
  | zero =>
    intro l _ h2
    cases l with
    | nil => rfl
    | cons a t =>
      have ha : a.val = 0 := h2
      simp [List.takeWhile, ha]
  | succ n ih =>
    intro l h1 h2
    cases l with
    | nil => exact absurd rfl (h1 0 (Nat.succ_pos n))
    | cons a t =>
      have ha : a.val ≠ 0 := h1 0 (Nat.succ_pos n)
      have hrec := ih t (fun i hi => by
        have := h1 (i + 1) (by omega)
        rwa [byteAt_cons_succ] at this) (by rwa [byteAt_cons_succ] at h2)
      rw [List.range_succ_eq_map, List.map_cons, List.map_map]
      rw [List.takeWhile_cons, if_pos (by simpa using ha), List.map_cons, hrec]
      congr 1

/-- What `%s` prints for memory that holds `n` bytes other than zero and then a zero
byte: those `n` bytes. -/
theorem printfS_name (n : Nat) (l : List Byte) (h1 : ∀ i, i < n → byteAt l i ≠ 0)
    (h2 : byteAt l n = 0) :
    printfS l = String.mk ((List.range n).map (fun i => Char.ofNat (byteAt l i))) := by
  unfold printfS
  rw [takeWhile_name n l h1 h2]

theorem printfD_natCast (n : Nat) : printfD ((n : Nat) : Int) = toString n := rfl

/-- The fixed fields of the entry in the buffer after it was read at offset `o`, when
the eight bytes of the header lie in the image. -/
theorem decode_at (data junk : List Byte) (o : Nat) (h : o + 8 ≤ data.length) :
    (decodeDirEntry (availAt data o SIZEOF_DIR_ENTRY ++ junk)).inode = inodeAt data o
      ∧ (decodeDirEntry (availAt data o SIZEOF_DIR_ENTRY ++ junk)).rec_len = recLenAt data o
      ∧ (decodeDirEntry (availAt data o SIZEOF_DIR_ENTRY ++ junk)).name_len = nameLenAt data o
      ∧ (decodeDirEntry (availAt data o SIZEOF_DIR_ENTRY ++ junk)).file_type
          = byteAt data (o + 7) := by
  have hb : ∀ i, i < 8 →
      byteAt (availAt data o SIZEOF_DIR_ENTRY ++ junk) i = byteAt data (o + i) :=
    fun i hi => byteAt_avail data junk o SIZEOF_DIR_ENTRY i
      (by unfold SIZEOF_DIR_ENTRY; omega) (by omega)
  refine ⟨?_, ?_, ?_, ?_⟩
  · show byteAt _ 0 + 256 * byteAt _ (0 + 1) + 65536 * byteAt _ (0 + 2)
      + 16777216 * byteAt _ (0 + 3) = _
    rw [hb 0 (by omega), hb (0 + 1) (by omega), hb (0 + 2) (by omega), hb (0 + 3) (by omega)]
    rfl
  · show byteAt _ 4 + 256 * byteAt _ (4 + 1) = _
    rw [hb 4 (by omega), hb (4 + 1) (by omega)]
    rfl
  · show byteAt _ 6 = _
    rw [hb 6 (by omega)]
    rfl
  · show byteAt _ 7 = _
    rw [hb 7 (by omega)]

/-- The name that `%s` prints for the entry in the buffer after it was read at offset
`o`, when its name is followed by a zero byte inside the image. -/
theorem name_at (data junk deTail : List Byte) (o : Nat)
    (h3 : o + 8 + nameLenAt data o < data.length)
    (h4 : ∀ i : Nat, i < nameLenAt data o → byteAt data (o + 8 + i) ≠ 0)
    (h5 : byteAt data (o + 8 + nameLenAt data o) = 0) :
    printfS ((availAt data o SIZEOF_DIR_ENTRY ++ junk).drop 8 ++ deTail) = nameAt data o := by
  have hn : nameLenAt data o < 256 := byteAt_lt data (o + 6)
  have hlen : 8 + nameLenAt data o < (availAt data o SIZEOF_DIR_ENTRY ++ junk).length := by
    rw [List.length_append, availAt_length]
    unfold SIZEOF_DIR_ENTRY
    omega
  have hbyte : ∀ i, i ≤ nameLenAt data o →
      byteAt ((availAt data o SIZEOF_DIR_ENTRY ++ junk).drop 8 ++ deTail) i
        = byteAt data (o + 8 + i) := by
    intro i hi
    rw [byteAt_drop_append _ _ 8 i (by omega),
      byteAt_avail data junk o SIZEOF_DIR_ENTRY (8 + i) (by unfold SIZEOF_DIR_ENTRY; omega)
        (by omega), Nat.add_assoc]
  rw [printfS_name (nameLenAt data o) _
    (fun i hi => by rw [hbyte i (Nat.le_of_lt hi)]; exact h4 i hi)
    (by rw [hbyte _ (Nat.le_refl _)]; exact h5)]
  unfold nameAt
  congr 1
  apply List.map_congr_left
  intro i hi
  rw [hbyte i (Nat.le_of_lt (List.mem_range.mp hi))]

/-- What the walk prints for the entry in the buffer after it was read at offset `o` is
the report of the entry located there. -/
theorem entryText_expected (data junk deTail : List Byte) (o : Nat) (hok : EntryOk data o) :
    entryText (availAt data o SIZEOF_DIR_ENTRY ++ junk) deTail = expectedEntry data o := by
  obtain ⟨_, h2, h3, h4, h5⟩ := hok
  obtain ⟨d1, d2, d3, d4⟩ := decode_at data junk o (by omega)
  unfold entryText
  rw [d1, d2, d3, d4, name_at data junk deTail o h3 h4 h5]
  unfold entryLines expectedEntry
  rw [toInt32_of_range _ (by omega) (by omega), printfD_natCast, printfD_natCast,
    printfD_natCast, printfD_natCast]

/-! ## A directory block beyond 2 GiB -/

theorem lseek_of_neg (p : Proc) (off : Int) (h : off < 0) :
    p.lseek off = ({ p with log := p.log ++ [IOEvent.seek off] }, -1) := by
  unfold Proc.lseek
  rw [if_pos h]

/-- One iteration of the directory loop whose seek fails: the entry in the buffer is
printed, then the run stops. -/
theorem walkLoop_seek_fails (ino : Inode) (deTail : List Byte) (fuel : Nat) (w : WalkState)
    (hc : walkCond ino w.iNextDir) (hneg : nextOff w.deBuf w.iNextDir < -1) :
    (walkLoop ino deTail (fuel + 1) w).2 = WalkEnd.seekFailed
    ∧ (walkLoop ino deTail (fuel + 1) w).1.proc.out
        = w.proc.out ++ entryText w.deBuf deTail := by
  have h0 : toInt32 (w.iNextDir + ((decodeDirEntry w.deBuf).rec_len : Int)) < -1 := hneg
  rw [walkLoop, if_pos hc]
  generalize entryText w.deBuf deTail = t
  generalize toInt32 (w.iNextDir + ((decodeDirEntry w.deBuf).rec_len : Int)) = z at h0
  simp only [lseek_of_neg _ _ (show z < 0 by omega)]
  rw [if_pos (by omega)]
  exact ⟨rfl, rfl⟩

/-- The directory walk when the seek to the second entry fails. -/
theorem dirWalk_seek_fails (ino : Inode) (deMem deTail buf : List Byte) (fuel : Nat) (p : Proc)
    (hf : 0 < fuel)
    (hbuf : availAt p.data (dirStart ino) SIZEOF_DIR_ENTRY
        ++ deMem.drop (availAt p.data (dirStart ino) SIZEOF_DIR_ENTRY).length = buf)
    (hc : walkCond ino (toInt32 (dirStart ino)))
    (hneg : nextOff buf (toInt32 (dirStart ino)) < -1) :
    (dirWalk ino deMem deTail fuel p).2 = WalkEnd.seekFailed
    ∧ (dirWalk ino deMem deTail fuel p).1.proc.out
        = p.out ++ "--Root Directory Entries--\n" ++ entryText buf deTail := by
  obtain ⟨f, rfl⟩ : ∃ f, fuel = f + 1 := ⟨fuel - 1, by omega⟩
  rw [dirWalk_eq, hbuf]
  exact walkLoop_seek_fails ino deTail f _ hc hneg

theorem availAt_after_replicate (n count : Nat) (v : Byte) (rest : List Byte) :
    availAt (List.replicate n v ++ rest) n count = rest.take count := by
  unfold availAt
  rw [List.drop_left' (List.length_replicate n v)]

theorem byteAt_after_replicate (n i : Nat) (v : Byte) (rest : List Byte) :
    byteAt (List.replicate n v ++ rest) (n + i) = byteAt rest i := by
  have h := byteAt_append_right (List.replicate n v) rest i
  rw [List.length_replicate] at h
  exact h

/-- The entry buffer after the first read of a walk that starts at offset `s` of the
image `D`, when the image holds `rest` from there on. -/
theorem first_buf_of (D rest deMem : List Byte) (ino : Inode) (s count : Nat)
    (hD : availAt D s count = rest.take count) (hs : dirStart ino = s)
    (hlen : count ≤ rest.length) (hm : deMem.length ≤ count) :
    availAt ({ data := D, pos := 0, out := "", log := [] } : Proc).data (dirStart ino) count
      ++ deMem.drop (availAt ({ data := D, pos := 0, out := "", log := [] } : Proc).data
          (dirStart ino) count).length
      = rest.take count := by
  show availAt D (dirStart ino) count ++ deMem.drop (availAt D (dirStart ino) count).length
    = rest.take count
  rw [hs, hD, List.length_take, min_eq_left hlen, List.drop_eq_nil_of_le hm, List.append_nil]

/-- Two offsets on the chain: the entry at the start and the entry that follows it, when
the two record lengths together reach the size. -/
theorem entryOffsets_two (data : List Byte) (start size fuel r0 r1 : Nat) (hf : 3 ≤ fuel)
    (h0 : recLenAt data start = r0) (h1 : recLenAt data (start + r0) = r1)
    (hs0 : 0 < size) (hs1 : r0 < size) (hs2 : size ≤ r0 + r1) :
    entryOffsets data start size fuel start = [start, start + r0] := by
  obtain ⟨f, rfl⟩ : ∃ f, fuel = f + 3 := ⟨fuel - 3, by omega⟩
  have e1 : start - start < size := by omega
  have e2 : start + r0 - start < size := by omega
  have e3 : ¬ (start + r0 + r1 - start < size) := by omega
  rw [entryOffsets, if_pos e1, h0, entryOffsets, if_pos e2, h1, entryOffsets, if_neg e3]

theorem recLenAt_after_replicate (n i : Nat) (v : Byte) (rest : List Byte) :
    recLenAt (List.replicate n v ++ rest) (n + i) = recLenAt rest i := by
  unfold recLenAt
  rw [Nat.add_assoc, Nat.add_assoc, byteAt_after_replicate, byteAt_after_replicate]

theorem farDirImage_rec_len :
    recLenAt farDirImage 2147483648 = 12 ∧ recLenAt farDirImage (2147483648 + 12) = 4084 :=
  ⟨(recLenAt_after_replicate 2147483648 0 0 _).trans (by decide),
    (recLenAt_after_replicate 2147483648 12 0 _).trans (by decide)⟩

theorem far_len : SIZEOF_DIR_ENTRY ≤ (rootDirEntries.bytes ++ List.replicate 4073 0).length := by
  rw [List.length_append, List.length_replicate]
  decide

theorem far_start : dirStart { i_size := 4096, i_block0 := 524288 } = 2147483648 := by decide

theorem far_cond : walkCond { i_size := 4096, i_block0 := 524288 }
    (toInt32 (dirStart { i_size := 4096, i_block0 := 524288 })) := by decide

set_option maxRecDepth 1000000 in
theorem far_neg :
    nextOff ((rootDirEntries.bytes ++ List.replicate 4073 0).take SIZEOF_DIR_ENTRY)
      (toInt32 (dirStart { i_size := 4096, i_block0 := 524288 })) < -1 := by decide

set_option maxRecDepth 1000000 in
theorem far_text : ("" : String) ++ "--Root Directory Entries--\n"
      ++ entryText ((rootDirEntries.bytes ++ List.replicate 4073 0).take SIZEOF_DIR_ENTRY) []
      = "--Root Directory Entries--\n"
        ++ "Inode: 2\nEntry Length : 12\nName Length : 1\nFile Type : 2\nName : .\n\n" := by
  decide

theorem far_avail : availAt farDirImage 2147483648 SIZEOF_DIR_ENTRY
    = (rootDirEntries.bytes ++ List.replicate 4073 0).take SIZEOF_DIR_ENTRY :=
  availAt_after_replicate 2147483648 SIZEOF_DIR_ENTRY 0 _

/-- The entry buffer after the first read of the walk on `farDirImage`. -/
theorem far_buf :
    availAt ({ data := farDirImage, pos := 0, out := "", log := [] } : Proc).data
        (dirStart { i_size := 4096, i_block0 := 524288 }) SIZEOF_DIR_ENTRY
      ++ (List.replicate SIZEOF_DIR_ENTRY 0).drop
          (availAt ({ data := farDirImage, pos := 0, out := "", log := [] } : Proc).data
            (dirStart { i_size := 4096, i_block0 := 524288 }) SIZEOF_DIR_ENTRY).length
      = (rootDirEntries.bytes ++ List.replicate 4073 0).take SIZEOF_DIR_ENTRY :=
  first_buf_of farDirImage (rootDirEntries.bytes ++ List.replicate 4073 0)
    (List.replicate SIZEOF_DIR_ENTRY 0) { i_size := 4096, i_block0 := 524288 } 2147483648
    SIZEOF_DIR_ENTRY far_avail far_start far_len (le_of_eq (List.length_replicate _ _))

/-- The walk on `farDirImage`: one entry printed, then the failed seek. -/
theorem far_walk :
    (dirWalk { i_size := 4096, i_block0 := 524288 } (List.replicate SIZEOF_DIR_ENTRY 0) []
        4096 { data := farDirImage, pos := 0, out := "", log := [] }).2
      = WalkEnd.seekFailed
    ∧ (dirWalk { i_size := 4096, i_block0 := 524288 } (List.replicate SIZEOF_DIR_ENTRY 0) []
        4096 { data := farDirImage, pos := 0, out := "", log := [] }).1.proc.out
      = "--Root Directory Entries--\n"
        ++ "Inode: 2\nEntry Length : 12\nName Length : 1\nFile Type : 2\nName : .\n\n" := by
  obtain ⟨w1, w2⟩ := dirWalk_seek_fails { i_size := 4096, i_block0 := 524288 }
    (List.replicate SIZEOF_DIR_ENTRY 0) [] _ 4096
    { data := farDirImage, pos := 0, out := "", log := [] } (by decide) far_buf far_cond far_neg
  exact ⟨w1, w2.trans far_text⟩

/-- The chain of offsets of the entries in the directory block of `farDirImage`. -/
theorem far_offsets :
    entryOffsets farDirImage 2147483648 4096 4096 2147483648
      = [2147483648, 2147483648 + 12] :=
  entryOffsets_two farDirImage 2147483648 4096 4096 12 4084 (by decide)
    farDirImage_rec_len.1 farDirImage_rec_len.2 (by decide) (by decide) (by decide)

/-- C15, at the failing input. The root inode has `i_block[0] = 524288` and
`i_size = 4096`, and the block at byte offset `524288 * 4096 = 2^31` holds the entry `.`
(`rec_len = 12`) and the entry `..` (`rec_len = 4084`).  The chain of offsets of the
entries to report is `2^31, 2^31 + 12`, both with `rec_len > 0`; the walk prints the
heading and the first entry only and then ends in the failed seek (`exit(1)`): the next
offset does not fit the `int` variable `iNextDir`, the seek is asked for a negative
offset. -/
theorem walk_stops_after_first_entry_beyond_two_gib :
    (dirWalk { i_size := 4096, i_block0 := 524288 } (List.replicate SIZEOF_DIR_ENTRY 0) []
        4096 { data := farDirImage, pos := 0, out := "", log := [] }).2 = WalkEnd.seekFailed
    ∧ (dirWalk { i_size := 4096, i_block0 := 524288 } (List.replicate SIZEOF_DIR_ENTRY 0) []
        4096 { data := farDirImage, pos := 0, out := "", log := [] }).1.proc.out
      = "--Root Directory Entries--\n"
        ++ "Inode: 2\nEntry Length : 12\nName Length : 1\nFile Type : 2\nName : .\n\n"
    ∧ entryOffsets farDirImage (524288 * BLOCK_SIZE) 4096 4096 (524288 * BLOCK_SIZE)
        = [2147483648, 2147483660]
    ∧ recLenAt farDirImage 2147483648 = 12 ∧ recLenAt farDirImage 2147483660 = 4084 :=
  ⟨far_walk.1, far_walk.2, far_offsets, farDirImage_rec_len.1, farDirImage_rec_len.2⟩

/-! ## The chain of entries when the offsets fit an `int` -/

theorem recLenAt_le (data : List Byte) (o : Nat) : recLenAt data o ≤ 65535 := by
  have h1 := byteAt_lt data (o + 4)
  have h2 := byteAt_lt data (o + 5)
  unfold recLenAt
  omega

theorem entryOffsets_stop (data : List Byte) (start size n o : Nat)
    (h : ¬ (o - start < size)) : entryOffsets data start size n o = [] := by
  cases n <;> simp [entryOffsets, h]

theorem entryOffsets_cons (data : List Byte) (start size n o : Nat) (h : o - start < size) :
    entryOffsets data start size (n + 1) o
      = o :: entryOffsets data start size n (o + recLenAt data o) := by
  rw [entryOffsets, if_pos h]

theorem walkCond_chain (ino : Inode) (o : Nat) (ho : o < 4294967296)
    (hs : ino.i_block0 * BLOCK_SIZE + ino.i_size ≤ 2147483648) :
    walkCond ino (toInt32 (o : Int)) ↔ o < ino.i_block0 * BLOCK_SIZE + ino.i_size := by
  unfold walkCond
  rw [toUInt32_toInt32 o ho, Nat.mod_eq_of_lt (by omega)]

/-- One iteration of the directory loop whose seek succeeds, by what the next state
holds. -/
theorem walkLoop_next (ino : Inode) (deTail : List Byte) (fuel : Nat) (w : WalkState)
    (hc : walkCond ino w.iNextDir) (h0 : 0 ≤ nextOff w.deBuf w.iNextDir) :
    ∃ W : WalkState, walkLoop ino deTail (fuel + 1) w = walkLoop ino deTail fuel W
      ∧ W.iNextDir = nextOff w.deBuf w.iNextDir ∧ W.proc.data = w.proc.data
      ∧ W.deBuf = nextBuf w.proc.data w.deBuf (nextOff w.deBuf w.iNextDir)
      ∧ W.proc.out = w.proc.out ++ entryText w.deBuf deTail :=
  ⟨_, walkLoop_step ino deTail fuel w hc h0, rfl, rfl, rfl, rfl⟩

theorem toInt32_wraps (x : Nat) (h1 : 2147483648 ≤ x) (h2 : x < 4294967295) :
    toInt32 (x : Int) < -1 := by
  unfold toInt32
  omega

/-- The directory loop from the entry at offset `o` on, when the block and its size end
at or below `2^31` and the entries on the chain are well formed: the loop ends, by its
condition or by a failed seek to an offset beyond the directory, having printed the
report of the entries on the chain, in order. -/
theorem walkLoop_chain (ino : Inode) (data deTail : List Byte) (start : Nat)
    (hst : ino.i_block0 * BLOCK_SIZE = start)
    (hs : start + ino.i_size ≤ 2147483648) :
    ∀ (n o : Nat), start ≤ o → o < 4294967296 → start + ino.i_size - o ≤ n →
      (∀ x ∈ entryOffsets data start ino.i_size n o, EntryOk data x) →
      ∀ (fuel : Nat) (w : WalkState), n ≤ fuel → w.iNextDir = toInt32 (o : Int) →
        w.proc.data = data →
        (o < start + ino.i_size → ∃ junk, w.deBuf = availAt data o SIZEOF_DIR_ENTRY ++ junk) →
        (walkLoop ino deTail fuel w).2 ≠ WalkEnd.running
        ∧ (walkLoop ino deTail fuel w).1.proc.out
          = w.proc.out ++ expectedReport data (entryOffsets data start ino.i_size n o) := by
  have hcond : ∀ o : Nat, o < 4294967296 →
      (walkCond ino (toInt32 (o : Int)) ↔ o < start + ino.i_size) := by
    intro o ho
    have := walkCond_chain ino o ho (by rw [hst]; exact hs)
    rw [hst] at this
    exact this
  intro n
  induction n with
  | zero =>
    intro o h1 h2 h3 _ fuel w _ hw _ _
    have hc : ¬ walkCond ino w.iNextDir := by
      rw [hw, hcond o h2]
      omega
    rw [walkLoop_done ino deTail fuel w hc]
    exact ⟨fun h => WalkEnd.noConfusion h, by simp [entryOffsets, expectedReport]⟩
  | succ n ih =>
    intro o h1 h2 h3 hent fuel w hf hw hd hb
    by_cases hv : o - start < ino.i_size
    · have hok := hent o (by rw [entryOffsets_cons _ _ _ _ _ hv]; exact List.mem_cons_self _ _)
      obtain ⟨junk, hbuf⟩ := hb (by omega)
      have hr1 : 0 < recLenAt data o := hok.1
      have hr2 := recLenAt_le data o
      have hin : o + 8 ≤ data.length := by
        have := hok.2.2.1
        omega
      obtain ⟨f, rfl⟩ : ∃ f, fuel = f + 1 := ⟨fuel - 1, by omega⟩
      have q0 : o < start + ino.i_size ∧ n ≤ f ∧ -2147483648 ≤ (o : Int)
          ∧ (o : Int) < 2147483648 := by omega
      have qa : o + recLenAt data o < 2147483648 →
          start ≤ o + recLenAt data o ∧ o + recLenAt data o < 4294967296
            ∧ start + ino.i_size - (o + recLenAt data o) ≤ n
            ∧ -2147483648 ≤ ((o + recLenAt data o : Nat) : Int)
            ∧ ((o + recLenAt data o : Nat) : Int) < 2147483648 := by omega
      have qb : ¬ (o + recLenAt data o < 2147483648) →
          ¬ (o + recLenAt data o - start < ino.i_size) ∧ 2147483648 ≤ o + recLenAt data o
            ∧ o + recLenAt data o < 4294967295 := by omega
      have hrl : (decodeDirEntry w.deBuf).rec_len = recLenAt data o := by
        rw [hbuf]
        exact (decode_at data junk o hin).2.1
      have htext : entryText w.deBuf deTail = expectedEntry data o := by
        rw [hbuf]
        exact entryText_expected data junk deTail o hok
      have hi : toInt32 (o : Int) = (o : Int) := toInt32_of_range _ q0.2.2.1 q0.2.2.2
      have hno : nextOff w.deBuf w.iNextDir = toInt32 ((o + recLenAt data o : Nat) : Int) := by
        unfold nextOff
        rw [hw, hrl, hi, ← Nat.cast_add]
      have hc : walkCond ino w.iNextDir := by
        rw [hw, hcond o h2]
        exact q0.1
      rw [entryOffsets_cons _ _ _ _ _ hv]
      by_cases hfit : o + recLenAt data o < 2147483648
      · obtain ⟨q1, q2, q3, q4, q5⟩ := qa hfit
        have hz : toInt32 ((o + recLenAt data o : Nat) : Int)
            = ((o + recLenAt data o : Nat) : Int) := toInt32_of_range _ q4 q5
        obtain ⟨W, hW, a1, a2, a3, a4⟩ := walkLoop_next ino deTail f w hc
          (by rw [hno, hz]; exact Int.natCast_nonneg _)
        have htail : ∀ x ∈ entryOffsets data start ino.i_size n (o + recLenAt data o),
            EntryOk data x := by
          intro x hx
          apply hent x
          rw [entryOffsets_cons _ _ _ _ _ hv]
          exact List.mem_cons_of_mem _ hx
        have hjunk : ∃ junk2, W.deBuf
            = availAt data (o + recLenAt data o) SIZEOF_DIR_ENTRY ++ junk2 := by
          refine ⟨w.deBuf.drop (availAt data (o + recLenAt data o) SIZEOF_DIR_ENTRY).length, ?_⟩
          rw [a3, hno, hz, hd]
          unfold nextBuf
          rw [Int.toNat_natCast]
        obtain ⟨k1, k2⟩ := ih (o + recLenAt data o) q1 q2 q3 htail f W q0.2.1
          (a1.trans hno) (a2.trans hd) (fun _ => hjunk)
        rw [hW]
        refine ⟨k1, ?_⟩
        rw [k2, a4, htext, expectedReport, String.append_assoc]
      · obtain ⟨q1, q2, q3⟩ := qb hfit
        have hneg : nextOff w.deBuf w.iNextDir < -1 := by
          rw [hno]
          exact toInt32_wraps _ q2 q3
        obtain ⟨s1, s2⟩ := walkLoop_seek_fails ino deTail f w hc hneg
        rw [entryOffsets_stop data start ino.i_size n (o + recLenAt data o) q1]
        refine ⟨by rw [s1]; decide, ?_⟩
        rw [s2, htext, expectedReport, expectedReport, String.append_empty]
    · have hc : ¬ walkCond ino w.iNextDir := by
        rw [hw, hcond o h2]
        omega
      rw [walkLoop_done ino deTail fuel w hc]
      exact ⟨fun h => WalkEnd.noConfusion h, by simp [entryOffsets_stop _ _ _ _ _ hv, expectedReport]⟩

/-- For a root inode whose directory block and size end at or below `2^31`
(`i_block[0] × BLOCK_SIZE + i_size ≤ 2^31`) and a directory in which every entry on the
chain `o_0 = i_block[0] × BLOCK_SIZE`, `o_(n+1) = o_n + rec_len(entry at o_n)`,
`o_n - o_0 < i_size`, is well formed (`EntryOk`): with at least `i_size` iterations
allowed the walk ends, and what it prints after the heading is the report of exactly the
entries on the chain, in order. -/
theorem walk_follows_entry_chain (ino : Inode) (deMem deTail : List Byte) (fuel : Nat)
    (p : Proc) (hs : ino.i_block0 * BLOCK_SIZE + ino.i_size ≤ 2147483648)
    (hent : ∀ x ∈ entryOffsets p.data (ino.i_block0 * BLOCK_SIZE) ino.i_size ino.i_size
        (ino.i_block0 * BLOCK_SIZE), EntryOk p.data x)
    (hfuel : ino.i_size ≤ fuel) :
    (dirWalk ino deMem deTail fuel p).2 ≠ WalkEnd.running
    ∧ (dirWalk ino deMem deTail fuel p).1.proc.out
      = p.out ++ "--Root Directory Entries--\n"
        ++ expectedReport p.data
            (entryOffsets p.data (ino.i_block0 * BLOCK_SIZE) ino.i_size ino.i_size
              (ino.i_block0 * BLOCK_SIZE)) := by
  have hds : dirStart ino = ino.i_block0 * BLOCK_SIZE := by
    unfold dirStart
    exact Nat.mod_eq_of_lt (by omega)
  rw [dirWalk_eq, hds]
  generalize "--Root Directory Entries--\n" = t
  exact walkLoop_chain ino p.data deTail (ino.i_block0 * BLOCK_SIZE) rfl hs ino.i_size
    (ino.i_block0 * BLOCK_SIZE) (le_refl _) (by omega) (by omega) hent fuel _ hfuel rfl rfl
    (fun _ => ⟨_, rfl⟩)

/-! ## The chain on the root directory of a fresh file system -/

theorem byteAt_shift (n i k : Nat) (v : Byte) (rest : List Byte) :
    byteAt (List.replicate n v ++ rest) (n + i + k) = byteAt rest (i + k) := by
  rw [Nat.add_assoc]
  exact byteAt_after_replicate n (i + k) v rest

theorem byteAt_shift2 (n i a k : Nat) (v : Byte) (rest : List Byte) :
    byteAt (List.replicate n v ++ rest) (n + i + a + k) = byteAt rest (i + a + k) := by
  rw [Nat.add_assoc n i a]
  exact byteAt_shift n (i + a) k v rest

theorem inodeAt_after_replicate (n i : Nat) (v : Byte) (rest : List Byte) :
    inodeAt (List.replicate n v ++ rest) (n + i) = inodeAt rest i := by
  unfold inodeAt
  rw [byteAt_shift, byteAt_shift, byteAt_shift, byteAt_after_replicate]

theorem nameLenAt_after_replicate (n i : Nat) (v : Byte) (rest : List Byte) :
    nameLenAt (List.replicate n v ++ rest) (n + i) = nameLenAt rest i := by
  unfold nameLenAt
  rw [byteAt_shift]

theorem nameAt_after_replicate (n i : Nat) (v : Byte) (rest : List Byte) :
    nameAt (List.replicate n v ++ rest) (n + i) = nameAt rest i := by
  unfold nameAt
  rw [nameLenAt_after_replicate]
  congr 1
  apply List.map_congr_left
  intro k _
  rw [byteAt_shift2]

theorem expectedEntry_after_replicate (n i : Nat) (v : Byte) (rest : List Byte) :
    expectedEntry (List.replicate n v ++ rest) (n + i) = expectedEntry rest i := by
  unfold expectedEntry
  rw [inodeAt_after_replicate, recLenAt_after_replicate, nameLenAt_after_replicate,
    nameAt_after_replicate, byteAt_shift]

theorem entryOk_after_replicate (n i : Nat) (v : Byte) (rest : List Byte)
    (h : EntryOk rest i) : EntryOk (List.replicate n v ++ rest) (n + i) := by
  obtain ⟨h1, h2, h3, h4, h5⟩ := h
  unfold EntryOk
  rw [recLenAt_after_replicate, inodeAt_after_replicate, nameLenAt_after_replicate,
    List.length_append, List.length_replicate]
  refine ⟨h1, h2, by omega, fun k hk => ?_, ?_⟩
  · rw [byteAt_shift2]
    exact h4 k hk
  · rw [byteAt_shift2]
    exact h5

/-- The walk of a directory whose chain of offsets is `offs`, started on an image `D`
with nothing printed before. -/
theorem walk_chain_of (D deMem deTail : List Byte) (b S fuel : Nat) (offs : List Nat)
    (hs : b * BLOCK_SIZE + S ≤ 2147483648)
    (hoff : entryOffsets D (b * BLOCK_SIZE) S S (b * BLOCK_SIZE) = offs)
    (hent : ∀ x ∈ offs, EntryOk D x) (hfuel : S ≤ fuel) :
    (dirWalk { i_size := S, i_block0 := b } deMem deTail fuel
        { data := D, pos := 0, out := "", log := [] }).2 ≠ WalkEnd.running
    ∧ (dirWalk { i_size := S, i_block0 := b } deMem deTail fuel
        { data := D, pos := 0, out := "", log := [] }).1.proc.out
      = "" ++ "--Root Directory Entries--\n" ++ expectedReport D offs := by
  have h := walk_follows_entry_chain { i_size := S, i_block0 := b } deMem deTail fuel
    { data := D, pos := 0, out := "", log := [] } hs (by rw [hoff]; exact hent) hfuel
  rw [hoff] at h
  exact h

set_option maxRecDepth 1000000 in
theorem freshDir_entries_ok :
    EntryOk (rootDirEntries.bytes ++ List.replicate 4073 0) 0
    ∧ EntryOk (rootDirEntries.bytes ++ List.replicate 4073 0) 12 := by
  have hl : (rootDirEntries.bytes ++ List.replicate 4073 0).length = 4096 := by
    rw [List.length_append, List.length_replicate]
    rfl
  unfold EntryOk
  rw [hl]
  decide

set_option maxRecDepth 1000000 in
theorem freshDir_rec_len :
    recLenAt (rootDirEntries.bytes ++ List.replicate 4073 0) 0 = 12
    ∧ recLenAt (rootDirEntries.bytes ++ List.replicate 4073 0) 12 = 4084 := by
  decide

set_option maxRecDepth 1000000 in
theorem freshDir_report :
    "" ++ "--Root Directory Entries--\n"
      ++ (expectedEntry (rootDirEntries.bytes ++ List.replicate 4073 0) 0
        ++ (expectedEntry (rootDirEntries.bytes ++ List.replicate 4073 0) 12 ++ ""))
      = "--Root Directory Entries--\n"
        ++ "Inode: 2\nEntry Length : 12\nName Length : 1\nFile Type : 2\nName : .\n\n"
        ++ "Inode: 2\nEntry Length : 4084\nName Length : 2\nFile Type : 2\nName : ..\n\n" := by
  decide

/-- The root directory of a fresh file system in block 1 of an image of two 4096-byte
blocks: the walk ends and prints the heading and the reports of the entries `.` and `..`,
the two entries on the chain of offsets 4096, 4108. -/
theorem walk_follows_entry_chain_fresh :
    (dirWalk { i_size := 4096, i_block0 := 1 } [] [] 4096
        { data := List.replicate 4096 0 ++ (rootDirEntries.bytes ++ List.replicate 4073 0),
          pos := 0, out := "", log := [] }).2 ≠ WalkEnd.running
    ∧ (dirWalk { i_size := 4096, i_block0 := 1 } [] [] 4096
        { data := List.replicate 4096 0 ++ (rootDirEntries.bytes ++ List.replicate 4073 0),
          pos := 0, out := "", log := [] }).1.proc.out
      = "--Root Directory Entries--\n"
        ++ "Inode: 2\nEntry Length : 12\nName Length : 1\nFile Type : 2\nName : .\n\n"
        ++ "Inode: 2\nEntry Length : 4084\nName Length : 2\nFile Type : 2\nName : ..\n\n" := by
  have r0 : recLenAt (List.replicate 4096 0 ++ (rootDirEntries.bytes ++ List.replicate 4073 0))
      (4096 + 0) = 12 := (recLenAt_after_replicate 4096 0 0 _).trans freshDir_rec_len.1
  have r1 : recLenAt (List.replicate 4096 0 ++ (rootDirEntries.bytes ++ List.replicate 4073 0))
      (4096 + 12) = 4084 := (recLenAt_after_replicate 4096 12 0 _).trans freshDir_rec_len.2
  have hoff := entryOffsets_two
    (List.replicate 4096 0 ++ (rootDirEntries.bytes ++ List.replicate 4073 0)) (4096 + 0) 4096
    4096 12 4084 (by decide) r0 r1 (by decide) (by decide) (by decide)
  have hent : ∀ x ∈ [4096 + 0, 4096 + 0 + 12],
      EntryOk (List.replicate 4096 0 ++ (rootDirEntries.bytes ++ List.replicate 4073 0)) x := by
    intro x hx
    simp only [List.mem_cons, List.mem_singleton, List.not_mem_nil, or_false] at hx
    rcases hx with rfl | rfl
    · exact entryOk_after_replicate 4096 0 0 _ freshDir_entries_ok.1
    · exact entryOk_after_replicate 4096 12 0 _ freshDir_entries_ok.2
  obtain ⟨w1, w2⟩ := walk_chain_of
    (List.replicate 4096 0 ++ (rootDirEntries.bytes ++ List.replicate 4073 0)) [] [] 1 4096 4096
    [4096 + 0, 4096 + 0 + 12] (by decide) hoff hent (le_refl _)
  refine ⟨w1, w2.trans ?_⟩
  rw [expectedReport, expectedReport, expectedReport, expectedEntry_after_replicate,
    Nat.add_zero, expectedEntry_after_replicate]
  exact freshDir_report

end Fsa
